import Mathlib

/-!
# geeCache: a verification development

Shallow embedding of the cache engine of `geeCache`:

* `geecache/lru/lru.go`            : the byte-budgeted LRU store (`GeeCache.lru`);
* `geecache/consistenthash/...go`  : the consistent-hash ring (`GeeCache.consistenthash`);
* `geecache/geeCache.go`           : the `Group` orchestrator (`GeeCache`).

Conventions.

* Go's `int64` counters are integers reduced by `wrapInt64` after every
  arithmetic operation (two's-complement wrap-around, as Go defines it).
* A `*list.Element` is a number (`ptr`), the element's address; the list of
  `container/list` is the sequence of its elements, front first.
* A Go `map` is an association list with at most one pair per key.
* A callback `func(key, value)` acts on an environment `σ`; calling it is
  applying it to the current environment.
* A loop that may run forever returns `none` when it does.
-/

set_option linter.unusedSectionVars false
set_option linter.unusedVariables false

namespace GeeCache

/-- Two's-complement reduction of an integer to the range of Go's `int64`. -/
def wrapInt64 (x : Int) : Int := (x + 2 ^ 63) % 2 ^ 64 - 2 ^ 63

/-! ## Go maps -/

/-- Go's `m[k]` with the comma-ok form: `some v` when the key is present. -/
def mapGet {α β : Type} [DecidableEq α] (m : List (α × β)) (k : α) : Option β :=
  match m with
  | [] => none
  | (k', v) :: rest => if k' = k then some v else mapGet rest k

/-- Go's `delete(m, k)`. -/
def mapDelete {α β : Type} [DecidableEq α] (m : List (α × β)) (k : α) : List (α × β) :=
  m.filter (fun kv => decide (kv.1 ≠ k))

/-- Go's `m[k] = v`. -/
def mapSet {α β : Type} [DecidableEq α] (m : List (α × β)) (k : α) (v : β) : List (α × β) :=
  (k, v) :: mapDelete m k

namespace lru

/-- The interface `Value`: anything with a `Len() int`; the result is a Go `int`. -/
class Value (V : Type) where
  Len : V → Int
  Len_int : ∀ v, -2 ^ 63 ≤ Len v ∧ Len v < 2 ^ 63

/-- The struct `entry`. -/
structure entry (V : Type) where
  key : String
  value : V

/-- A `list.Element` holding an `*entry`; `ptr` is the element's address. -/
structure Element (V : Type) where
  ptr : Nat
  Value : entry V

/-- The struct `Cache`.  `env` is the environment the callback acts on and
`nextPtr` the next fresh element address. -/
structure Cache (V : Type) (σ : Type) where
  maxBytes : Int
  nbytes : Int
  ll : List (Element V)
  cache : List (String × Nat)
  OnEvicted : Option (String → V → σ → σ)
  env : σ
  nextPtr : Nat

variable {V : Type} {σ : Type}

/-! ### `container/list` -/

/-- The method `l.PushFront(v)` for a fresh element at address `p`. -/
def PushFront (l : List (Element V)) (p : Nat) (v : entry V) : List (Element V) :=
  ⟨p, v⟩ :: l

/-- The method `l.MoveToFront(e)`: nothing happens when `e` is not an element of `l`. -/
def MoveToFront (l : List (Element V)) (p : Nat) : List (Element V) :=
  match l.find? (fun e => decide (e.ptr = p)) with
  | some e => e :: l.filter (fun e => decide (e.ptr ≠ p))
  | none => l

/-- The method `l.Back()`. -/
def Back (l : List (Element V)) : Option (Element V) := l.getLast?

/-- The method `l.Remove(e)`. -/
def Remove (l : List (Element V)) (p : Nat) : List (Element V) :=
  l.filter (fun e => decide (e.ptr ≠ p))

/-- The element at address `p`, when it is in the list. -/
def deref (l : List (Element V)) (p : Nat) : Option (Element V) :=
  l.find? (fun e => decide (e.ptr = p))

/-- The assignment `e.value = value` through the element at address `p`. -/
def setValue (l : List (Element V)) (p : Nat) (value : V) : List (Element V) :=
  l.map (fun e => if e.ptr = p then { e with Value := { e.Value with value := value } } else e)

/-! ### `lru.go` -/

/-- The expression `int64(len(e.key)) + int64(e.value.Len())`, before reduction to `int64`. -/
def entrySize [Value V] (e : entry V) : Int :=
  (e.key.utf8ByteSize : Int) + Value.Len e.value

/-- The function `New`; `env` is the environment at creation. -/
def New (maxBytes : Int) (onEvicted : Option (String → V → σ → σ)) (env : σ) : Cache V σ :=
  { maxBytes := maxBytes, nbytes := 0, ll := [], cache := [], OnEvicted := onEvicted,
    env := env, nextPtr := 0 }

/-- The method `Cache.Get`: the value (`some v` for `(v, true)`, `none` for `(nil, false)`)
and the store afterwards.  An index entry whose element is not in the list
is produced by no operation (`Inv.index`); the store is left as it is there. -/
def Get (c : Cache V σ) (key : String) : Option V × Cache V σ :=
  match mapGet c.cache key with
  | some ele =>
    match deref c.ll ele with
    | some e => (some e.Value.value, { c with ll := MoveToFront c.ll ele })
    | none => (none, c)
  | none => (none, c)

/-- The method `Cache.RemoveOldest`. -/
def RemoveOldest [Value V] (c : Cache V σ) : Cache V σ :=
  match Back c.ll with
  | some ele =>
    let e := ele.Value
    { c with
      ll := Remove c.ll ele.ptr
      cache := mapDelete c.cache e.key
      nbytes := wrapInt64 (c.nbytes - entrySize e)
      env := match c.OnEvicted with
        | some f => f e.key e.value c.env
        | none => c.env }
  | none => c

/-- The first half of `Cache.Add`: the `if ok { ... } else { ... }`. -/
def insert [Value V] (c : Cache V σ) (key : String) (value : V) : Cache V σ :=
  match mapGet c.cache key with
  | some ele =>
    match deref c.ll ele with
    | some e =>
      { c with
        ll := setValue (MoveToFront c.ll ele) ele value
        nbytes := wrapInt64 (c.nbytes - (Value.Len e.Value.value - Value.Len value)) }
    | none => c
  | none =>
    { c with
      ll := PushFront c.ll c.nextPtr ⟨key, value⟩
      cache := mapSet c.cache key c.nextPtr
      nbytes := wrapInt64 (c.nbytes + entrySize (⟨key, value⟩ : entry V))
      nextPtr := c.nextPtr + 1 }

/-- The loop condition `c.maxBytes != 0 && c.maxBytes < c.nbytes`. -/
def overBudget (c : Cache V σ) : Bool :=
  decide (c.maxBytes ≠ 0) && decide (c.maxBytes < c.nbytes)

/-- The loop `for c.maxBytes != 0 && c.maxBytes < c.nbytes { c.RemoveOldest() }`,
run for at most `fuel` rounds; `none` when the condition still holds after them. -/
def evictLoop [Value V] : Nat → Cache V σ → Option (Cache V σ)
  | 0, c => if overBudget c then none else some c
  | fuel + 1, c => if overBudget c then evictLoop fuel (RemoveOldest c) else some c

/-- The method `Cache.Add`.  The loop gets one round per element of the list:
once the list is empty `RemoveOldest` changes nothing, so a condition that
still holds then holds forever, and `Add` does not return (`none`); a loop that
ends does so whatever the number of rounds allowed (`evictLoop_fuel`). -/
def Add [Value V] (c : Cache V σ) (key : String) (value : V) : Option (Cache V σ) :=
  let c1 := insert c key value
  evictLoop c1.ll.length c1

/-- The method `Cache.Len`. -/
def Len (c : Cache V σ) : Int := c.ll.length

/-- A call of one of the methods of the store. -/
inductive Call (V : Type) where
  | add (key : String) (value : V)
  | get (key : String)
  | removeOldest

/-- One call on the store. -/
def step [Value V] (c : Cache V σ) : Call V → Option (Cache V σ)
  | .add key value => Add c key value
  | .get key => some (Get c key).2
  | .removeOldest => some (RemoveOldest c)

/-- A sequence of calls, one after the other. -/
def run [Value V] (c : Cache V σ) : List (Call V) → Option (Cache V σ)
  | [] => some c
  | call :: rest => (step c call).bind (fun c' => run c' rest)

/-- A value type whose `Len()` reports the number it carries (as a Go `int`). -/
structure Sized where
  tag : Nat
  len : Int
deriving DecidableEq, Repr

instance : Value Sized where
  Len s := wrapInt64 s.len
  Len_int s := by
    show -2 ^ 63 ≤ wrapInt64 s.len ∧ wrapInt64 s.len < 2 ^ 63
    unfold wrapInt64; omega

end lru

/-! ## `consistenthash.go` -/

namespace consistenthash

/-- The type `Hash`, `func(data []byte) uint32`; the result is read modulo `2 ^ 32`. -/
abbrev Hash := List UInt8 → Nat

/-- The conversion `[]byte(s)`. -/
def bytes (s : String) : List UInt8 := s.toUTF8.data.toList

/-- One bit of the IEEE CRC-32 (reflected polynomial `0xEDB88320`). -/
def crcBit (crc : Nat) : Nat :=
  if crc % 2 = 1 then Nat.xor (crc / 2) 0xEDB88320 else crc / 2

/-- One byte of the IEEE CRC-32. -/
def crcByte (crc : Nat) (b : UInt8) : Nat :=
  crcBit (crcBit (crcBit (crcBit (crcBit (crcBit (crcBit (crcBit (Nat.xor crc b.toNat))))))))

/-- The library function `crc32.ChecksumIEEE`. -/
def ChecksumIEEE : Hash := fun data =>
  Nat.xor (data.foldl crcByte 0xFFFFFFFF) 0xFFFFFFFF

/-- The library function `sort.Ints`. -/
def sortInts (l : List Int) : List Int := l.insertionSort (· ≤ ·)

/-- The loop of the library function `sort.Search`, on the interval from `i` to `j`. -/
def searchLoop (f : Nat → Bool) : Nat → Nat → Nat → Nat
  | 0, i, _ => i
  | fuel + 1, i, j =>
    if i < j then
      let h := (i + j) / 2
      if !f h then searchLoop f fuel (h + 1) j else searchLoop f fuel i h
    else i

/-- The library function `sort.Search`: the interval shrinks in every round,
so `n` rounds are enough (`searchLoop_fuel`). -/
def Search (n : Nat) (f : Nat → Bool) : Nat := searchLoop f n 0 n

/-- The struct `Map`. -/
structure Map where
  hash : Hash
  replicas : Int
  keys : List Int
  hashMap : List (Int × String)

/-- The expression `int(m.hash([]byte(s)))`. -/
def Map.hashOf (m : Map) (s : String) : Int := ((m.hash (bytes s) % 2 ^ 32 : Nat) : Int)

/-- The function `New`; a `nil` hash function is `none`. -/
def New (replicas : Int) (fn : Option Hash) : Map :=
  { hash := match fn with
      | some f => f
      | none => ChecksumIEEE
    replicas := replicas, keys := [], hashMap := [] }

/-- The body of the inner loop of `Map.Add`, for replica `i` of `realNode`. -/
def Map.addReplica (realNode : String) (m : Map) (i : Nat) : Map :=
  let hash := m.hashOf (toString i ++ realNode)
  { m with keys := m.keys ++ [hash], hashMap := mapSet m.hashMap hash realNode }

/-- The inner loop of `Map.Add`: `for i := 0; i < m.replicas; i++`. -/
def Map.addNode (m : Map) (realNode : String) : Map :=
  (List.range m.replicas.toNat).foldl (Map.addReplica realNode) m

/-- The method `Map.Add`. -/
def Map.Add (m : Map) (realNodes : List String) : Map :=
  let m1 := realNodes.foldl Map.addNode m
  { m1 with keys := sortInts m1.keys }

/-- The method `Map.Get`.  `sort.Search` probes only indices below `len(m.keys)`
and the remainder is below it too, so no index is out of range. -/
def Map.Get (m : Map) (key : String) : String :=
  if m.keys.length = 0 then ""
  else
    let hash := m.hashOf key
    let idx := Search m.keys.length (fun i => decide (m.keys.getD i 0 ≥ hash))
    (mapGet m.hashMap (m.keys.getD (idx % m.keys.length) 0)).getD ""

/-- A hash function for examples: the bytes read as a decimal number. -/
def decimalHash : Hash := fun data => data.foldl (fun acc b => acc * 10 + (b.toNat - 48)) 0

/-- A ring after several calls of `Add`, one list of nodes per call. -/
def Map.addAll (m : Map) (calls : List (List String)) : Map :=
  calls.foldl Map.Add m

end consistenthash

/-! ## `geeCache.go` -/

/-- Modelled from the spec: the `ByteView` of `byteview.go` is missing; an immutable
wrapper over a byte payload. -/
structure ByteView where
  b : List UInt8
deriving DecidableEq

/-- Modelled from the spec: the `Len` accessor of `ByteView` (missing), the length of
the payload as a Go `int`. -/
instance : lru.Value ByteView where
  Len v := wrapInt64 v.b.length
  Len_int v := by
    show -2 ^ 63 ≤ wrapInt64 v.b.length ∧ wrapInt64 v.b.length < 2 ^ 63
    unfold wrapInt64; omega

/-- Modelled from the spec: `cloneBytes` of `byteview.go` is missing; a copy of the bytes. -/
def cloneBytes (b : List UInt8) : List UInt8 := b

/-- Modelled from the spec: the struct `cache` of `cache.go` is missing; one LRU store
behind a lock.  The literal `cache{cacheBytes: cacheBytes}` of `NewGroup` sets the
budget only, so the store is absent until the first `add`. -/
structure cache where
  cacheBytes : Int
  lru : Option (lru.Cache ByteView Unit)

/-- Modelled from the spec: the method `cache.add` (missing), `Insert` on the store
under the lock; the store is created with the budget and no callback when absent. -/
def cache.add (c : cache) (key : String) (value : ByteView) : Option cache :=
  let store := match c.lru with
    | some l => l
    | none => lru.New c.cacheBytes none ()
  (lru.Add store key value).map (fun l => { c with lru := some l })

/-- Modelled from the spec: the method `cache.get` (missing), `Lookup` on the store
under the lock. -/
def cache.get (c : cache) (key : String) : Option ByteView × cache :=
  match c.lru with
  | none => (none, c)
  | some l => ((lru.Get l key).1, { c with lru := some (lru.Get l key).2 })

/-- The Go type `error`, by its message. -/
abbrev Error := String

/-- The interface `Getter`: `Get(key string) ([]byte, error)`. -/
abbrev Getter := String → Except Error (List UInt8)

/-- Modelled from the spec: the messages of package `geecachepb` are missing; the
request carries the namespace and the key. -/
structure Request where
  Group : String
  Key : String
deriving DecidableEq

/-- Modelled from the spec: the response carries the raw value bytes. -/
structure Response where
  Value : List UInt8
deriving DecidableEq

/-- Modelled from the spec: the interface `PeerGetter` of `peers.go` is missing; the
peer-fetch capability `Get(request) -> (response, error)`. -/
structure PeerGetter where
  Get : Request → Except Error Response

/-- Modelled from the spec: the interface `PeerPicker` of `peers.go` is missing; the
capability `PickPeer(key) -> (peerHandle, found)`. -/
structure PeerPicker where
  PickPeer : String → Option PeerGetter

/-- A call that leaves the `Group`: to the backing source, the peer picker or a peer. -/
inductive Event where
  | getterGet (key : String)
  | pickPeer (key : String)
  | peerGet (req : Request)
deriving DecidableEq

/-- The struct `Group`.  The `loader` has no call in flight between two sequential
calls and is left out; `trace` lists the outside calls made so far. -/
structure Group where
  name : String
  getter : Getter
  mainCache : cache
  peers : Option PeerPicker
  trace : List Event

/-- Modelled from the spec: `Do` of package `singleflight` is missing; with no call in
flight for the key, the caller runs the load function and returns its result. -/
def singleflight.Do {α : Type} (_key : String) (fn : α) : α := fn

/-- The function `NewGroup` with the registry `groups` as a map; `none` is the panic
on a `nil` getter. -/
def NewGroup (groups : List (String × Group)) (name : String) (cacheBytes : Int)
    (getter : Option Getter) : Option (Group × List (String × Group)) :=
  match getter with
  | none => none
  | some getter =>
    let g : Group :=
      { name := name, getter := getter, mainCache := { cacheBytes := cacheBytes, lru := none },
        peers := none, trace := [] }
    some (g, mapSet groups name g)

/-- The function `GetGroup`. -/
def GetGroup (groups : List (String × Group)) (name : String) : Option Group :=
  mapGet groups name

/-- The method `Group.RegisterPeers`: the value of the panic when the call panics (`none`
when it returns), and the `Group` as the call leaves it.  The panic comes before the
assignment, so a call that panics leaves the `Group` as it found it. -/
def Group.RegisterPeers (g : Group) (peers : Option PeerPicker) : Option String × Group :=
  match g.peers with
  | some _ => (some "RegisterPeerPicker called more then once", g)
  | none => (none, { g with peers := peers })

/-- The method `Group.populateCache`; `none` when `add` does not return. -/
def Group.populateCache (g : Group) (key : String) (value : ByteView) : Option Group :=
  (g.mainCache.add key value).map (fun c => { g with mainCache := c })

/-- The method `Group.getLocally`. -/
def Group.getLocally (g : Group) (key : String) : Option (Except Error ByteView × Group) :=
  let g1 := { g with trace := g.trace ++ [Event.getterGet key] }
  match g.getter key with
  | .error err => some (.error err, g1)
  | .ok bytes =>
    let value : ByteView := { b := cloneBytes bytes }
    (g1.populateCache key value).map (fun g2 => (.ok value, g2))

/-- The method `Group.getFromPeer`. -/
def Group.getFromPeer (g : Group) (peer : PeerGetter) (key : String) :
    Except Error ByteView × Group :=
  let req : Request := { Group := g.name, Key := key }
  let g1 := { g with trace := g.trace ++ [Event.peerGet req] }
  match peer.Get req with
  | .error err => (.error err, g1)
  | .ok res => (.ok { b := res.Value }, g1)

/-- The method `Group.load`. -/
def Group.load (g : Group) (key : String) : Option (Except Error ByteView × Group) :=
  singleflight.Do key <|
    match g.peers with
    | some peers =>
      let g1 := { g with trace := g.trace ++ [Event.pickPeer key] }
      match peers.PickPeer key with
      | some peer =>
        match g1.getFromPeer peer key with
        | (.ok value, g2) => some (.ok value, g2)
        | (.error _, g2) => g2.getLocally key
      | none => g1.getLocally key
    | none => g.getLocally key

/-- The method `Group.Get`. -/
def Group.Get (g : Group) (key : String) : Option (Except Error ByteView × Group) :=
  if key = "" then some (.error "key is required", g)
  else
    match g.mainCache.get key with
    | (some v, c) => some (.ok v, { g with mainCache := c })
    | (none, c) => Group.load { g with mainCache := c } key

end GeeCache


/-! # Invariants and derived notions -/

namespace GeeCache

namespace lru

variable {V : Type} {σ : Type}

/-- The key of the entry an element holds. -/
abbrev Element.key (e : Element V) : String := e.Value.key

/-- Address and key of an element. -/
def Element.id (e : Element V) : Nat × String := (e.ptr, e.Value.key)

/-- The sum of `len(key) + value.Len()` over the elements of a list, in the integers. -/
def sumSizes [Value V] (l : List (Element V)) : Int :=
  (l.map (fun e => entrySize e.Value)).sum

/-- The invariant of the store: addresses and keys of the list are pairwise
distinct, the index maps exactly the keys of the list to their elements, the
addresses in use are below `nextPtr`, and `nbytes` is the `int64` of the sum of
the entry sizes. -/
structure Inv [Value V] (c : Cache V σ) : Prop where
  ptrs : (c.ll.map Element.ptr).Nodup
  keys : (c.ll.map Element.key).Nodup
  index : ∀ k p, mapGet c.cache k = some p ↔ ∃ e ∈ c.ll, e.ptr = p ∧ e.key = k
  fresh : ∀ e ∈ c.ll, e.ptr < c.nextPtr
  bytes : c.nbytes = wrapInt64 (sumSizes c.ll)
  indexKeys : (c.cache.map Prod.fst).Nodup

end lru

end GeeCache

namespace GeeCache.lru

variable {V : Type} {σ : Type}

/-- The bytes a call adds to the store: `len(key) + value.Len()` for an `Add`. -/
def Call.bytes [Value V] : Call V → Int
  | .add key value => entrySize (⟨key, value⟩ : entry V)
  | .get _ => 0
  | .removeOldest => 0

/-- The bytes all the `Add` calls of a sequence bring, in the integers. -/
def addedBytes [Value V] (calls : List (Call V)) : Int := (calls.map Call.bytes).sum

/-- The `Len()` of the value a call passes (`0` when it passes none). -/
def Call.valueLen [Value V] : Call V → Int
  | .add _ value => Value.Len value
  | .get _ => 0
  | .removeOldest => 0

/-- The values of the `Add` calls of a sequence have a non-negative `Len`. -/
def NonNegLens [Value V] (calls : List (Call V)) : Prop :=
  ∀ call ∈ calls, 0 ≤ call.valueLen

instance [Value V] (calls : List (Call V)) : Decidable (NonNegLens calls) := by
  unfold NonNegLens
  infer_instance

/-- Whether a call is a direct `RemoveOldest`. -/
def Call.isRemoveOldest : Call V → Bool
  | .add _ _ => false
  | .get _ => false
  | .removeOldest => true

/-- A sequence of `Add` and `Get` calls only. -/
def AddGetOnly (calls : List (Call V)) : Prop :=
  ∀ call ∈ calls, call.isRemoveOldest = false

instance (calls : List (Call V)) : Decidable (AddGetOnly calls) := by
  unfold AddGetOnly
  infer_instance

end GeeCache.lru

namespace GeeCache.lru

variable {V : Type} {σ : Type}

/-- The entries held have non-negative sizes that sum to at most `bound`. -/
def Fits [Value V] (c : Cache V σ) (bound : Int) : Prop :=
  (∀ e ∈ c.ll, 0 ≤ entrySize e.Value) ∧ sumSizes c.ll ≤ bound

end GeeCache.lru

namespace GeeCache.lru

variable {V : Type} {σ : Type}

/-- The value most recently written for a key by an `Add` call of a sequence. -/
def lastWritten (calls : List (Call V)) (k : String) : Option V :=
  calls.foldl (fun acc call =>
    match call with
    | .add key value => if key = k then some value else acc
    | .get _ => acc
    | .removeOldest => acc) none

/-- Every entry held carries the value most recently written for its key. -/
def Written (calls : List (Call V)) (c : Cache V σ) : Prop :=
  ∀ e ∈ c.ll, lastWritten calls e.key = some e.Value.value

end GeeCache.lru

namespace GeeCache.lru

variable {V : Type} {σ : Type}

/-- The keys of a log of uses (most recent first), each once, most recently used first. -/
def recent : List String → List String
  | [] => []
  | k :: t => k :: (recent t).filter (fun x => decide (x ≠ k))

/-- The key a call uses: the key of an `Add`, the key of a `Get` that finds it. -/
def touch (c : Cache V σ) : Call V → List String
  | .add key _ => [key]
  | .get key => if (Get c key).1.isSome then [key] else []
  | .removeOldest => []

/-- The keys used by a sequence of calls from a store on, the most recent use first. -/
def touchLog [Value V] (c : Cache V σ) : List (Call V) → List String
  | [] => []
  | call :: rest =>
    match step c call with
    | some c' => touchLog c' rest ++ touch c call
    | none => touch c call

end GeeCache.lru

namespace GeeCache.consistenthash

/-- Every point of the ring is mapped to one of the given nodes. -/
def Mapped (m : Map) (nodes : List String) : Prop :=
  ∀ p ∈ m.keys, ∃ n ∈ nodes, mapGet m.hashMap p = some n

end GeeCache.consistenthash

namespace GeeCache

/-- The local cache holds nothing: the store is absent, or was created with the budget
and no callback and has been emptied by its own calls. -/
def cache.Empty (c : cache) : Prop :=
  match c.lru with
  | none => True
  | some l => l.ll = [] ∧ ∃ calls, lru.run (lru.New c.cacheBytes none ()) calls = some l

end GeeCache

namespace GeeCache

/-- A backing source for examples: one key, `Tom`, with three bytes. -/
def scoresGetter : Getter := fun key =>
  if key = "Tom" then .ok [54, 51, 48] else .error (key ++ " not exist")

/-- A group for examples, as `NewGroup("scores", 2048, scoresGetter)` makes it. -/
def scores : Group :=
  { name := "scores", getter := scoresGetter, mainCache := { cacheBytes := 2048, lru := none },
    peers := none, trace := [] }

end GeeCache

namespace GeeCache.lru

variable {V : Type} {σ : Type}

/-- The keys of the `Add` calls of a sequence, in the order of the calls. -/
def addedKeys (calls : List (Call V)) : List String :=
  calls.filterMap (fun call =>
    match call with
    | .add key _ => some key
    | .get _ => none
    | .removeOldest => none)

/-- The store holds exactly the keys added by a sequence of calls. -/
def HoldsAdded (calls : List (Call V)) (c : Cache V σ) : Prop :=
  ∀ k, k ∈ c.ll.map Element.key ↔ k ∈ addedKeys calls

end GeeCache.lru

namespace GeeCache.consistenthash

/-- The points `Add` computes for a node: the hash of `strconv.Itoa(i) + realNode` for
every replica index `i` below `replicas`. -/
def nodePoints (m : Map) (realNode : String) : List Int :=
  (List.range m.replicas.toNat).map (fun i => m.hashOf (toString i ++ realNode))

/-- The ring `m'` comes from the ring `m` by adding nodes of `N`: same hash function, the
points of `m` are points of `m'`, and a point of `m'` is a point of `m` with its node
unchanged or is mapped to a node of `N`. -/
def Extends (m m' : Map) (N : List String) : Prop :=
  m'.hash = m.hash ∧ (∀ p ∈ m.keys, p ∈ m'.keys) ∧
    ∀ p ∈ m'.keys, (p ∈ m.keys ∧ mapGet m'.hashMap p = mapGet m.hashMap p) ∨
      ∃ n ∈ N, mapGet m'.hashMap p = some n

end GeeCache.consistenthash

namespace GeeCache

/-- The store `cache.add` works on: the one held, or a fresh one with the budget. -/
def cache.store (c : cache) : lru.Cache ByteView Unit :=
  match c.lru with
  | some l => l
  | none => lru.New c.cacheBytes none ()

/-- The store of the local cache, when there is one, was created with the budget and no
callback and has seen only calls of its own methods. -/
def cache.Reachable (c : cache) : Prop :=
  match c.lru with
  | none => True
  | some l => ∃ calls, lru.run (lru.New c.cacheBytes none ()) calls = some l

/-- A peer for examples whose fetch fails. -/
def downPeer : PeerGetter := { Get := fun _ => .error "peer down" }

/-- A peer for examples that answers every request with three bytes. -/
def upPeer : PeerGetter := { Get := fun _ => .ok { Value := [54, 51, 48] } }

/-- A picker for examples that selects the given peer for every key. -/
def always (peer : PeerGetter) : PeerPicker := { PickPeer := fun _ => some peer }

/-- The result of a call as an option: the value when there is no error. -/
def valueOf (r : Except Error ByteView) : Option ByteView :=
  match r with
  | .ok v => some v
  | .error _ => none

end GeeCache

namespace GeeCache.lru

variable {V : Type} {σ : Type}

/-- The call `c.OnEvicted(key, value)` under its guard `c.OnEvicted != nil`, on an
environment. -/
def callOnEvicted (onEvicted : Option (String → V → σ → σ)) (key : String) (value : V)
    (env : σ) : σ :=
  match onEvicted with
  | some f => f key value env
  | none => env

end GeeCache.lru

/-! # Lemmas -/

namespace GeeCache

theorem wrapInt64_of_range {x : Int} (h1 : -2 ^ 63 ≤ x) (h2 : x < 2 ^ 63) : wrapInt64 x = x := by
  unfold wrapInt64; omega

theorem wrapInt64_range (x : Int) : -2 ^ 63 ≤ wrapInt64 x ∧ wrapInt64 x < 2 ^ 63 := by
  unfold wrapInt64; omega

theorem wrapInt64_add_left (x y : Int) : wrapInt64 (wrapInt64 x + y) = wrapInt64 (x + y) := by
  unfold wrapInt64; omega

theorem wrapInt64_sub_left (x y : Int) : wrapInt64 (wrapInt64 x - y) = wrapInt64 (x - y) := by
  unfold wrapInt64; omega

theorem mapGet_mapDelete {α β : Type} [DecidableEq α] (m : List (α × β)) (k k' : α) :
    mapGet (mapDelete m k) k' = if k' = k then none else mapGet m k' := by
  induction m with
  | nil => simp [mapDelete, mapGet]
  | cons kv rest ih =>
    obtain ⟨a, b⟩ := kv
    unfold mapDelete at ih ⊢
    by_cases ha : a = k
    · subst ha
      simp only [List.filter_cons, ne_eq, not_true_eq_false, decide_False, Bool.false_eq_true,
        if_false, ih]
      by_cases hk : k' = a
      · simp [hk]
      · have : ¬ a = k' := fun h => hk h.symm
        simp [hk, mapGet, this]
    · simp only [List.filter_cons, ne_eq, ha, not_false_eq_true, decide_True, if_true, mapGet, ih]
      by_cases hk : k' = k
      · subst hk
        simp [ha]
      · simp [hk]

theorem mapGet_mapSet {α β : Type} [DecidableEq α] (m : List (α × β)) (k k' : α) (v : β) :
    mapGet (mapSet m k v) k' = if k' = k then some v else mapGet m k' := by
  unfold mapSet
  by_cases hk : k' = k
  · subst hk; simp [mapGet]
  · have : ¬ k = k' := fun h => hk h.symm
    simp [mapGet, this, hk, mapGet_mapDelete]

theorem mapGet_isSome_iff {α β : Type} [DecidableEq α] (m : List (α × β)) (k : α) :
    (∃ v, mapGet m k = some v) ↔ k ∈ m.map Prod.fst := by
  induction m with
  | nil => simp [mapGet]
  | cons kv rest ih =>
    obtain ⟨a, b⟩ := kv
    by_cases ha : a = k
    · simp [mapGet, ha]
    · have : ¬ k = a := fun h => ha h.symm
      simp [mapGet, ha, this, ih]

end GeeCache

namespace GeeCache.lru

variable {V : Type} {σ : Type}

theorem deref_of_mem {l : List (Element V)} (hn : (l.map Element.ptr).Nodup) {e : Element V}
    (he : e ∈ l) : deref l e.ptr = some e := by
  induction l with
  | nil => cases he
  | cons x xs ih =>
    rw [List.map_cons, List.nodup_cons] at hn
    unfold deref at ih ⊢
    rcases List.mem_cons.1 he with rfl | hmem
    · simp
    · have hne : x.ptr ≠ e.ptr := fun h => hn.1 (h ▸ List.mem_map_of_mem _ hmem)
      simp [List.find?_cons, hne, ih hn.2 hmem]

theorem deref_some {l : List (Element V)} {p : Nat} {e : Element V} (h : deref l p = some e) :
    e ∈ l ∧ e.ptr = p := by
  unfold deref at h
  exact ⟨List.mem_of_find?_eq_some h, by simpa using List.find?_some h⟩

theorem filter_ptr_of_not_mem {l : List (Element V)} {p : Nat} (h : p ∉ l.map Element.ptr) :
    l.filter (fun e => decide (e.ptr ≠ p)) = l := by
  apply List.filter_eq_self.2
  intro e he
  have : e.ptr ≠ p := fun h' => h (h' ▸ List.mem_map_of_mem _ he)
  simpa using this

theorem moveToFront_of_mem {l : List (Element V)} (hn : (l.map Element.ptr).Nodup)
    {e : Element V} (he : e ∈ l) :
    MoveToFront l e.ptr = e :: l.filter (fun x => decide (x.ptr ≠ e.ptr)) := by
  have h := deref_of_mem hn he
  unfold deref at h
  unfold MoveToFront
  rw [h]

theorem perm_front {l : List (Element V)} (hn : (l.map Element.ptr).Nodup)
    {e : Element V} (he : e ∈ l) :
    (e :: l.filter (fun x => decide (x.ptr ≠ e.ptr))).Perm l := by
  induction l with
  | nil => cases he
  | cons x xs ih =>
    rw [List.map_cons, List.nodup_cons] at hn
    rcases List.mem_cons.1 he with rfl | hmem
    · rw [List.filter_cons_of_neg (by simp), filter_ptr_of_not_mem hn.1]
    · have hne : x.ptr ≠ e.ptr := fun h => hn.1 (h ▸ List.mem_map_of_mem _ hmem)
      simp only [List.filter_cons, hne, ne_eq, not_false_eq_true, decide_True, if_true]
      exact (List.Perm.swap x e _).trans ((ih hn.2 hmem).cons x)

theorem remove_back {l : List (Element V)} (hn : (l.map Element.ptr).Nodup)
    {e : Element V} (he : Back l = some e) : Remove l e.ptr = l.dropLast := by
  unfold Back at he
  obtain ⟨ys, rfl⟩ := List.getLast?_eq_some_iff.1 he
  rw [List.map_append, List.nodup_append] at hn
  have hnot : e.ptr ∉ ys.map Element.ptr := fun h => hn.2.2 h (by simp)
  unfold Remove
  rw [List.filter_append, filter_ptr_of_not_mem hnot]
  simp

theorem setValue_of_not_mem {l : List (Element V)} {p : Nat} (h : p ∉ l.map Element.ptr)
    (v : V) : setValue l p v = l := by
  unfold setValue
  conv => rhs; rw [← List.map_id l]
  apply List.map_congr_left
  intro e he
  have : e.ptr ≠ p := fun h' => h (h' ▸ List.mem_map_of_mem _ he)
  simp [this]

theorem not_mem_ptrs_filter (l : List (Element V)) (p : Nat) :
    p ∉ (l.filter (fun e => decide (e.ptr ≠ p))).map Element.ptr := by
  intro h
  obtain ⟨e, he, hp⟩ := List.mem_map.1 h
  have := (List.mem_filter.1 he).2
  simp [hp] at this

end GeeCache.lru

namespace GeeCache.lru

variable {V : Type} {σ : Type} [Value V]

theorem map_ptr_eq (l : List (Element V)) : l.map Element.ptr = (l.map Element.id).map Prod.fst := by
  rw [List.map_map]; rfl

theorem map_key_eq (l : List (Element V)) : l.map Element.key = (l.map Element.id).map Prod.snd := by
  rw [List.map_map]; rfl

theorem mem_ids_iff (l : List (Element V)) (p : Nat) (k : String) :
    (∃ e ∈ l, e.ptr = p ∧ e.key = k) ↔ (p, k) ∈ l.map Element.id := by
  constructor
  · rintro ⟨e, he, rfl, rfl⟩
    exact List.mem_map_of_mem _ he
  · intro h
    obtain ⟨e, he, hid⟩ := List.mem_map.1 h
    have h1 : e.ptr = p := congrArg Prod.fst hid
    have h2 : e.key = k := congrArg Prod.snd hid
    exact ⟨e, he, h1, h2⟩

theorem Inv.of_ids {c c' : Cache V σ} (h : Inv c)
    (hids : (c'.ll.map Element.id).Perm (c.ll.map Element.id))
    (hc : c'.cache = c.cache) (hn : c'.nextPtr = c.nextPtr)
    (hb : c'.nbytes = wrapInt64 (sumSizes c'.ll)) : Inv c' where
  ptrs := by
    rw [map_ptr_eq]
    exact ((hids.map Prod.fst).nodup_iff).2 (by rw [← map_ptr_eq]; exact h.ptrs)
  keys := by
    rw [map_key_eq]
    exact ((hids.map Prod.snd).nodup_iff).2 (by rw [← map_key_eq]; exact h.keys)
  index := by
    intro k p
    rw [hc, h.index, mem_ids_iff, mem_ids_iff, hids.mem_iff]
  fresh := by
    intro e he
    have : (e.ptr, e.key) ∈ c.ll.map Element.id := hids.mem_iff.1 (List.mem_map_of_mem _ he)
    obtain ⟨e', he', h1, _⟩ := (mem_ids_iff _ _ _).2 this
    rw [hn, ← h1]
    exact h.fresh e' he'
  bytes := hb
  indexKeys := by rw [hc]; exact h.indexKeys

theorem Inv.of_perm {c c' : Cache V σ} (h : Inv c) (hll : c'.ll.Perm c.ll)
    (hc : c'.cache = c.cache) (hn : c'.nextPtr = c.nextPtr) (hb : c'.nbytes = c.nbytes) :
    Inv c' := by
  refine h.of_ids (hll.map _) hc hn ?_
  rw [hb, h.bytes]
  unfold sumSizes
  rw [(hll.map _).sum_eq]

theorem Inv.index_of_mem {c : Cache V σ} (h : Inv c) {e : Element V} (he : e ∈ c.ll) :
    mapGet c.cache e.key = some e.ptr :=
  (h.index _ _).2 ⟨e, he, rfl, rfl⟩

theorem Inv.not_mem_of_index_none {c : Cache V σ} (h : Inv c) {k : String}
    (hk : mapGet c.cache k = none) : k ∉ c.ll.map Element.key := by
  intro hmem
  obtain ⟨e, he, rfl⟩ := List.mem_map.1 hmem
  have := h.index_of_mem he
  rw [hk] at this
  cases this

theorem Inv_New (maxBytes : Int) (cb : Option (String → V → σ → σ)) (env : σ) :
    Inv (New maxBytes cb env) where
  ptrs := by simp [New]
  keys := by simp [New]
  index := by intro k p; simp [New, mapGet]
  fresh := by simp [New]
  bytes := by simp [New, sumSizes, wrapInt64]
  indexKeys := by simp [New]

theorem Get_of_mem {c : Cache V σ} (h : Inv c) {e : Element V} (he : e ∈ c.ll) :
    Get c e.key = (some e.Value.value,
      { c with ll := e :: c.ll.filter (fun x => decide (x.ptr ≠ e.ptr)) }) := by
  simp only [Get, h.index_of_mem he, deref_of_mem h.ptrs he, moveToFront_of_mem h.ptrs he]

theorem Get_of_absent {c : Cache V σ} {k : String} (h : mapGet c.cache k = none) :
    Get c k = (none, c) := by
  unfold Get
  rw [h]

theorem Inv_Get {c : Cache V σ} (h : Inv c) (k : String) : Inv (Get c k).2 := by
  cases hk : mapGet c.cache k with
  | none => rw [Get_of_absent hk]; exact h
  | some p =>
    obtain ⟨e, he, rfl, rfl⟩ := (h.index _ _).1 hk
    rw [Get_of_mem h he]
    exact h.of_perm (perm_front h.ptrs he) rfl rfl rfl

theorem RemoveOldest_of_back {c : Cache V σ} (h : Inv c) {ele : Element V}
    (hb : Back c.ll = some ele) :
    RemoveOldest c = { c with
      ll := c.ll.dropLast
      cache := mapDelete c.cache ele.key
      nbytes := wrapInt64 (c.nbytes - entrySize ele.Value)
      env := match c.OnEvicted with
        | some f => f ele.key ele.Value.value c.env
        | none => c.env } := by
  unfold RemoveOldest
  rw [hb]
  simp only [remove_back h.ptrs hb]

theorem RemoveOldest_of_empty {c : Cache V σ} (hb : c.ll = []) : RemoveOldest c = c := by
  unfold RemoveOldest Back
  rw [hb]
  rfl

theorem Inv_RemoveOldest {c : Cache V σ} (h : Inv c) : Inv (RemoveOldest c) := by
  cases hb : Back c.ll with
  | none =>
    have : c.ll = [] := by unfold Back at hb; simpa using hb
    rw [RemoveOldest_of_empty this]; exact h
  | some ele =>
    rw [RemoveOldest_of_back h hb]
    unfold Back at hb
    obtain ⟨ys, hys⟩ := List.getLast?_eq_some_iff.1 hb
    have hp := h.ptrs
    have hk := h.keys
    rw [hys, List.map_append, List.nodup_append] at hp hk
    have hkey : ∀ e ∈ ys, e.key ≠ ele.key := fun e he heq =>
      hk.2.2 (List.mem_map_of_mem Element.key he) (by rw [heq]; simp)
    refine ⟨?_, ?_, ?_, ?_, ?_, ?_⟩
    · simp only [hys, List.dropLast_concat]; exact hp.1
    · simp only [hys, List.dropLast_concat]; exact hk.1
    · intro k p
      simp only [hys, List.dropLast_concat]
      rw [mapGet_mapDelete]
      by_cases hkk : k = ele.key
      · simp only [hkk, if_true]
        constructor
        · intro hh; cases hh
        · rintro ⟨e, he, _, he2⟩
          exact absurd he2 (hkey e he)
      · simp only [hkk, if_false]
        rw [h.index, hys]
        constructor
        · rintro ⟨e, he, h1, h2⟩
          rcases List.mem_append.1 he with he | he
          · exact ⟨e, he, h1, h2⟩
          · have : e = ele := by simpa using he
            subst this
            exact absurd h2.symm hkk
        · rintro ⟨e, he, h1, h2⟩
          exact ⟨e, List.mem_append_left _ he, h1, h2⟩
    · intro e he
      simp only [hys, List.dropLast_concat] at he
      exact h.fresh e (by rw [hys]; exact List.mem_append_left _ he)
    · simp only [hys, List.dropLast_concat]
      rw [h.bytes, hys, wrapInt64_sub_left]
      congr 1
      simp [sumSizes]
    · exact (List.filter_sublist _).map Prod.fst |>.nodup h.indexKeys

end GeeCache.lru

namespace GeeCache.lru

variable {V : Type} {σ : Type} [Value V]

theorem insert_of_mem {c : Cache V σ} (h : Inv c) {e : Element V} (he : e ∈ c.ll) (v : V) :
    insert c e.key v = { c with
      ll := ⟨e.ptr, ⟨e.key, v⟩⟩ :: c.ll.filter (fun x => decide (x.ptr ≠ e.ptr))
      nbytes := wrapInt64 (c.nbytes - (Value.Len e.Value.value - Value.Len v)) } := by
  simp only [insert, h.index_of_mem he, deref_of_mem h.ptrs he, moveToFront_of_mem h.ptrs he]
  have : setValue (e :: c.ll.filter (fun x => decide (x.ptr ≠ e.ptr))) e.ptr v
      = ⟨e.ptr, ⟨e.key, v⟩⟩ :: c.ll.filter (fun x => decide (x.ptr ≠ e.ptr)) := by
    have h2 := setValue_of_not_mem (not_mem_ptrs_filter c.ll e.ptr) v
    unfold setValue at h2 ⊢
    rw [List.map_cons, h2]
    simp
  rw [this]

theorem insert_of_absent {c : Cache V σ} {k : String} (hk : mapGet c.cache k = none) (v : V) :
    insert c k v = { c with
      ll := ⟨c.nextPtr, ⟨k, v⟩⟩ :: c.ll
      cache := mapSet c.cache k c.nextPtr
      nbytes := wrapInt64 (c.nbytes + entrySize (⟨k, v⟩ : entry V))
      nextPtr := c.nextPtr + 1 } := by
  simp only [insert, hk, PushFront]

theorem sumSizes_cons (e : Element V) (l : List (Element V)) :
    sumSizes (e :: l) = entrySize e.Value + sumSizes l := by
  simp [sumSizes]

theorem sumSizes_perm {l l' : List (Element V)} (h : l.Perm l') : sumSizes l = sumSizes l' := by
  unfold sumSizes
  exact (h.map _).sum_eq

theorem Inv_insert {c : Cache V σ} (h : Inv c) (k : String) (v : V) : Inv (insert c k v) := by
  cases hk : mapGet c.cache k with
  | none =>
    rw [insert_of_absent hk]
    have hnk := h.not_mem_of_index_none hk
    refine ⟨?_, ?_, ?_, ?_, ?_, ?_⟩
    · simp only [List.map_cons, List.nodup_cons]
      refine ⟨?_, h.ptrs⟩
      intro hmem
      obtain ⟨e, he, hp⟩ := List.mem_map.1 hmem
      have := h.fresh e he
      omega
    · simp only [List.map_cons, List.nodup_cons]
      exact ⟨hnk, h.keys⟩
    · intro k' p
      simp only [mapGet_mapSet]
      by_cases hkk : k' = k
      · subst hkk
        simp only [if_true, Option.some.injEq]
        constructor
        · intro hp
          exact ⟨⟨c.nextPtr, ⟨k', v⟩⟩, List.mem_cons_self _ _, hp, rfl⟩
        · rintro ⟨e, he, h1, h2⟩
          rcases List.mem_cons.1 he with rfl | he
          · exact h1
          · exact absurd (List.mem_map_of_mem Element.key he) (by rw [h2]; exact hnk)
      · simp only [hkk, if_false]
        rw [h.index]
        constructor
        · rintro ⟨e, he, h1, h2⟩
          exact ⟨e, List.mem_cons_of_mem _ he, h1, h2⟩
        · rintro ⟨e, he, h1, h2⟩
          rcases List.mem_cons.1 he with rfl | he
          · exact absurd h2.symm hkk
          · exact ⟨e, he, h1, h2⟩
    · intro e he
      rcases List.mem_cons.1 he with rfl | he
      · simp
      · have := h.fresh e he
        simp only
        omega
    · simp only [sumSizes_cons]
      rw [h.bytes, wrapInt64_add_left]
      congr 1
      omega
    · simp only [mapSet, List.map_cons, List.nodup_cons]
      refine ⟨?_, (List.filter_sublist _).map Prod.fst |>.nodup h.indexKeys⟩
      intro hmem
      obtain ⟨kv, hkv, hfst⟩ := List.mem_map.1 hmem
      have := (List.mem_filter.1 hkv).2
      simp [hfst] at this
  | some p =>
    obtain ⟨e, he, rfl, rfl⟩ := (h.index _ _).1 hk
    rw [insert_of_mem h he]
    have hperm := perm_front h.ptrs he
    refine h.of_ids ?_ rfl rfl ?_
    · exact hperm.map Element.id
    · simp only [sumSizes_cons]
      rw [h.bytes, wrapInt64_sub_left, ← sumSizes_perm hperm, sumSizes_cons]
      congr 1
      simp only [entrySize, Element.key]
      omega

theorem Inv_evictLoop {fuel : Nat} {c c' : Cache V σ} (h : Inv c)
    (hr : evictLoop fuel c = some c') : Inv c' := by
  induction fuel generalizing c with
  | zero =>
    unfold evictLoop at hr
    split at hr
    · cases hr
    · cases hr; exact h
  | succ n ih =>
    unfold evictLoop at hr
    split at hr
    · exact ih (Inv_RemoveOldest h) hr
    · cases hr; exact h

theorem Inv_Add {c c' : Cache V σ} (h : Inv c) {k : String} {v : V}
    (hr : Add c k v = some c') : Inv c' :=
  Inv_evictLoop (Inv_insert h k v) hr

theorem Inv_step {c c' : Cache V σ} (h : Inv c) {call : Call V}
    (hr : step c call = some c') : Inv c' := by
  cases call with
  | add k v => exact Inv_Add h hr
  | get k => simp only [step, Option.some.injEq] at hr; subst hr; exact Inv_Get h k
  | removeOldest => simp only [step, Option.some.injEq] at hr; subst hr; exact Inv_RemoveOldest h

theorem Inv_run {calls : List (Call V)} {c c' : Cache V σ} (h : Inv c)
    (hr : run c calls = some c') : Inv c' := by
  induction calls generalizing c with
  | nil => simp only [run, Option.some.injEq] at hr; subst hr; exact h
  | cons call rest ih =>
    simp only [run] at hr
    cases hs : step c call with
    | none => rw [hs] at hr; cases hr
    | some c1 =>
      rw [hs] at hr
      exact ih (Inv_step h hs) hr

end GeeCache.lru

namespace GeeCache.lru

variable {V : Type} {σ : Type} [Value V]

theorem maxBytes_RemoveOldest (c : Cache V σ) : (RemoveOldest c).maxBytes = c.maxBytes := by
  unfold RemoveOldest
  split <;> rfl

theorem maxBytes_insert (c : Cache V σ) (k : String) (v : V) :
    (insert c k v).maxBytes = c.maxBytes := by
  unfold insert
  split
  · split <;> rfl
  · rfl

theorem maxBytes_Get (c : Cache V σ) (k : String) : (Get c k).2.maxBytes = c.maxBytes := by
  unfold Get
  split
  · split <;> rfl
  · rfl

theorem nbytes_Get (c : Cache V σ) (k : String) : (Get c k).2.nbytes = c.nbytes := by
  unfold Get
  split
  · split <;> rfl
  · rfl

theorem maxBytes_evictLoop {fuel : Nat} {c c' : Cache V σ} (hr : evictLoop fuel c = some c') :
    c'.maxBytes = c.maxBytes := by
  induction fuel generalizing c with
  | zero =>
    unfold evictLoop at hr
    split at hr
    · cases hr
    · cases hr; rfl
  | succ n ih =>
    unfold evictLoop at hr
    split at hr
    · rw [ih hr, maxBytes_RemoveOldest]
    · cases hr; rfl

theorem not_overBudget_evictLoop {fuel : Nat} {c c' : Cache V σ}
    (hr : evictLoop fuel c = some c') : overBudget c' = false := by
  induction fuel generalizing c with
  | zero =>
    unfold evictLoop at hr
    split at hr
    · cases hr
    · rename_i hnb
      cases hr; simpa using hnb
  | succ n ih =>
    unfold evictLoop at hr
    split at hr
    · exact ih hr
    · rename_i hnb
      cases hr; simpa using hnb

theorem length_RemoveOldest {c : Cache V σ} (h : Inv c) :
    (RemoveOldest c).ll.length = c.ll.length - 1 := by
  cases hb : Back c.ll with
  | none =>
    have : c.ll = [] := by unfold Back at hb; simpa using hb
    rw [RemoveOldest_of_empty this, this]; rfl
  | some ele =>
    rw [RemoveOldest_of_back h hb]
    simp

/-- The eviction loop ends within one round per element when the budget is not negative. -/
theorem evictLoop_terminates {fuel : Nat} {c : Cache V σ} (h : Inv c) (hmax : 0 ≤ c.maxBytes)
    (hf : c.ll.length ≤ fuel) : ∃ c', evictLoop fuel c = some c' := by
  induction fuel generalizing c with
  | zero =>
    have hnil : c.ll = [] := List.eq_nil_of_length_eq_zero (by omega)
    have hb : c.nbytes = 0 := by rw [h.bytes, hnil]; simp [sumSizes, wrapInt64]
    have : overBudget c = false := by
      unfold overBudget
      rw [hb]
      by_cases h0 : c.maxBytes = 0
      · simp [h0]
      · have : ¬ c.maxBytes < 0 := by omega
        simp [this]
    exact ⟨c, by simp [evictLoop, this]⟩
  | succ n ih =>
    unfold evictLoop
    split
    · apply ih (Inv_RemoveOldest h)
      · rw [maxBytes_RemoveOldest]; exact hmax
      · rw [length_RemoveOldest h]; omega
    · exact ⟨c, rfl⟩

/-- A loop that has ended gives the same store with more rounds allowed. -/
theorem evictLoop_fuel {fuel : Nat} {c c' : Cache V σ} (hr : evictLoop fuel c = some c')
    (more : Nat) : evictLoop (fuel + more) c = some c' := by
  induction fuel generalizing c with
  | zero =>
    unfold evictLoop at hr
    split at hr
    · cases hr
    · rename_i hnb
      cases hr
      cases more with
      | zero => simp [evictLoop, hnb]
      | succ m => simp [evictLoop, hnb]
  | succ n ih =>
    unfold evictLoop at hr
    split at hr
    · rename_i hob
      rw [show n + 1 + more = (n + more) + 1 by omega]
      simp only [evictLoop, hob, if_true]
      exact ih hr
    · rename_i hnb
      cases hr
      rw [show n + 1 + more = (n + more) + 1 by omega]
      simp [evictLoop, hnb]

theorem Add_terminates {c : Cache V σ} (h : Inv c) (hmax : 0 ≤ c.maxBytes) (k : String) (v : V) :
    ∃ c', Add c k v = some c' := by
  unfold Add
  exact evictLoop_terminates (Inv_insert h k v) (by rw [maxBytes_insert]; exact hmax) (le_refl _)

theorem maxBytes_step {c c' : Cache V σ} {call : Call V} (hr : step c call = some c') :
    c'.maxBytes = c.maxBytes := by
  cases call with
  | add k v =>
    simp only [step, Add] at hr
    rw [maxBytes_evictLoop hr, maxBytes_insert]
  | get k => simp only [step, Option.some.injEq] at hr; subst hr; exact maxBytes_Get c k
  | removeOldest =>
    simp only [step, Option.some.injEq] at hr; subst hr; exact maxBytes_RemoveOldest c

theorem maxBytes_run {calls : List (Call V)} {c c' : Cache V σ} (hr : run c calls = some c') :
    c'.maxBytes = c.maxBytes := by
  induction calls generalizing c with
  | nil => simp only [run, Option.some.injEq] at hr; subst hr; rfl
  | cons call rest ih =>
    simp only [run] at hr
    cases hs : step c call with
    | none => rw [hs] at hr; cases hr
    | some c1 =>
      rw [hs] at hr
      rw [ih hr, maxBytes_step hs]

/-- Every call returns when the budget is not negative. -/
theorem run_terminates {calls : List (Call V)} {c : Cache V σ} (h : Inv c)
    (hmax : 0 ≤ c.maxBytes) : ∃ c', run c calls = some c' := by
  induction calls generalizing c with
  | nil => exact ⟨c, rfl⟩
  | cons call rest ih =>
    have hs : ∃ c1, step c call = some c1 := by
      cases call with
      | add k v => exact Add_terminates h hmax k v
      | get k => exact ⟨_, rfl⟩
      | removeOldest => exact ⟨_, rfl⟩
    obtain ⟨c1, hc1⟩ := hs
    obtain ⟨c2, hc2⟩ := ih (c := c1) (Inv_step h hc1) (by rw [maxBytes_step hc1]; exact hmax)
    exact ⟨c2, by simp [run, hc1, hc2]⟩

end GeeCache.lru

namespace GeeCache.lru

variable {V : Type} {σ : Type} [Value V]

theorem sumSizes_nonneg {l : List (Element V)} (h : ∀ e ∈ l, 0 ≤ entrySize e.Value) :
    0 ≤ sumSizes l := by
  unfold sumSizes
  apply List.sum_nonneg
  intro x hx
  obtain ⟨e, he, rfl⟩ := List.mem_map.1 hx
  exact h e he

theorem Fits.nbytes_eq {c : Cache V σ} {B : Int} (hf : Fits c B) (h : Inv c) (hB : B < 2 ^ 63) :
    c.nbytes = sumSizes c.ll := by
  rw [h.bytes]
  have h0 := sumSizes_nonneg hf.1
  have h1 := hf.2
  exact wrapInt64_of_range (by omega) (by omega)

theorem perm_Get {c : Cache V σ} (h : Inv c) (k : String) : (Get c k).2.ll.Perm c.ll := by
  cases hk : mapGet c.cache k with
  | none => rw [Get_of_absent hk]
  | some p =>
    obtain ⟨e, he, rfl, rfl⟩ := (h.index _ _).1 hk
    rw [Get_of_mem h he]
    exact perm_front h.ptrs he

theorem Fits_Get {c : Cache V σ} {B : Int} (hf : Fits c B) (h : Inv c) (k : String) :
    Fits (Get c k).2 B := by
  have hp := perm_Get h k
  exact ⟨fun e he => hf.1 e (hp.mem_iff.1 he), by rw [sumSizes_perm hp]; exact hf.2⟩

theorem Fits_RemoveOldest {c : Cache V σ} {B : Int} (hf : Fits c B) (h : Inv c) :
    Fits (RemoveOldest c) B ∧ sumSizes (RemoveOldest c).ll ≤ sumSizes c.ll := by
  cases hb : Back c.ll with
  | none =>
    have : c.ll = [] := by unfold Back at hb; simpa using hb
    rw [RemoveOldest_of_empty this]
    exact ⟨hf, le_refl _⟩
  | some ele =>
    rw [RemoveOldest_of_back h hb]
    unfold Back at hb
    obtain ⟨ys, hys⟩ := List.getLast?_eq_some_iff.1 hb
    have hsum : sumSizes c.ll = sumSizes ys + entrySize ele.Value := by
      rw [hys]; simp [sumSizes]
    have hele : 0 ≤ entrySize ele.Value := hf.1 ele (by rw [hys]; simp)
    have h2 := hf.2
    have hdl : c.ll.dropLast = ys := by rw [hys]; simp
    have hmem : ∀ e ∈ ys, e ∈ c.ll := fun e he => by rw [hys]; exact List.mem_append_left _ he
    show ((∀ e ∈ c.ll.dropLast, 0 ≤ entrySize e.Value) ∧ sumSizes c.ll.dropLast ≤ B) ∧
      sumSizes c.ll.dropLast ≤ sumSizes c.ll
    rw [hdl]
    exact ⟨⟨fun e he => hf.1 e (hmem e he), by omega⟩, by omega⟩

theorem Fits_insert_of_size {c : Cache V σ} {B : Int} (hf : Fits c B) (h : Inv c) (k : String)
    {v : V} (hkv : 0 ≤ entrySize (⟨k, v⟩ : entry V)) :
    Fits (insert c k v) (B + entrySize (⟨k, v⟩ : entry V)) := by
  cases hk : mapGet c.cache k with
  | none =>
    rw [insert_of_absent hk]
    refine ⟨?_, ?_⟩
    · intro e he
      rcases List.mem_cons.1 he with rfl | he
      · exact hkv
      · exact hf.1 e he
    · simp only [sumSizes_cons]
      have := hf.2
      omega
  | some p =>
    obtain ⟨e, he, rfl, rfl⟩ := (h.index _ _).1 hk
    rw [insert_of_mem h he]
    have hperm := perm_front h.ptrs he
    have hsum := sumSizes_perm hperm
    rw [sumSizes_cons] at hsum
    have he0 := hf.1 e he
    refine ⟨?_, ?_⟩
    · intro x hx
      rcases List.mem_cons.1 hx with rfl | hx
      · exact hkv
      · exact hf.1 x (List.mem_of_mem_filter hx)
    · simp only [sumSizes_cons]
      have := hf.2
      simp only [entrySize, Element.key] at he0 hsum ⊢
      omega

theorem Fits_insert {c : Cache V σ} {B : Int} (hf : Fits c B) (h : Inv c) (k : String) {v : V}
    (hv : 0 ≤ Value.Len v) : Fits (insert c k v) (B + entrySize (⟨k, v⟩ : entry V)) :=
  Fits_insert_of_size hf h k (by simp only [entrySize]; omega)

theorem Fits_evictLoop {fuel : Nat} {c c' : Cache V σ} {B : Int} (hf : Fits c B) (h : Inv c)
    (hr : evictLoop fuel c = some c') : Fits c' B := by
  induction fuel generalizing c with
  | zero =>
    unfold evictLoop at hr
    split at hr
    · cases hr
    · cases hr; exact hf
  | succ n ih =>
    unfold evictLoop at hr
    split at hr
    · exact ih (Fits_RemoveOldest hf h).1 (Inv_RemoveOldest h) hr
    · cases hr; exact hf

theorem addedBytes_cons (call : Call V) (rest : List (Call V)) :
    addedBytes (call :: rest) = call.bytes + addedBytes rest := by
  simp [addedBytes]

theorem budget_run (calls : List (Call V)) :
    ∀ (c : Cache V σ) (B : Int), Inv c → 0 < c.maxBytes → c.nbytes ≤ c.maxBytes → Fits c B →
      NonNegLens calls → B + addedBytes calls < 2 ^ 63 →
      ∀ n, ∃ c', run c (calls.take n) = some c' ∧ c'.nbytes ≤ c'.maxBytes := by
  induction calls with
  | nil => intro c B h hmax hle hf hnn hB n; exact ⟨c, by simp [run], hle⟩
  | cons call rest ih =>
    intro c B h hmax hle hf hnn hB n
    cases n with
    | zero => exact ⟨c, by simp [run], hle⟩
    | succ n =>
      rw [addedBytes_cons] at hB
      have hnn' : NonNegLens rest := fun cl hcl => hnn cl (List.mem_cons_of_mem _ hcl)
      have key : ∃ c1, step c call = some c1 ∧ c1.nbytes ≤ c1.maxBytes ∧
          Fits c1 (B + call.bytes) := by
        cases call with
        | add k v =>
          have hv : 0 ≤ Value.Len v := hnn (.add k v) (List.mem_cons_self _ _)
          obtain ⟨c1, hc1⟩ := Add_terminates h (le_of_lt hmax) k v
          refine ⟨c1, hc1, ?_, Fits_evictLoop (Fits_insert hf h k hv) (Inv_insert h k v) hc1⟩
          have hnb := not_overBudget_evictLoop hc1
          have hm : c1.maxBytes = c.maxBytes := by
            rw [maxBytes_evictLoop hc1, maxBytes_insert]
          unfold overBudget at hnb
          have h0 : c1.maxBytes ≠ 0 := by omega
          simp only [ne_eq, h0, not_false_eq_true, decide_True, Bool.true_and,
            decide_eq_false_iff_not, not_lt] at hnb
          exact hnb
        | get k =>
          refine ⟨(Get c k).2, rfl, ?_, ?_⟩
          · rw [nbytes_Get, maxBytes_Get]; exact hle
          · simpa [Call.bytes] using Fits_Get hf h k
        | removeOldest =>
          have hB' : B < 2 ^ 63 := by
            have h1 := sumSizes_nonneg hf.1
            simp only [Call.bytes] at hB
            have h2 : 0 ≤ addedBytes rest := by
              unfold addedBytes
              apply List.sum_nonneg
              intro x hx
              obtain ⟨cl, hcl, rfl⟩ := List.mem_map.1 hx
              cases cl with
              | add k v =>
                have := hnn' (.add k v) hcl
                simp only [Call.valueLen] at this
                simp only [Call.bytes, entrySize]; omega
              | get k => simp [Call.bytes]
              | removeOldest => simp [Call.bytes]
            omega
          have hfr := Fits_RemoveOldest hf h
          refine ⟨RemoveOldest c, rfl, ?_, by simpa [Call.bytes] using hfr.1⟩
          rw [hfr.1.nbytes_eq (Inv_RemoveOldest h) hB', maxBytes_RemoveOldest]
          rw [hf.nbytes_eq h hB'] at hle
          exact le_trans hfr.2 hle
      obtain ⟨c1, hc1, hle1, hf1⟩ := key
      have hm1 := maxBytes_step hc1
      obtain ⟨c2, hc2, hle2⟩ := ih c1 (B + call.bytes) (Inv_step h hc1) (by rw [hm1]; exact hmax)
        hle1 hf1 hnn' (by omega) n
      exact ⟨c2, by simp [run, hc1, hc2], hle2⟩

theorem budget_run_addGet (calls : List (Call V)) :
    ∀ (c : Cache V σ), Inv c → 0 < c.maxBytes → c.nbytes ≤ c.maxBytes → AddGetOnly calls →
      ∀ n, ∃ c', run c (calls.take n) = some c' ∧ c'.nbytes ≤ c'.maxBytes := by
  induction calls with
  | nil => intro c h hmax hle hag n; exact ⟨c, by simp [run], hle⟩
  | cons call rest ih =>
    intro c h hmax hle hag n
    cases n with
    | zero => exact ⟨c, by simp [run], hle⟩
    | succ n =>
      have hag' : AddGetOnly rest := fun cl hcl => hag cl (List.mem_cons_of_mem _ hcl)
      have key : ∃ c1, step c call = some c1 ∧ c1.nbytes ≤ c1.maxBytes := by
        cases call with
        | add k v =>
          obtain ⟨c1, hc1⟩ := Add_terminates h (le_of_lt hmax) k v
          refine ⟨c1, hc1, ?_⟩
          have hnb := not_overBudget_evictLoop hc1
          have hm : c1.maxBytes = c.maxBytes := by
            rw [maxBytes_evictLoop hc1, maxBytes_insert]
          unfold overBudget at hnb
          have h0 : c1.maxBytes ≠ 0 := by omega
          simp only [ne_eq, h0, not_false_eq_true, decide_True, Bool.true_and,
            decide_eq_false_iff_not, not_lt] at hnb
          exact hnb
        | get k =>
          refine ⟨(Get c k).2, rfl, ?_⟩
          rw [nbytes_Get, maxBytes_Get]; exact hle
        | removeOldest =>
          have := hag Call.removeOldest (List.mem_cons_self _ _)
          simp [Call.isRemoveOldest] at this
      obtain ⟨c1, hc1, hle1⟩ := key
      have hm1 := maxBytes_step hc1
      obtain ⟨c2, hc2, hle2⟩ := ih c1 (Inv_step h hc1) (by rw [hm1]; exact hmax) hle1 hag' n
      exact ⟨c2, by simp [run, hc1, hc2], hle2⟩

end GeeCache.lru

namespace GeeCache.lru

variable {V : Type} {σ : Type} [Value V]

theorem ll_RemoveOldest {c : Cache V σ} (h : Inv c) : (RemoveOldest c).ll = c.ll.dropLast := by
  cases hb : Back c.ll with
  | none =>
    have : c.ll = [] := by unfold Back at hb; simpa using hb
    rw [RemoveOldest_of_empty this, this]; rfl
  | some ele => rw [RemoveOldest_of_back h hb]

theorem insert_front {c : Cache V σ} (h : Inv c) (k : String) (v : V) :
    ∃ p rest, (insert c k v).ll = ⟨p, ⟨k, v⟩⟩ :: rest := by
  cases hk : mapGet c.cache k with
  | none => rw [insert_of_absent hk]; exact ⟨_, _, rfl⟩
  | some p =>
    obtain ⟨e, he, rfl, rfl⟩ := (h.index _ _).1 hk
    rw [insert_of_mem h he]; exact ⟨_, _, rfl⟩

/-- The eviction loop keeps the front element when that element alone is within budget. -/
theorem evictLoop_keeps_front {fuel : Nat} {c c' : Cache V σ} {e0 : Element V}
    {rest : List (Element V)} (h : Inv c) (hll : c.ll = e0 :: rest)
    (hfit : c.maxBytes ≠ 0 → wrapInt64 (entrySize e0.Value) ≤ c.maxBytes)
    (hr : evictLoop fuel c = some c') : ∃ rest', c'.ll = e0 :: rest' := by
  induction fuel generalizing c rest with
  | zero =>
    unfold evictLoop at hr
    split at hr
    · cases hr
    · cases hr; exact ⟨rest, hll⟩
  | succ n ih =>
    unfold evictLoop at hr
    split at hr
    · rename_i hob
      have hne : rest ≠ [] := by
        rintro rfl
        have hb : c.nbytes = wrapInt64 (entrySize e0.Value) := by
          rw [h.bytes, hll]; simp [sumSizes]
        unfold overBudget at hob
        rw [hb] at hob
        simp only [Bool.and_eq_true, decide_eq_true_eq] at hob
        have := hfit hob.1
        omega
      obtain ⟨a, as, rfl⟩ := List.exists_cons_of_ne_nil hne
      refine @ih (RemoveOldest c) ((a :: as).dropLast) (Inv_RemoveOldest h) ?_ ?_ hr
      · rw [ll_RemoveOldest h, hll]; rfl
      · rw [maxBytes_RemoveOldest]; exact hfit
    · cases hr; exact ⟨rest, hll⟩

theorem wrap_entrySize_le {k : String} {v : V} {m : Int}
    (hfit : (k.utf8ByteSize : Int) + Value.Len v ≤ m) :
    wrapInt64 (entrySize (⟨k, v⟩ : entry V)) ≤ m := by
  have h1 := (Value.Len_int v).1
  simp only [entrySize]
  unfold wrapInt64
  omega

end GeeCache.lru

namespace GeeCache.lru

variable {V : Type} {σ : Type} [Value V]

theorem Inv_iterate {c : Cache V σ} (h : Inv c) (j : Nat) : Inv (RemoveOldest^[j] c) := by
  induction j generalizing c with
  | zero => exact h
  | succ n ih => rw [Function.iterate_succ_apply]; exact ih (Inv_RemoveOldest h)

/-- The loop of `Add` is a number of `RemoveOldest` calls, each made over budget. -/
theorem evictLoop_eq_iterate {fuel : Nat} {c c' : Cache V σ} (hr : evictLoop fuel c = some c') :
    ∃ j, j ≤ fuel ∧ c' = RemoveOldest^[j] c ∧
      ∀ i, i < j → overBudget (RemoveOldest^[i] c) = true := by
  induction fuel generalizing c with
  | zero =>
    unfold evictLoop at hr
    split at hr
    · cases hr
    · cases hr; exact ⟨0, le_refl _, rfl, fun i hi => absurd hi (Nat.not_lt_zero i)⟩
  | succ n ih =>
    unfold evictLoop at hr
    split at hr
    · rename_i hob
      obtain ⟨j, hj, hc, hover⟩ := ih hr
      refine ⟨j + 1, by omega, by rw [Function.iterate_succ_apply]; exact hc, ?_⟩
      intro i hi
      cases i with
      | zero => exact hob
      | succ i => rw [Function.iterate_succ_apply]; exact hover i (by omega)
    · cases hr; exact ⟨0, Nat.zero_le _, rfl, fun i hi => absurd hi (Nat.not_lt_zero i)⟩

theorem nbytes_RemoveOldest {c : Cache V σ} (h : Inv c) {ele : Element V}
    (hb : Back c.ll = some ele) :
    (RemoveOldest c).nbytes = wrapInt64 (c.nbytes - entrySize ele.Value) := by
  rw [RemoveOldest_of_back h hb]

end GeeCache.lru

namespace GeeCache.lru

variable {V : Type} {σ : Type} [Value V]

theorem run_append (xs ys : List (Call V)) (c : Cache V σ) :
    run c (xs ++ ys) = (run c xs).bind (fun c' => run c' ys) := by
  induction xs generalizing c with
  | nil => simp [run]
  | cons x xs ih =>
    simp only [List.cons_append, run]
    cases step c x with
    | none => rfl
    | some c1 => simp [ih]

theorem lastWritten_snoc (calls : List (Call V)) (call : Call V) (k : String) :
    lastWritten (calls ++ [call]) k =
      match call with
      | .add key value => if key = k then some value else lastWritten calls k
      | .get _ => lastWritten calls k
      | .removeOldest => lastWritten calls k := by
  unfold lastWritten
  rw [List.foldl_append]
  cases call <;> rfl

theorem key_inj {l : List (Element V)} (hk : (l.map Element.key).Nodup) {x y : Element V}
    (hx : x ∈ l) (hy : y ∈ l) (h : x.key = y.key) : x = y :=
  List.inj_on_of_nodup_map hk hx hy h

theorem OnEvicted_RemoveOldest (c : Cache V σ) : (RemoveOldest c).OnEvicted = c.OnEvicted := by
  unfold RemoveOldest
  split <;> rfl

theorem OnEvicted_insert (c : Cache V σ) (k : String) (v : V) :
    (insert c k v).OnEvicted = c.OnEvicted := by
  unfold insert
  split
  · split <;> rfl
  · rfl

theorem OnEvicted_Get (c : Cache V σ) (k : String) : (Get c k).2.OnEvicted = c.OnEvicted := by
  unfold Get
  split
  · split <;> rfl
  · rfl

theorem OnEvicted_iterate (c : Cache V σ) (j : Nat) :
    (RemoveOldest^[j] c).OnEvicted = c.OnEvicted := by
  induction j generalizing c with
  | zero => rfl
  | succ n ih => rw [Function.iterate_succ_apply, ih, OnEvicted_RemoveOldest]

theorem Add_eq_iterate {c c' : Cache V σ} {k : String} {v : V} (hr : Add c k v = some c') :
    ∃ j, j ≤ (insert c k v).ll.length ∧ c' = RemoveOldest^[j] (insert c k v) ∧
      ∀ i, i < j → overBudget (RemoveOldest^[i] (insert c k v)) = true :=
  evictLoop_eq_iterate hr

theorem OnEvicted_step {c c' : Cache V σ} {call : Call V} (hr : step c call = some c') :
    c'.OnEvicted = c.OnEvicted := by
  cases call with
  | add k v =>
    obtain ⟨j, _, rfl, _⟩ := Add_eq_iterate hr
    rw [OnEvicted_iterate, OnEvicted_insert]
  | get k => simp only [step, Option.some.injEq] at hr; subst hr; exact OnEvicted_Get c k
  | removeOldest =>
    simp only [step, Option.some.injEq] at hr; subst hr; exact OnEvicted_RemoveOldest c

theorem OnEvicted_run {calls : List (Call V)} {c c' : Cache V σ} (hr : run c calls = some c') :
    c'.OnEvicted = c.OnEvicted := by
  induction calls generalizing c with
  | nil => simp only [run, Option.some.injEq] at hr; subst hr; rfl
  | cons call rest ih =>
    simp only [run] at hr
    cases hs : step c call with
    | none => rw [hs] at hr; cases hr
    | some c1 =>
      rw [hs] at hr
      rw [ih hr, OnEvicted_step hs]

theorem env_Get (c : Cache V σ) (k : String) : (Get c k).2.env = c.env := by
  unfold Get
  split
  · split <;> rfl
  · rfl

theorem env_insert (c : Cache V σ) (k : String) (v : V) : (insert c k v).env = c.env := by
  unfold insert
  split
  · split <;> rfl
  · rfl

theorem Written_insert {calls : List (Call V)} {c : Cache V σ} (h : Inv c)
    (hw : Written calls c) (k : String) (v : V) :
    Written (calls ++ [Call.add k v]) (insert c k v) := by
  intro x hx
  rw [lastWritten_snoc]
  cases hk : mapGet c.cache k with
  | none =>
    rw [insert_of_absent hk] at hx
    rcases List.mem_cons.1 hx with rfl | hx
    · simp
    · have hne : k ≠ x.key := fun heq =>
        h.not_mem_of_index_none hk (heq ▸ List.mem_map_of_mem Element.key hx)
      simp only [hne, if_false]
      exact hw x hx
  | some p =>
    obtain ⟨e, he, rfl, rfl⟩ := (h.index _ _).1 hk
    rw [insert_of_mem h he] at hx
    rcases List.mem_cons.1 hx with rfl | hx
    · simp
    · have hx' := List.mem_filter.1 hx
      have hne : e.key ≠ x.key := by
        intro heq
        have := key_inj h.keys he hx'.1 heq
        subst this
        simp at hx'
      simp only [hne, if_false]
      exact hw x hx'.1

theorem Written_RemoveOldest {calls : List (Call V)} {c : Cache V σ} (h : Inv c)
    (hw : Written calls c) : Written calls (RemoveOldest c) := by
  intro x hx
  rw [ll_RemoveOldest h] at hx
  exact hw x (List.mem_of_mem_dropLast hx)

theorem Written_iterate {calls : List (Call V)} {c : Cache V σ} (h : Inv c)
    (hw : Written calls c) (j : Nat) : Written calls (RemoveOldest^[j] c) := by
  induction j generalizing c with
  | zero => exact hw
  | succ n ih =>
    rw [Function.iterate_succ_apply]
    exact ih (Inv_RemoveOldest h) (Written_RemoveOldest h hw)

theorem Written_snoc_of {calls : List (Call V)} {c : Cache V σ} {call : Call V}
    (hw : Written calls c) (hcall : ∀ k v, call ≠ Call.add k v) :
    Written (calls ++ [call]) c := by
  intro x hx
  rw [lastWritten_snoc]
  cases call with
  | add k v => exact absurd rfl (hcall k v)
  | get k => exact hw x hx
  | removeOldest => exact hw x hx

theorem Written_step {past : List (Call V)} {c c' : Cache V σ} {call : Call V} (h : Inv c)
    (hw : Written past c) (hs : step c call = some c') : Written (past ++ [call]) c' := by
  cases call with
  | add k v =>
    obtain ⟨j, _, rfl, _⟩ := Add_eq_iterate hs
    exact Written_iterate (Inv_insert h k v) (Written_insert h hw k v) j
  | get k =>
    simp only [step, Option.some.injEq] at hs; subst hs
    have hp := perm_Get h k
    exact Written_snoc_of (fun x hx => hw x (hp.mem_iff.1 hx)) (fun _ _ hh => by cases hh)
  | removeOldest =>
    simp only [step, Option.some.injEq] at hs; subst hs
    exact Written_snoc_of (Written_RemoveOldest h hw) (fun _ _ hh => by cases hh)

theorem Written_run {calls past : List (Call V)} {c c' : Cache V σ} (h : Inv c)
    (hw : Written past c) (hr : run c calls = some c') : Written (past ++ calls) c' := by
  induction calls generalizing c past with
  | nil => simp only [run, Option.some.injEq] at hr; subst hr; simpa using hw
  | cons call rest ih =>
    simp only [run] at hr
    cases hs : step c call with
    | none => rw [hs] at hr; cases hr
    | some c1 =>
      rw [hs] at hr
      have := ih (Inv_step h hs) (Written_step h hw hs) hr
      simpa using this

theorem env_RemoveOldest {c : Cache V σ} (h : Inv c) {f : String → V → σ → σ}
    (hf : c.OnEvicted = some f) {ele : Element V} (hb : Back c.ll = some ele) :
    (RemoveOldest c).env = f ele.key ele.Value.value c.env := by
  rw [RemoveOldest_of_back h hb]
  simp only [hf]

theorem index_RemoveOldest {c : Cache V σ} (h : Inv c) {ele : Element V}
    (hb : Back c.ll = some ele) : mapGet (RemoveOldest c).cache ele.key = none := by
  rw [RemoveOldest_of_back h hb]
  simp [mapGet_mapDelete]

theorem mem_of_Back {l : List (Element V)} {ele : Element V} (hb : Back l = some ele) :
    ele ∈ l := by
  unfold Back at hb
  obtain ⟨ys, rfl⟩ := List.getLast?_eq_some_iff.1 hb
  simp

end GeeCache.lru

namespace GeeCache.lru

variable {V : Type} {σ : Type} [Value V]

theorem ptr_inj {l : List (Element V)} (hp : (l.map Element.ptr).Nodup) {x y : Element V}
    (hx : x ∈ l) (hy : y ∈ l) (h : x.ptr = y.ptr) : x = y :=
  List.inj_on_of_nodup_map hp hx hy h

theorem keys_filter_ptr {l : List (Element V)} (hp : (l.map Element.ptr).Nodup)
    (hk : (l.map Element.key).Nodup) {e : Element V} (he : e ∈ l) :
    (l.filter (fun x => decide (x.ptr ≠ e.ptr))).map Element.key
      = (l.map Element.key).filter (fun x => decide (x ≠ e.key)) := by
  rw [List.filter_map]
  congr 1
  apply List.filter_congr
  intro x hx
  simp only [Function.comp, ne_eq, decide_not, Bool.not_eq_eq_eq_not, Bool.not_not,
    decide_eq_decide]
  constructor
  · intro h; rw [ptr_inj hp hx he h]
  · intro h; rw [key_inj hk hx he h]

theorem filter_ne_of_not_mem {l : List String} {k : String} (h : k ∉ l) :
    l.filter (fun x => decide (x ≠ k)) = l := by
  apply List.filter_eq_self.2
  intro x hx
  have : x ≠ k := fun heq => h (heq ▸ hx)
  simpa using this

theorem keys_insert {c : Cache V σ} (h : Inv c) (k : String) (v : V) :
    (insert c k v).ll.map Element.key
      = k :: (c.ll.map Element.key).filter (fun x => decide (x ≠ k)) := by
  cases hk : mapGet c.cache k with
  | none =>
    rw [insert_of_absent hk, filter_ne_of_not_mem (h.not_mem_of_index_none hk)]
    rfl
  | some p =>
    obtain ⟨e, he, rfl, rfl⟩ := (h.index _ _).1 hk
    rw [insert_of_mem h he]
    simp only [List.map_cons]
    rw [keys_filter_ptr h.ptrs h.keys he]

theorem keys_Get_hit {c : Cache V σ} (h : Inv c) {e : Element V} (he : e ∈ c.ll) :
    (Get c e.key).2.ll.map Element.key
      = e.key :: (c.ll.map Element.key).filter (fun x => decide (x ≠ e.key)) := by
  rw [Get_of_mem h he]
  simp only [List.map_cons]
  rw [keys_filter_ptr h.ptrs h.keys he]

theorem sublist_recent_touch {l t : List String} (h : l.Sublist (recent t)) (k : String) :
    (k :: l.filter (fun x => decide (x ≠ k))).Sublist (recent (k :: t)) := by
  unfold recent
  exact (h.filter _).cons₂ k

theorem ll_iterate {c : Cache V σ} (h : Inv c) (j : Nat) :
    (RemoveOldest^[j] c).ll = List.dropLast^[j] c.ll := by
  induction j generalizing c with
  | zero => rfl
  | succ n ih =>
    rw [Function.iterate_succ_apply, Function.iterate_succ_apply, ih (Inv_RemoveOldest h),
      ll_RemoveOldest h]

theorem iterate_dropLast_sublist (l : List (Element V)) (j : Nat) :
    (List.dropLast^[j] l).Sublist l := by
  induction j generalizing l with
  | zero => exact List.Sublist.refl _
  | succ n ih =>
    rw [Function.iterate_succ_apply]
    exact (ih _).trans (List.dropLast_sublist l)

theorem length_iterate_dropLast (l : List (Element V)) (j : Nat) :
    (List.dropLast^[j] l).length = l.length - j := by
  induction j generalizing l with
  | zero => rfl
  | succ n ih =>
    rw [Function.iterate_succ_apply, ih, List.length_dropLast]
    omega

theorem recency_step {c c' : Cache V σ} {t : List String} {call : Call V} (h : Inv c)
    (hs : (c.ll.map Element.key).Sublist (recent t)) (hr : step c call = some c') :
    (c'.ll.map Element.key).Sublist (recent (touch c call ++ t)) := by
  cases call with
  | add k v =>
    obtain ⟨j, _, rfl, _⟩ := Add_eq_iterate hr
    rw [ll_iterate (Inv_insert h k v)]
    refine ((iterate_dropLast_sublist _ j).map Element.key).trans ?_
    rw [keys_insert h]
    exact sublist_recent_touch hs k
  | get k =>
    simp only [step, Option.some.injEq] at hr
    subst hr
    cases hk : mapGet c.cache k with
    | none =>
      simp only [touch, Get_of_absent hk, Option.isSome_none, Bool.false_eq_true, if_false,
        List.nil_append]
      exact hs
    | some p =>
      obtain ⟨e, he, rfl, rfl⟩ := (h.index _ _).1 hk
      have hg := Get_of_mem h he
      simp only [Element.key] at hg
      simp only [touch, hg, Option.isSome_some, if_true, List.singleton_append, List.map_cons]
      have h2 := sublist_recent_touch hs e.key
      rw [← keys_filter_ptr h.ptrs h.keys he] at h2
      exact h2
  | removeOldest =>
    simp only [step, Option.some.injEq] at hr
    subst hr
    rw [ll_RemoveOldest h]
    exact ((List.dropLast_sublist _).map Element.key).trans hs

theorem recency_run {calls : List (Call V)} {c c' : Cache V σ} {t : List String} (h : Inv c)
    (hs : (c.ll.map Element.key).Sublist (recent t)) (hr : run c calls = some c') :
    (c'.ll.map Element.key).Sublist (recent (touchLog c calls ++ t)) := by
  induction calls generalizing c t with
  | nil => simp only [run, Option.some.injEq] at hr; subst hr; simpa [touchLog] using hs
  | cons call rest ih =>
    simp only [run] at hr
    cases hst : step c call with
    | none => rw [hst] at hr; cases hr
    | some c1 =>
      rw [hst] at hr
      have := ih (Inv_step h hst) (recency_step h hs hst) hr
      simp only [touchLog, hst, List.append_assoc]
      exact this

theorem recent_pairwise (t : List String) :
    (recent t).Pairwise (fun a b => t.indexOf a < t.indexOf b) := by
  induction t with
  | nil => simp [recent]
  | cons k t ih =>
    unfold recent
    rw [List.pairwise_cons]
    constructor
    · intro b hb
      have hne : b ≠ k := by simpa using (List.mem_filter.1 hb).2
      rw [List.indexOf_cons_self, List.indexOf_cons_ne _ (Ne.symm hne)]
      omega
    · refine (ih.filter _).imp_of_mem ?_
      intro a b ha hb hab
      have hna : a ≠ k := by simpa using (List.mem_filter.1 ha).2
      have hnb : b ≠ k := by simpa using (List.mem_filter.1 hb).2
      rw [List.indexOf_cons_ne _ (Ne.symm hna), List.indexOf_cons_ne _ (Ne.symm hnb)]
      omega

/-- In a list of keys ordered by recency the last one is the least recently used. -/
theorem back_is_oldest {l : List (Element V)} {t : List String}
    (hs : (l.map Element.key).Sublist (recent t)) {ele : Element V} (hb : Back l = some ele) :
    ∀ e ∈ l, e ≠ ele → t.indexOf e.key < t.indexOf ele.key := by
  unfold Back at hb
  obtain ⟨ys, rfl⟩ := List.getLast?_eq_some_iff.1 hb
  have hp := (recent_pairwise t).sublist hs
  rw [List.map_append, List.pairwise_append] at hp
  intro e he hne
  rcases List.mem_append.1 he with he | he
  · exact hp.2.2 _ (List.mem_map_of_mem Element.key he) _ (by simp)
  · exact absurd (by simpa using he) hne

end GeeCache.lru

namespace GeeCache.lru

variable {V : Type} {σ : Type} [Value V]

theorem index_iff_mem_keys {c : Cache V σ} (h : Inv c) (k : String) :
    (∃ p, mapGet c.cache k = some p) ↔ k ∈ c.ll.map Element.key := by
  constructor
  · rintro ⟨p, hp⟩
    obtain ⟨e, he, _, rfl⟩ := (h.index _ _).1 hp
    exact List.mem_map_of_mem Element.key he
  · intro hk
    obtain ⟨e, he, rfl⟩ := List.mem_map.1 hk
    exact ⟨e.ptr, h.index_of_mem he⟩

theorem index_none_iff {c : Cache V σ} (h : Inv c) (k : String) :
    mapGet c.cache k = none ↔ k ∉ c.ll.map Element.key := by
  rw [← index_iff_mem_keys h]
  cases mapGet c.cache k <;> simp

theorem map_key_dropLast (l : List (Element V)) :
    l.dropLast.map Element.key = (l.map Element.key).dropLast := by
  induction l with
  | nil => rfl
  | cons x xs ih =>
    cases xs with
    | nil => rfl
    | cons y ys => simp only [List.dropLast_cons₂, List.map_cons, ih]

/-- The scenario of the recency test: `A`, `B`, `C` are added, `A` is looked up and `D`
is added with exactly one eviction. -/
theorem recency_scenario (maxBytes : Int) (onEvicted : Option (String → V → σ → σ)) (env : σ)
    (kA kB kC kD : String) (vA vB vC vD : V) (c c' : Cache V σ)
    (hne : [kA, kB, kC, kD].Nodup)
    (hreach : run (New maxBytes onEvicted env)
      [.add kA vA, .add kB vB, .add kC vC, .get kA] = some c)
    (hheld : c.ll.length = 3) (hadd : Add c kD vD = some c') (hone : c'.ll.length = 3) :
    c'.ll.map Element.key = [kD, kA, kC] ∧ mapGet c'.cache kB = none ∧
      ∀ k ∈ [kA, kC, kD], ∃ p, mapGet c'.cache k = some p := by
  simp only [List.nodup_cons, List.mem_cons, List.mem_singleton, not_or, List.not_mem_nil,
    not_false_eq_true, List.nodup_nil, and_true] at hne
  obtain ⟨⟨hAB, hAC, hAD⟩, ⟨hBC, hBD⟩, hCD⟩ := hne
  have hBA : ¬ kB = kA := fun h => hAB h.symm
  have hCA : ¬ kC = kA := fun h => hAC h.symm
  have hDA : ¬ kD = kA := fun h => hAD h.symm
  have hCB : ¬ kC = kB := fun h => hBC h.symm
  have hDB : ¬ kD = kB := fun h => hBD h.symm
  have hDC : ¬ kD = kC := fun h => hCD h.symm
  have h0 := Inv_New (V := V) maxBytes onEvicted env
  simp only [run, step, Option.bind_eq_some] at hreach
  obtain ⟨c1, h1, c2, h2, s3, h3, c4, h4, h5⟩ := hreach
  simp only [Option.some.injEq] at h4 h5
  subst h5
  subst h4
  have hrun3 : run (New maxBytes onEvicted env) [.add kA vA, .add kB vB, .add kC vC]
      = some s3 := by
    simp [run, step, h1, h2, h3]
  have hI3 := Inv_run h0 hrun3
  have hsub := recency_run (t := []) h0 (by simp [New, recent]) hrun3
  have hlog : touchLog (New maxBytes onEvicted env) [.add kA vA, .add kB vB, .add kC vC]
      = [kC, kB, kA] := by
    simp [touchLog, step, h1, h2, h3, touch]
  have hrec : recent [kC, kB, kA] = [kC, kB, kA] := by
    simp [recent, List.filter_cons, hAB, hAC, hAD, hBC, hBD, hCD, hBA, hCA, hDA, hCB, hDB, hDC]
  rw [hlog, List.append_nil, hrec] at hsub
  have hlen3 : s3.ll.length = 3 := by rw [← (perm_Get hI3 kA).length_eq]; exact hheld
  have hkeys3 : s3.ll.map Element.key = [kC, kB, kA] :=
    hsub.eq_of_length (by simp [hlen3])
  have hA : kA ∈ s3.ll.map Element.key := by rw [hkeys3]; simp
  obtain ⟨e, he, hek⟩ := List.mem_map.1 hA
  have hI := Inv_Get hI3 kA
  have hkeys : (Get s3 kA).2.ll.map Element.key = [kA, kC, kB] := by
    rw [← hek, keys_Get_hit hI3 he, hkeys3, hek]
    simp [List.filter_cons, hAB, hAC, hAD, hBC, hBD, hCD, hBA, hCA, hDA, hCB, hDB, hDC]
  obtain ⟨j, _, hc', _⟩ := Add_eq_iterate hadd
  have hins : (insert (Get s3 kA).2 kD vD).ll.map Element.key = [kD, kA, kC, kB] := by
    rw [keys_insert hI, hkeys]
    simp [List.filter_cons, hAB, hAC, hAD, hBC, hBD, hCD, hBA, hCA, hDA, hCB, hDB, hDC]
  have hll : c'.ll = List.dropLast^[j] (insert (Get s3 kA).2 kD vD).ll := by
    rw [hc', ll_iterate (Inv_insert hI kD vD)]
  have hlen4 : (insert (Get s3 kA).2 kD vD).ll.length = 4 := by
    have := congrArg List.length hins
    simpa using this
  have hj : j = 1 := by
    have := length_iterate_dropLast (insert (Get s3 kA).2 kD vD).ll j
    rw [← hll, hone, hlen4] at this
    omega
  subst hj
  have hkeys' : c'.ll.map Element.key = [kD, kA, kC] := by
    rw [hll, Function.iterate_one, map_key_dropLast, hins]
    rfl
  have hI' := Inv_Add hI hadd
  refine ⟨hkeys', ?_, ?_⟩
  · rw [index_none_iff hI', hkeys']
    simp [hAB, hAC, hAD, hBC, hBD, hCD, hBA, hCA, hDA, hCB, hDB, hDC]
  · intro k hk
    rw [index_iff_mem_keys hI', hkeys']
    simp only [List.mem_cons, List.mem_singleton, List.not_mem_nil, or_false] at hk ⊢
    rcases hk with rfl | rfl | rfl <;> simp

end GeeCache.lru

namespace GeeCache.lru

variable {V : Type} {σ : Type} [Value V]

theorem mem_of_mem_recent {t : List String} {x : String} (h : x ∈ recent t) : x ∈ t := by
  induction t with
  | nil => simp [recent] at h
  | cons k t ih =>
    unfold recent at h
    rcases List.mem_cons.1 h with rfl | h
    · exact List.mem_cons_self _ _
    · exact List.mem_cons_of_mem _ (ih (List.mem_of_mem_filter h))

/-- What an eviction removes from a store whose keys are ordered by recency. -/
theorem eviction_removes_oldest {c : Cache V σ} {t : List String} (h : Inv c)
    (hs : (c.ll.map Element.key).Sublist (recent t)) {ele : Element V}
    (hb : Back c.ll = some ele) :
    (RemoveOldest c).ll = c.ll.dropLast ∧ mapGet (RemoveOldest c).cache ele.key = none ∧
      (∀ e ∈ c.ll, e.key ∈ t) ∧
      ∀ e ∈ c.ll, e ≠ ele → t.indexOf e.key < t.indexOf ele.key :=
  ⟨ll_RemoveOldest h, index_RemoveOldest h hb,
    fun e he => mem_of_mem_recent (hs.subset (List.mem_map_of_mem Element.key he)),
    back_is_oldest hs hb⟩

end GeeCache.lru

namespace GeeCache.consistenthash

theorem getD_mem {l : List Int} {a : Nat} (d : Int) (h : a < l.length) : l.getD a d ∈ l := by
  induction l generalizing a with
  | nil => simp at h
  | cons x xs ih =>
    cases a with
    | zero => simp
    | succ a =>
      simp only [List.getD_cons_succ]
      exact List.mem_cons_of_mem _ (ih (by simpa using h))

theorem exists_getD_of_mem {l : List Int} {p : Int} (d : Int) (h : p ∈ l) :
    ∃ a, a < l.length ∧ l.getD a d = p := by
  induction l with
  | nil => cases h
  | cons x xs ih =>
    rcases List.mem_cons.1 h with rfl | h
    · exact ⟨0, by simp, by simp⟩
    · obtain ⟨a, ha, hp⟩ := ih h
      exact ⟨a + 1, by simpa using ha, by simpa using hp⟩

theorem sorted_getD_mono {l : List Int} (hs : l.Sorted (· ≤ ·)) (d : Int) {a b : Nat}
    (hab : a ≤ b) (hb : b < l.length) : l.getD a d ≤ l.getD b d := by
  induction l generalizing a b with
  | nil => simp at hb
  | cons x xs ih =>
    rw [List.sorted_cons] at hs
    cases b with
    | zero =>
      have : a = 0 := by omega
      subst this
      exact le_refl _
    | succ b =>
      have hb' : b < xs.length := by simpa using hb
      cases a with
      | zero =>
        simp only [List.getD_cons_zero, List.getD_cons_succ]
        exact hs.1 _ (getD_mem d hb')
      | succ a =>
        simp only [List.getD_cons_succ]
        exact ih hs.2 (by omega) hb'

/-- The loop of `sort.Search` on a predicate that is monotone below `n`: the result is
the least index at which the predicate holds, or `n`. -/
theorem searchLoop_spec (f : Nat → Bool) (n : Nat)
    (mono : ∀ a b, a ≤ b → b < n → f a = true → f b = true) :
    ∀ fuel i j, i ≤ j → j ≤ n → j - i ≤ fuel → (∀ a, a < i → f a = false) →
      (∀ a, j ≤ a → a < n → f a = true) →
      searchLoop f fuel i j ≤ n ∧ (∀ a, a < searchLoop f fuel i j → f a = false) ∧
        (∀ a, searchLoop f fuel i j ≤ a → a < n → f a = true) := by
  intro fuel
  induction fuel with
  | zero =>
    intro i j hij hjn hf hlo hhi
    have : i = j := by omega
    subst this
    simp only [searchLoop]
    exact ⟨hjn, hlo, hhi⟩
  | succ fuel ih =>
    intro i j hij hjn hf hlo hhi
    simp only [searchLoop]
    split
    · rename_i hlt
      have hh1 : i ≤ (i + j) / 2 := by omega
      have hh2 : (i + j) / 2 < j := by omega
      cases hfh : f ((i + j) / 2) with
      | false =>
        simp only [Bool.not_false, if_true]
        apply ih _ _ (by omega) hjn (by omega) _ hhi
        intro a ha
        cases hfa : f a with
        | false => rfl
        | true =>
          have := mono a ((i + j) / 2) (by omega) (by omega) hfa
          rw [hfh] at this
          cases this
      | true =>
        simp only [Bool.not_true, Bool.false_eq_true, if_false]
        apply ih _ _ hh1 (by omega) (by omega) hlo
        intro a ha han
        exact mono _ a ha han hfh
    · have : i = j := by omega
      subst this
      exact ⟨hjn, hlo, hhi⟩

/-- More rounds than the width of the interval change nothing. -/
theorem searchLoop_fuel (f : Nat → Bool) :
    ∀ fuel i j, j - i ≤ fuel → searchLoop f (fuel + 1) i j = searchLoop f fuel i j := by
  intro fuel
  induction fuel with
  | zero =>
    intro i j h
    have : ¬ i < j := by omega
    simp [searchLoop, this]
  | succ fuel ih =>
    intro i j h
    rw [searchLoop.eq_def f (fuel + 1 + 1), searchLoop.eq_def f (fuel + 1)]
    simp only
    split
    · rename_i hlt
      rw [ih ((i + j) / 2 + 1) j (by omega), ih i ((i + j) / 2) (by omega)]
    · rfl

theorem Search_spec (f : Nat → Bool) (n : Nat)
    (mono : ∀ a b, a ≤ b → b < n → f a = true → f b = true) :
    Search n f ≤ n ∧ (∀ a, a < Search n f → f a = false) ∧
      (∀ a, Search n f ≤ a → a < n → f a = true) :=
  searchLoop_spec f n mono n 0 n (Nat.zero_le _) (le_refl _) (by omega)
    (fun a ha => absurd ha (Nat.not_lt_zero a)) (fun a ha han => absurd han (by omega))

theorem sorted_sortInts (l : List Int) : (sortInts l).Sorted (· ≤ ·) :=
  List.sorted_insertionSort _ l

theorem mem_sortInts {l : List Int} {p : Int} : p ∈ sortInts l ↔ p ∈ l :=
  (List.perm_insertionSort _ l).mem_iff

theorem Mapped.mono {m : Map} {N N' : List String} (h : Mapped m N) (hsub : ∀ n ∈ N, n ∈ N') :
    Mapped m N' := by
  intro p hp
  obtain ⟨n, hn, hm⟩ := h p hp
  exact ⟨n, hsub n hn, hm⟩

theorem Mapped_addReplica {m : Map} {N : List String} (h : Mapped m N) {realNode : String}
    (hn : realNode ∈ N) (i : Nat) : Mapped (Map.addReplica realNode m i) N := by
  intro p hp
  simp only [Map.addReplica, List.mem_append, List.mem_singleton] at hp
  simp only [Map.addReplica, mapGet_mapSet]
  by_cases hph : p = m.hashOf (toString i ++ realNode)
  · exact ⟨realNode, hn, by simp [hph]⟩
  · rcases hp with hp | hp
    · obtain ⟨n, hn', hm⟩ := h p hp
      exact ⟨n, hn', by simp [hph, hm]⟩
    · exact absurd hp hph

theorem Mapped_foldl_addReplica {N : List String} {realNode : String} (hn : realNode ∈ N)
    (is : List Nat) : ∀ m, Mapped m N → Mapped (is.foldl (Map.addReplica realNode) m) N := by
  induction is with
  | nil => intro m h; exact h
  | cons i is ih => intro m h; exact ih _ (Mapped_addReplica h hn i)

theorem Mapped_addNode {m : Map} {N : List String} (h : Mapped m N) {realNode : String}
    (hn : realNode ∈ N) : Mapped (m.addNode realNode) N :=
  Mapped_foldl_addReplica hn _ m h

theorem Mapped_foldl_addNode {N : List String} (realNodes : List String)
    (hsub : ∀ n ∈ realNodes, n ∈ N) : ∀ m, Mapped m N → Mapped (realNodes.foldl Map.addNode m) N := by
  induction realNodes with
  | nil => intro m h; exact h
  | cons r rs ih =>
    intro m h
    exact ih (fun n hn => hsub n (List.mem_cons_of_mem _ hn)) _
      (Mapped_addNode h (hsub r (List.mem_cons_self _ _)))

theorem Mapped_Add {m : Map} {N : List String} (h : Mapped m N) (realNodes : List String)
    (hsub : ∀ n ∈ realNodes, n ∈ N) : Mapped (m.Add realNodes) N := by
  intro p hp
  simp only [Map.Add] at hp ⊢
  exact Mapped_foldl_addNode realNodes hsub m h p (mem_sortInts.1 hp)

theorem sorted_Add (m : Map) (realNodes : List String) : (m.Add realNodes).keys.Sorted (· ≤ ·) :=
  sorted_sortInts _

/-- After any sequence of `Add` calls the points are sorted and mapped to added nodes. -/
theorem ring_inv (calls : List (List String)) : ∀ (m : Map) (N : List String),
    m.keys.Sorted (· ≤ ·) → Mapped m N →
    (m.addAll calls).keys.Sorted (· ≤ ·) ∧ Mapped (m.addAll calls) (N ++ calls.flatten) := by
  induction calls with
  | nil => intro m N hs hm; exact ⟨hs, by simpa [Map.addAll] using hm⟩
  | cons nodes rest ih =>
    intro m N hs hm
    have h1 : Mapped (m.Add nodes) (N ++ nodes) :=
      Mapped_Add (hm.mono (fun n hn => List.mem_append_left _ hn)) nodes
        (fun n hn => List.mem_append_right _ hn)
    have := ih (m.Add nodes) (N ++ nodes) (sorted_Add m nodes) h1
    simpa [Map.addAll, List.append_assoc] using this

theorem hashOf_Add (m : Map) (realNodes : List String) (s : String) :
    (m.Add realNodes).hashOf s = m.hashOf s := by
  have h1 : ∀ (r : String) (is : List Nat) (m : Map),
      (is.foldl (Map.addReplica r) m).hash = m.hash := by
    intro r is
    induction is with
    | nil => intro m; rfl
    | cons i is ih => intro m; rw [List.foldl_cons, ih]; rfl
  have h2 : ∀ (rs : List String) (m : Map), (rs.foldl Map.addNode m).hash = m.hash := by
    intro rs
    induction rs with
    | nil => intro m; rfl
    | cons r rs ih => intro m; rw [List.foldl_cons, ih]; exact h1 r _ m
  simp only [Map.hashOf, Map.Add, h2]

/-- What `Get` returns on a ring with sorted points: the node of the smallest point at
or above the hash of the key, or of the smallest point of all when there is none. -/
theorem Get_spec {m : Map} (hs : m.keys.Sorted (· ≤ ·)) (hne : m.keys ≠ []) (key : String) :
    ∃ p ∈ m.keys, m.Get key = (mapGet m.hashMap p).getD "" ∧
      ((m.hashOf key ≤ p ∧ ∀ q ∈ m.keys, m.hashOf key ≤ q → p ≤ q) ∨
        ((∀ q ∈ m.keys, q < m.hashOf key) ∧ ∀ q ∈ m.keys, p ≤ q)) := by
  have hlen : 0 < m.keys.length := List.length_pos.2 hne
  have hlen0 : ¬ m.keys.length = 0 := by omega
  have mono : ∀ a b, a ≤ b → b < m.keys.length →
      (fun i => decide (m.keys.getD i 0 ≥ m.hashOf key)) a = true →
      (fun i => decide (m.keys.getD i 0 ≥ m.hashOf key)) b = true := by
    intro a b hab hb ha
    simp only [ge_iff_le, decide_eq_true_eq] at ha ⊢
    exact le_trans ha (sorted_getD_mono hs 0 hab hb)
  obtain ⟨hle, hlo, hhi⟩ := Search_spec _ _ mono
  simp only [Map.Get, hlen0, if_false]
  by_cases hidx : Search m.keys.length (fun i => decide (m.keys.getD i 0 ≥ m.hashOf key))
      < m.keys.length
  · rw [Nat.mod_eq_of_lt hidx]
    refine ⟨_, getD_mem 0 hidx, rfl, Or.inl ⟨?_, ?_⟩⟩
    · have := hhi _ (le_refl _) hidx
      simpa using this
    · intro q hq hhq
      obtain ⟨a, ha, rfl⟩ := exists_getD_of_mem 0 hq
      by_cases hlt : a < Search m.keys.length
          (fun i => decide (m.keys.getD i 0 ≥ m.hashOf key))
      · have := hlo a hlt
        simp only [ge_iff_le, decide_eq_false_iff_not, not_le] at this
        omega
      · exact sorted_getD_mono hs 0 (by omega) ha
  · have heq : Search m.keys.length (fun i => decide (m.keys.getD i 0 ≥ m.hashOf key))
        = m.keys.length := by omega
    rw [heq, Nat.mod_self]
    refine ⟨_, getD_mem 0 hlen, rfl, Or.inr ⟨?_, ?_⟩⟩
    · intro q hq
      obtain ⟨a, ha, rfl⟩ := exists_getD_of_mem 0 hq
      have := hlo a (by omega)
      simpa using this
    · intro q hq
      obtain ⟨a, ha, rfl⟩ := exists_getD_of_mem 0 hq
      exact sorted_getD_mono hs 0 (Nat.zero_le _) ha

end GeeCache.consistenthash

namespace GeeCache.lru

variable {V : Type} {σ : Type} [Value V]

/-- An entry that fits the budget (or any entry when there is no budget) is held after
its `Add` and found by `Get`. -/
theorem Add_then_Get {c : Cache V σ} (h : Inv c) (hmax : 0 ≤ c.maxBytes) (k : String) (v : V)
    (hfit : c.maxBytes ≠ 0 → (k.utf8ByteSize : Int) + Value.Len v ≤ c.maxBytes) :
    ∃ c', Add c k v = some c' ∧ Inv c' ∧ (Get c' k).1 = some v := by
  obtain ⟨c', hc'⟩ := Add_terminates h hmax k v
  have h' := Inv_Add h hc'
  obtain ⟨p, rest, hll⟩ := insert_front h k v
  obtain ⟨rest', hll'⟩ := evictLoop_keeps_front (Inv_insert h k v) hll
    (by rw [maxBytes_insert]; exact fun h0 => wrap_entrySize_le (hfit h0)) hc'
  have hmem : (⟨p, ⟨k, v⟩⟩ : Element V) ∈ c'.ll := by rw [hll']; exact List.mem_cons_self _ _
  refine ⟨c', hc', h', ?_⟩
  have := Get_of_mem h' hmem
  simp only [Element.key] at this
  rw [this]

end GeeCache.lru

namespace GeeCache

theorem ByteView_Len_le (b : List UInt8) : lru.Value.Len (ByteView.mk b) ≤ (b.length : Int) := by
  show wrapInt64 (b.length : Int) ≤ (b.length : Int)
  unfold wrapInt64
  omega

/-- The first `Get` of a key on a cold cache without peers: one call of the backing
source, the bytes returned and stored. -/
theorem Group.Get_cold (g : Group) (k : String) (b : List UInt8) (hpeers : g.peers = none)
    (hempty : g.mainCache.Empty) (hk : k ≠ "") (hsrc : g.getter k = .ok b)
    (hfit : g.mainCache.cacheBytes = 0 ∨
      (k.utf8ByteSize : Int) + (b.length : Int) ≤ g.mainCache.cacheBytes) :
    ∃ l, lru.Inv l ∧ (lru.Get l k).1 = some (ByteView.mk b) ∧
      g.Get k = some (.ok (ByteView.mk b),
        { g with mainCache := { g.mainCache with lru := some l }
                 trace := g.trace ++ [Event.getterGet k] }) := by
  have hmax : 0 ≤ g.mainCache.cacheBytes := by
    rcases hfit with h | h
    · omega
    · omega
  have hfit' : g.mainCache.cacheBytes ≠ 0 →
      (k.utf8ByteSize : Int) + lru.Value.Len (ByteView.mk b) ≤ g.mainCache.cacheBytes := by
    intro h0
    have := ByteView_Len_le b
    rcases hfit with h | h
    · exact absurd h h0
    · omega
  cases hl : g.mainCache.lru with
  | none =>
    obtain ⟨l, hadd, hinv, hget⟩ := lru.Add_then_Get
      (lru.Inv_New g.mainCache.cacheBytes none ()) hmax k (ByteView.mk b) hfit'
    refine ⟨l, hinv, hget, ?_⟩
    simp [Group.Get, hk, cache.get, hl, Group.load, singleflight.Do, hpeers, Group.getLocally,
      hsrc, Group.populateCache, cache.add, cloneBytes, hadd]
  | some l0 =>
    unfold cache.Empty at hempty
    rw [hl] at hempty
    obtain ⟨hnil, calls, hreach⟩ := hempty
    have hinv0 := lru.Inv_run (lru.Inv_New g.mainCache.cacheBytes none ()) hreach
    have hm0 : l0.maxBytes = g.mainCache.cacheBytes := lru.maxBytes_run hreach
    have hmiss : mapGet l0.cache k = none := by
      rw [lru.index_none_iff hinv0, hnil]; simp
    obtain ⟨l, hadd, hinv, hget⟩ := lru.Add_then_Get hinv0 (by rw [hm0]; exact hmax) k
      (ByteView.mk b) (by rw [hm0]; exact hfit')
    refine ⟨l, hinv, hget, ?_⟩
    have hg0 := lru.Get_of_absent hmiss
    simp [Group.Get, hk, cache.get, hl, hg0, Group.load, singleflight.Do, hpeers,
      Group.getLocally, hsrc, Group.populateCache, cache.add, cloneBytes, hadd]

/-- A `Get` of a key the local cache holds: the value held, no outside call. -/
theorem Group.Get_hit (g : Group) (k : String) (v : ByteView) (l : lru.Cache ByteView Unit)
    (hk : k ≠ "") (hl : g.mainCache.lru = some l) (hget : (lru.Get l k).1 = some v) :
    g.Get k = some (.ok v,
      { g with mainCache := { g.mainCache with lru := some (lru.Get l k).2 } }) := by
  simp [Group.Get, hk, cache.get, hl, hget]

end GeeCache

namespace GeeCache.lru

variable {V : Type} {σ : Type} [Value V]

/-- The keys of the index are the keys of the list, up to order. -/
theorem index_keys_perm {c : Cache V σ} (h : Inv c) :
    (c.cache.map Prod.fst).Perm (c.ll.map Element.key) := by
  rw [List.perm_ext_iff_of_nodup h.indexKeys h.keys]
  intro k
  rw [← mapGet_isSome_iff, index_iff_mem_keys h]

/-- While the loop of `Add` runs over budget the list is not empty. -/
theorem nonempty_of_overBudget {c : Cache V σ} (h : Inv c) (hmax : 0 ≤ c.maxBytes)
    (hob : overBudget c = true) : c.ll ≠ [] := by
  intro hnil
  have hb : c.nbytes = 0 := by rw [h.bytes, hnil]; simp [sumSizes, wrapInt64]
  unfold overBudget at hob
  rw [hb] at hob
  simp only [Bool.and_eq_true, decide_eq_true_eq] at hob
  omega

theorem maxBytes_iterate (c : Cache V σ) (j : Nat) :
    (RemoveOldest^[j] c).maxBytes = c.maxBytes := by
  induction j generalizing c with
  | zero => rfl
  | succ n ih => rw [Function.iterate_succ_apply, ih, maxBytes_RemoveOldest]

end GeeCache.lru

namespace GeeCache.lru

variable {V : Type} {σ : Type} [Value V]

theorem addedKeys_snoc (calls : List (Call V)) (call : Call V) :
    addedKeys (calls ++ [call]) =
      addedKeys calls ++ (match call with
        | .add key _ => [key]
        | .get _ => []
        | .removeOldest => []) := by
  unfold addedKeys
  rw [List.filterMap_append]
  cases call <;> rfl

theorem lastWritten_none_of_not_added (calls : List (Call V)) (k : String)
    (h : k ∉ addedKeys calls) : lastWritten calls k = none := by
  induction calls using List.reverseRecOn with
  | nil => rfl
  | append_singleton calls call ih =>
    rw [addedKeys_snoc] at h
    rw [lastWritten_snoc]
    cases call with
    | add key value =>
      simp only [List.mem_append, List.mem_singleton, not_or] at h
      have : ¬ key = k := fun heq => h.2 heq.symm
      simp only [this, if_false]
      exact ih h.1
    | get key => exact ih (by simpa using h)
    | removeOldest => exact ih (by simpa using h)

/-- Without a budget `Add` is its insertion step. -/
theorem Add_unbounded {c : Cache V σ} (h0 : c.maxBytes = 0) (k : String) (v : V) :
    Add c k v = some (insert c k v) := by
  have hob : overBudget (insert c k v) = false := by
    unfold overBudget
    rw [maxBytes_insert, h0]
    simp
  have hloop : ∀ fuel, evictLoop fuel (insert c k v) = some (insert c k v) := by
    intro fuel
    cases fuel with
    | zero => simp [evictLoop, hob]
    | succ n => simp [evictLoop, hob]
  exact hloop _

theorem mem_keys_insert {c : Cache V σ} (h : Inv c) (k : String) (v : V) (x : String) :
    x ∈ (insert c k v).ll.map Element.key ↔ x = k ∨ x ∈ c.ll.map Element.key := by
  rw [keys_insert h]
  simp only [List.mem_cons, List.mem_filter, ne_eq, decide_not, Bool.not_eq_eq_eq_not,
    Bool.not_true, decide_eq_false_iff_not]
  constructor
  · rintro (hx | ⟨hx, _⟩)
    · exact Or.inl hx
    · exact Or.inr hx
  · rintro (hx | hx)
    · exact Or.inl hx
    · by_cases hxk : x = k
      · exact Or.inl hxk
      · exact Or.inr ⟨hx, hxk⟩

theorem Get_eq_lastWritten {calls : List (Call V)} {c : Cache V σ} (h : Inv c)
    (hw : Written calls c) (hm : HoldsAdded calls c) (k : String) :
    (Get c k).1 = lastWritten calls k := by
  by_cases hk : k ∈ c.ll.map Element.key
  · obtain ⟨e, he, rfl⟩ := List.mem_map.1 hk
    rw [Get_of_mem h he]
    exact (hw e he).symm
  · rw [Get_of_absent ((index_none_iff h k).2 hk)]
    exact (lastWritten_none_of_not_added calls k (fun hadd => hk ((hm k).2 hadd))).symm

theorem unbounded_run (calls : List (Call V)) :
    ∀ (c : Cache V σ) (past : List (Call V)), Inv c → c.maxBytes = 0 → Written past c →
      HoldsAdded past c → AddGetOnly calls →
      ∃ c', run c calls = some c' ∧ Inv c' ∧ c'.env = c.env ∧ Written (past ++ calls) c' ∧
        HoldsAdded (past ++ calls) c' := by
  induction calls with
  | nil =>
    intro c past h h0 hw hm hag
    exact ⟨c, rfl, h, rfl, by simpa using hw, by simpa using hm⟩
  | cons call rest ih =>
    intro c past h h0 hw hm hag
    have hag' : AddGetOnly rest := fun cl hcl => hag cl (List.mem_cons_of_mem _ hcl)
    have key : ∃ c1, step c call = some c1 ∧ c1.env = c.env ∧ c1.maxBytes = 0 ∧
        HoldsAdded (past ++ [call]) c1 := by
      cases call with
      | add k v =>
        refine ⟨insert c k v, Add_unbounded h0 k v, env_insert c k v,
          by rw [maxBytes_insert, h0], ?_⟩
        intro x
        rw [mem_keys_insert h, addedKeys_snoc, hm x]
        simp only [List.mem_append, List.mem_singleton]
        exact or_comm
      | get k =>
        refine ⟨(Get c k).2, rfl, env_Get c k, by rw [maxBytes_Get, h0], ?_⟩
        intro x
        rw [addedKeys_snoc, ((perm_Get h k).map Element.key).mem_iff, hm x]
        simp
      | removeOldest =>
        have := hag Call.removeOldest (List.mem_cons_self _ _)
        simp [Call.isRemoveOldest] at this
    obtain ⟨c1, hc1, henv1, h01, hm1⟩ := key
    obtain ⟨c2, hc2, hinv2, henv2, hw2, hm2⟩ := ih c1 (past ++ [call]) (Inv_step h hc1) h01
      (Written_step h hw hc1) hm1 hag'
    refine ⟨c2, by simp [run, hc1, hc2], hinv2, by rw [henv2, henv1], ?_, ?_⟩
    · simpa using hw2
    · simpa using hm2

end GeeCache.lru

namespace GeeCache.lru

variable {V : Type} {σ : Type} [Value V]

theorem Fits_step {c c' : Cache V σ} {B : Int} {call : Call V} (hf : Fits c B) (h : Inv c)
    (hv : 0 ≤ call.valueLen) (hs : step c call = some c') : Fits c' (B + call.bytes) := by
  cases call with
  | add k v => exact Fits_evictLoop (Fits_insert hf h k hv) (Inv_insert h k v) hs
  | get k =>
    simp only [step, Option.some.injEq] at hs; subst hs
    simpa [Call.bytes] using Fits_Get hf h k
  | removeOldest =>
    simp only [step, Option.some.injEq] at hs; subst hs
    simpa [Call.bytes] using (Fits_RemoveOldest hf h).1

theorem Fits_run {calls : List (Call V)} {c c' : Cache V σ} {B : Int} (hf : Fits c B)
    (h : Inv c) (hnn : NonNegLens calls) (hr : run c calls = some c') :
    Fits c' (B + addedBytes calls) := by
  induction calls generalizing c B with
  | nil =>
    simp only [run, Option.some.injEq] at hr; subst hr
    simpa [addedBytes] using hf
  | cons call rest ih =>
    simp only [run] at hr
    cases hs : step c call with
    | none => rw [hs] at hr; cases hr
    | some c1 =>
      rw [hs] at hr
      have := ih (Fits_step hf h (hnn call (List.mem_cons_self _ _)) hs) (Inv_step h hs)
        (fun cl hcl => hnn cl (List.mem_cons_of_mem _ hcl)) hr
      rw [addedBytes_cons]
      rw [add_assoc] at this
      exact this

theorem evictLoop_of_not_overBudget {c : Cache V σ} (hob : overBudget c = false) (fuel : Nat) :
    evictLoop fuel c = some c := by
  cases fuel with
  | zero => simp [evictLoop, hob]
  | succ n => simp [evictLoop, hob]

/-- When the front entry alone is over budget the loop of `Add` evicts every entry. -/
theorem evictLoop_empties {fuel : Nat} {c : Cache V σ} {e0 : Element V}
    {rest : List (Element V)} {B : Int} (h : Inv c) (hf : Fits c B) (hB : B < 2 ^ 63)
    (hmax : 0 < c.maxBytes) (hll : c.ll = e0 :: rest) (hbig : c.maxBytes < entrySize e0.Value)
    (hfuel : rest.length + 1 ≤ fuel) : ∃ c', evictLoop fuel c = some c' ∧ c'.ll = [] := by
  induction fuel generalizing c rest with
  | zero => omega
  | succ n ih =>
    have hrest : 0 ≤ sumSizes rest :=
      sumSizes_nonneg (fun e he => hf.1 e (by rw [hll]; exact List.mem_cons_of_mem _ he))
    have hnb : c.nbytes = entrySize e0.Value + sumSizes rest := by
      rw [hf.nbytes_eq h hB, hll, sumSizes_cons]
    have hob : overBudget c = true := by
      unfold overBudget
      rw [hnb]
      have h1 : c.maxBytes ≠ 0 := by omega
      have h2 : c.maxBytes < entrySize e0.Value + sumSizes rest := by omega
      simp [h1, h2]
    simp only [evictLoop, hob, if_true]
    have hI := Inv_RemoveOldest h
    have hF := (Fits_RemoveOldest hf h).1
    have hl := ll_RemoveOldest h
    cases rest with
    | nil =>
      have hnil : (RemoveOldest c).ll = [] := by rw [hl, hll]; rfl
      have hb0 : (RemoveOldest c).nbytes = 0 := by
        rw [hI.bytes, hnil]; simp [sumSizes, wrapInt64]
      have hob' : overBudget (RemoveOldest c) = false := by
        unfold overBudget
        rw [hb0, maxBytes_RemoveOldest]
        have : ¬ c.maxBytes < 0 := by omega
        simp [this]
      exact ⟨RemoveOldest c, evictLoop_of_not_overBudget hob' n, hnil⟩
    | cons a as =>
      have hl' : (RemoveOldest c).ll = e0 :: (a :: as).dropLast := by rw [hl, hll]; rfl
      refine @ih (RemoveOldest c) ((a :: as).dropLast) hI hF ?_ hl' ?_ ?_
      · rw [maxBytes_RemoveOldest]; exact hmax
      · rw [maxBytes_RemoveOldest]; exact hbig
      · simp only [List.length_dropLast, List.length_cons] at hfuel ⊢
        omega

end GeeCache.lru

namespace GeeCache.consistenthash

theorem hashOf_congr {m m' : Map} (h : m'.hash = m.hash) (s : String) :
    m'.hashOf s = m.hashOf s := by
  simp only [Map.hashOf, h]

/-- What the inner loop of `Add` does to a ring, for a list of replica indices. -/
theorem foldl_addReplica (n : String) (is : List Nat) : ∀ m : Map,
    (is.foldl (Map.addReplica n) m).hash = m.hash ∧
    (is.foldl (Map.addReplica n) m).replicas = m.replicas ∧
    (is.foldl (Map.addReplica n) m).keys
      = m.keys ++ is.map (fun i => m.hashOf (toString i ++ n)) ∧
    ∀ p, mapGet (is.foldl (Map.addReplica n) m).hashMap p
      = if p ∈ is.map (fun i => m.hashOf (toString i ++ n)) then some n
        else mapGet m.hashMap p := by
  induction is with
  | nil => intro m; simp
  | cons i is ih =>
    intro m
    obtain ⟨h1, h2, h3, h4⟩ := ih (Map.addReplica n m i)
    have hh : (Map.addReplica n m i).hash = m.hash := rfl
    have hpt : (fun (j : Nat) => (Map.addReplica n m i).hashOf (toString j ++ n))
        = (fun (j : Nat) => m.hashOf (toString j ++ n)) := by
      funext j; exact hashOf_congr hh _
    rw [hpt] at h3 h4
    simp only [List.foldl_cons]
    refine ⟨h1.trans hh, h2, ?_, ?_⟩
    · rw [h3]
      simp [Map.addReplica]
    · intro p
      rw [h4 p]
      simp only [Map.addReplica, mapGet_mapSet, List.map_cons, List.mem_cons]
      by_cases hp : p ∈ is.map (fun j => m.hashOf (toString j ++ n))
      · simp [hp]
      · by_cases hpi : p = m.hashOf (toString i ++ n)
        · simp [hpi]
        · simp [hp, hpi]

theorem hash_addNode (m : Map) (n : String) : (m.addNode n).hash = m.hash :=
  (foldl_addReplica n _ m).1

theorem replicas_addNode (m : Map) (n : String) : (m.addNode n).replicas = m.replicas :=
  (foldl_addReplica n _ m).2.1

theorem keys_addNode (m : Map) (n : String) : (m.addNode n).keys = m.keys ++ nodePoints m n :=
  (foldl_addReplica n _ m).2.2.1

theorem mapGet_addNode (m : Map) (n : String) (p : Int) :
    mapGet (m.addNode n).hashMap p
      = if p ∈ nodePoints m n then some n else mapGet m.hashMap p :=
  (foldl_addReplica n _ m).2.2.2 p

theorem nodePoints_congr {m m' : Map} (h : m'.hash = m.hash) (hr : m'.replicas = m.replicas)
    (n : String) : nodePoints m' n = nodePoints m n := by
  unfold nodePoints
  rw [hr]
  apply List.map_congr_left
  intro i _
  exact hashOf_congr h _

theorem Extends.refl (m : Map) (N : List String) : Extends m m N :=
  ⟨rfl, fun _ hp => hp, fun _ hp => Or.inl ⟨hp, rfl⟩⟩

theorem Extends.trans {m m' m'' : Map} {N : List String} (h1 : Extends m m' N)
    (h2 : Extends m' m'' N) : Extends m m'' N := by
  refine ⟨h2.1.trans h1.1, fun p hp => h2.2.1 p (h1.2.1 p hp), ?_⟩
  intro p hp
  rcases h2.2.2 p hp with ⟨hp', heq⟩ | hn
  · rcases h1.2.2 p hp' with ⟨hp0, heq0⟩ | ⟨n, hn, hmap⟩
    · exact Or.inl ⟨hp0, heq.trans heq0⟩
    · exact Or.inr ⟨n, hn, heq.trans hmap⟩
  · exact Or.inr hn

theorem Extends.widen {m m' : Map} {N N' : List String} (h : Extends m m' N)
    (hsub : ∀ n ∈ N, n ∈ N') : Extends m m' N' := by
  refine ⟨h.1, h.2.1, fun p hp => ?_⟩
  rcases h.2.2 p hp with h0 | ⟨n, hn, hmap⟩
  · exact Or.inl h0
  · exact Or.inr ⟨n, hsub n hn, hmap⟩

theorem Extends_addNode (m : Map) (n : String) : Extends m (m.addNode n) [n] := by
  refine ⟨hash_addNode m n, ?_, ?_⟩
  · intro p hp
    rw [keys_addNode]
    exact List.mem_append_left _ hp
  · intro p hp
    rw [keys_addNode] at hp
    rw [mapGet_addNode]
    by_cases hpt : p ∈ nodePoints m n
    · exact Or.inr ⟨n, List.mem_singleton_self n, by simp [hpt]⟩
    · rcases List.mem_append.1 hp with hp | hp
      · exact Or.inl ⟨hp, by simp [hpt]⟩
      · exact absurd hp hpt

theorem Extends_foldl_addNode (N : List String) :
    ∀ m : Map, Extends m (N.foldl Map.addNode m) N := by
  induction N with
  | nil => intro m; exact Extends.refl m []
  | cons n rest ih =>
    intro m
    simp only [List.foldl_cons]
    exact ((Extends_addNode m n).widen (fun x hx => by
        rw [List.mem_singleton] at hx; rw [hx]; exact List.mem_cons_self _ _)).trans
      ((ih (m.addNode n)).widen (fun x hx => List.mem_cons_of_mem _ hx))

theorem Extends_Add (m : Map) (N : List String) : Extends m (m.Add N) N := by
  obtain ⟨h1, h2, h3⟩ := Extends_foldl_addNode N m
  refine ⟨h1, ?_, ?_⟩
  · intro p hp
    exact mem_sortInts.2 (h2 p hp)
  · intro p hp
    exact h3 p (mem_sortInts.1 hp)

/-- `Get` depends on the ring through the set of its points, their nodes and the hash. -/
theorem Get_congr {m m' : Map} (hs : m.keys.Sorted (· ≤ ·)) (hs' : m'.keys.Sorted (· ≤ ·))
    (hk : ∀ p, p ∈ m'.keys ↔ p ∈ m.keys)
    (hmap : ∀ p ∈ m.keys, mapGet m'.hashMap p = mapGet m.hashMap p)
    (hh : m'.hash = m.hash) (key : String) : m'.Get key = m.Get key := by
  by_cases hne : m.keys = []
  · have hne' : m'.keys = [] := by
      apply List.eq_nil_iff_forall_not_mem.2
      intro p hp
      have := (hk p).1 hp
      rw [hne] at this
      cases this
    simp [Map.Get, hne, hne']
  · have hne' : m'.keys ≠ [] := by
      obtain ⟨p, hp⟩ := List.exists_mem_of_ne_nil _ hne
      exact List.ne_nil_of_mem ((hk p).2 hp)
    obtain ⟨p, hp, hget, hmin⟩ := Get_spec hs hne key
    obtain ⟨p', hp', hget', hmin'⟩ := Get_spec hs' hne' key
    have hho := hashOf_congr hh key
    rw [hho] at hmin'
    have hpp : p' = p := by
      rcases hmin with ⟨h1, h2⟩ | ⟨h1, h2⟩
      · rcases hmin' with ⟨h1', h2'⟩ | ⟨h1', h2'⟩
        · exact le_antisymm (h2' p ((hk p).2 hp) h1) (h2 p' ((hk p').1 hp') h1')
        · have := h1' p ((hk p).2 hp)
          omega
      · rcases hmin' with ⟨h1', h2'⟩ | ⟨h1', h2'⟩
        · have := h1 p' ((hk p').1 hp')
          omega
        · exact le_antisymm (h2' p ((hk p).2 hp)) (h2 p' ((hk p').1 hp'))
    rw [hget', hget, hpp, hmap p hp]

end GeeCache.consistenthash

namespace GeeCache.consistenthash

theorem length_sortInts (l : List Int) : (sortInts l).length = l.length :=
  (List.perm_insertionSort _ l).length_eq

/-- On a ring with sorted points, adding nodes leaves the node of a key as it was or
makes it one of the added nodes. -/
theorem Get_Add_or {m : Map} (hs : m.keys.Sorted (· ≤ ·)) (N : List String) (key : String) :
    (m.Add N).Get key = m.Get key ∨ (m.Add N).Get key ∈ N := by
  obtain ⟨hh, hsub, hext⟩ := Extends_Add m N
  by_cases hne' : (m.Add N).keys = []
  · have hne : m.keys = [] := by
      apply List.eq_nil_iff_forall_not_mem.2
      intro p hp
      have := hsub p hp
      rw [hne'] at this
      cases this
    left
    simp [Map.Get, hne, hne']
  · obtain ⟨p', hp', hget', hmin'⟩ := Get_spec (sorted_Add m N) hne' key
    rcases hext p' hp' with ⟨hp0, hmap⟩ | ⟨n, hn, hmap⟩
    · left
      have hne : m.keys ≠ [] := List.ne_nil_of_mem hp0
      obtain ⟨p, hp, hget, hmin⟩ := Get_spec hs hne key
      rw [hashOf_congr hh key] at hmin'
      have hpp : p' = p := by
        rcases hmin with ⟨h1, h2⟩ | ⟨h1, h2⟩
        · rcases hmin' with ⟨h1', h2'⟩ | ⟨h1', h2'⟩
          · exact le_antisymm (h2' p (hsub p hp) h1) (h2 p' hp0 h1')
          · have := h1' p (hsub p hp)
            omega
        · rcases hmin' with ⟨h1', h2'⟩ | ⟨h1', h2'⟩
          · have := h1 p' hp0
            omega
          · exact le_antisymm (h2' p (hsub p hp)) (h2 p' hp0)
      rw [hget', hget, hmap, hpp]
    · right
      rw [hget', hmap]
      exact hn

end GeeCache.consistenthash

namespace GeeCache

theorem cache.add_eq (c : cache) (k : String) (v : ByteView) :
    c.add k v = (lru.Add c.store k v).map (fun l => { c with lru := some l }) := by
  unfold cache.add cache.store
  cases c.lru <;> rfl

theorem cache.Inv_store {c : cache} (hr : c.Reachable) :
    lru.Inv c.store ∧ c.store.maxBytes = c.cacheBytes := by
  unfold cache.Reachable at hr
  unfold cache.store
  cases hl : c.lru with
  | none => exact ⟨lru.Inv_New _ _ _, rfl⟩
  | some l =>
    rw [hl] at hr
    obtain ⟨calls, hcalls⟩ := hr
    exact ⟨lru.Inv_run (lru.Inv_New _ _ _) hcalls, lru.maxBytes_run hcalls⟩

theorem lru.Get_of_none {V σ : Type} {c : lru.Cache V σ} {k : String}
    (h : (lru.Get c k).1 = none) : (lru.Get c k).2 = c := by
  unfold lru.Get at h ⊢
  cases h1 : mapGet c.cache k with
  | none => rfl
  | some p =>
    rw [h1] at h
    simp only at h ⊢
    cases h2 : lru.deref c.ll p with
    | none => rfl
    | some e =>
      rw [h2] at h
      cases h

/-- A local lookup that misses leaves the local cache as it was. -/
theorem cache.get_miss {c : cache} {k : String} (h : (c.get k).1 = none) : (c.get k).2 = c := by
  cases c with
  | mk cacheBytes l =>
    cases l with
    | none => rfl
    | some l =>
      have h2 : (lru.Get l k).2 = l := lru.Get_of_none h
      show ({ cacheBytes := cacheBytes, lru := some (lru.Get l k).2 } : cache) = _
      rw [h2]

/-- What `add` does on a local cache with a budget that is not negative. -/
theorem cache.add_spec {c : cache} (hr : c.Reachable) (hmax : 0 ≤ c.cacheBytes) (k : String)
    (v : ByteView) :
    ∃ l, lru.Add c.store k v = some l ∧ c.add k v = some { c with lru := some l } ∧
      ((c.cacheBytes ≠ 0 → (k.utf8ByteSize : Int) + lru.Value.Len v ≤ c.cacheBytes) →
        (lru.Get l k).1 = some v) := by
  obtain ⟨hinv, hm⟩ := cache.Inv_store hr
  obtain ⟨l, hl⟩ := lru.Add_terminates hinv (by rw [hm]; exact hmax) k v
  refine ⟨l, hl, by rw [cache.add_eq, hl]; rfl, ?_⟩
  intro hfit
  obtain ⟨l', hl', _, hget⟩ := lru.Add_then_Get hinv (by rw [hm]; exact hmax) k v
    (by rw [hm]; exact hfit)
  rw [hl] at hl'
  cases hl'
  exact hget

end GeeCache

namespace GeeCache.lru

variable {V : Type} {σ : Type} [Value V]

theorem nbytes_insert_absent {c : Cache V σ} {k : String} (hk : mapGet c.cache k = none)
    (v : V) : (insert c k v).nbytes = wrapInt64 (c.nbytes + entrySize (⟨k, v⟩ : entry V)) := by
  rw [insert_of_absent hk]

/-- An `Add` whose insertion step ends within budget evicts nothing. -/
theorem Add_of_not_overBudget {c : Cache V σ} {k : String} {v : V}
    (hob : overBudget (insert c k v) = false) : Add c k v = some (insert c k v) :=
  evictLoop_of_not_overBudget hob _

theorem overBudget_false_of_le {c : Cache V σ} (h : c.nbytes ≤ c.maxBytes) :
    overBudget c = false := by
  unfold overBudget
  have : ¬ c.maxBytes < c.nbytes := by omega
  simp [this]

theorem overBudget_true_of_lt {c : Cache V σ} (h0 : 0 < c.maxBytes)
    (h : c.maxBytes < c.nbytes) : overBudget c = true := by
  unfold overBudget
  have : c.maxBytes ≠ 0 := by omega
  simp [this, h]

theorem back_of_keys {l : List (Element V)} {ks : List String} {k : String}
    (h : l.map Element.key = ks ++ [k]) : ∃ ele, Back l = some ele ∧ ele.key = k := by
  have h1 : (l.map Element.key).getLast? = some k := by rw [h]; simp
  rw [List.getLast?_map] at h1
  unfold Back
  cases hb : l.getLast? with
  | none => rw [hb] at h1; cases h1
  | some ele =>
    rw [hb] at h1
    simp only [Option.map_some', Option.some.injEq] at h1
    exact ⟨ele, rfl, h1⟩

end GeeCache.lru

namespace GeeCache.lru

variable {V : Type} {σ : Type} [Value V]

/-- The scenario of the recency test from the sizes alone: `A`, `B`, `C` fit together, `D`
does not fit with them, and `A`, `C`, `D` fit together. -/
theorem recency_scenario_sizes (maxBytes : Int) (onEvicted : Option (String → V → σ → σ))
    (env : σ) (kA kB kC kD : String) (vA vB vC vD : V) (hne : [kA, kB, kC, kD].Nodup)
    (hmax : 0 < maxBytes)
    (hlA : 0 ≤ Value.Len vA) (hlB : 0 ≤ Value.Len vB) (hlC : 0 ≤ Value.Len vC)
    (hlD : 0 ≤ Value.Len vD)
    (hheld : entrySize (⟨kA, vA⟩ : entry V) + entrySize (⟨kB, vB⟩ : entry V)
      + entrySize (⟨kC, vC⟩ : entry V) ≤ maxBytes)
    (hover : maxBytes < entrySize (⟨kA, vA⟩ : entry V) + entrySize (⟨kB, vB⟩ : entry V)
      + entrySize (⟨kC, vC⟩ : entry V) + entrySize (⟨kD, vD⟩ : entry V))
    (hone : entrySize (⟨kA, vA⟩ : entry V) + entrySize (⟨kC, vC⟩ : entry V)
      + entrySize (⟨kD, vD⟩ : entry V) ≤ maxBytes)
    (hwrap : entrySize (⟨kA, vA⟩ : entry V) + entrySize (⟨kB, vB⟩ : entry V)
      + entrySize (⟨kC, vC⟩ : entry V) + entrySize (⟨kD, vD⟩ : entry V) < 2 ^ 63) :
    ∃ c3 c4 : Cache V σ,
      run (New maxBytes onEvicted env) [.add kA vA, .add kB vB, .add kC vC, .get kA] = some c3 ∧
      c3.ll.map Element.key = [kA, kC, kB] ∧
      Add c3 kD vD = some c4 ∧ c4 = RemoveOldest (insert c3 kD vD) ∧
      run (New maxBytes onEvicted env)
        [.add kA vA, .add kB vB, .add kC vC, .get kA, .add kD vD] = some c4 ∧
      c4.ll.map Element.key = [kD, kA, kC] ∧ mapGet c4.cache kB = none ∧
      (∀ k ∈ [kA, kC, kD], ∃ p, mapGet c4.cache k = some p) ∧
      c4.env = callOnEvicted onEvicted kB vB env := by
  have hne' := hne
  simp only [List.nodup_cons, List.mem_cons, List.mem_singleton, not_or, List.not_mem_nil,
    not_false_eq_true, List.nodup_nil, and_true] at hne'
  obtain ⟨⟨hAB, hAC, hAD⟩, ⟨hBC, hBD⟩, hCD⟩ := hne'
  have hBA : ¬ kB = kA := fun h => hAB h.symm
  have hCA : ¬ kC = kA := fun h => hAC h.symm
  have hDA : ¬ kD = kA := fun h => hAD h.symm
  have hCB : ¬ kC = kB := fun h => hBC h.symm
  have hDB : ¬ kD = kB := fun h => hBD h.symm
  have hDC : ¬ kD = kC := fun h => hCD h.symm
  have hsA : 0 ≤ entrySize (⟨kA, vA⟩ : entry V) := by simp only [entrySize]; omega
  have hsB : 0 ≤ entrySize (⟨kB, vB⟩ : entry V) := by simp only [entrySize]; omega
  have hsC : 0 ≤ entrySize (⟨kC, vC⟩ : entry V) := by simp only [entrySize]; omega
  have hsD : 0 ≤ entrySize (⟨kD, vD⟩ : entry V) := by simp only [entrySize]; omega
  -- the store after each insertion
  have h0 := Inv_New (V := V) maxBytes onEvicted env
  have hI1 := Inv_insert h0 kA vA
  have hI2 := Inv_insert hI1 kB vB
  have hI3 := Inv_insert hI2 kC vC
  have hIg := Inv_Get hI3 kA
  have hI4 := Inv_insert hIg kD vD
  have hk0 : (New maxBytes onEvicted env : Cache V σ).ll.map Element.key = [] := rfl
  have hk1 : (insert (New maxBytes onEvicted env) kA vA).ll.map Element.key = [kA] := by
    rw [keys_insert h0, hk0]; rfl
  have hk2 : (insert (insert (New maxBytes onEvicted env) kA vA) kB vB).ll.map Element.key
      = [kB, kA] := by
    rw [keys_insert hI1, hk1]
    simp [List.filter_cons, hAB, hBA]
  have hk3 : (insert (insert (insert (New maxBytes onEvicted env) kA vA) kB vB)
      kC vC).ll.map Element.key = [kC, kB, kA] := by
    rw [keys_insert hI2, hk2]
    simp [List.filter_cons, hAC, hCA, hBC, hCB]
  have hA : kA ∈ (insert (insert (insert (New maxBytes onEvicted env) kA vA) kB vB)
      kC vC).ll.map Element.key := by rw [hk3]; simp
  obtain ⟨e, he, hek⟩ := List.mem_map.1 hA
  have hkg : (Get (insert (insert (insert (New maxBytes onEvicted env) kA vA) kB vB)
      kC vC) kA).2.ll.map Element.key = [kA, kC, kB] := by
    have hg := keys_Get_hit hI3 he
    rw [hek] at hg
    rw [hg, hk3]
    simp [List.filter_cons, hAB, hAC, hBA, hCA]
  have hk4 : (insert (Get (insert (insert (insert (New maxBytes onEvicted env) kA vA) kB vB)
      kC vC) kA).2 kD vD).ll.map Element.key = [kD, kA, kC, kB] := by
    rw [keys_insert hIg, hkg]
    simp [List.filter_cons, hAD, hDA, hBD, hDB, hCD, hDC]
  -- the keys are new at each insertion
  have ha0 : mapGet (New maxBytes onEvicted env : Cache V σ).cache kA = none := rfl
  have ha1 : mapGet (insert (New maxBytes onEvicted env) kA vA).cache kB = none := by
    rw [index_none_iff hI1, hk1]; simp [hBA]
  have ha2 : mapGet (insert (insert (New maxBytes onEvicted env) kA vA) kB vB).cache kC
      = none := by
    rw [index_none_iff hI2, hk2]; simp [hCA, hCB]
  have ha3 : mapGet (Get (insert (insert (insert (New maxBytes onEvicted env) kA vA) kB vB)
      kC vC) kA).2.cache kD = none := by
    rw [index_none_iff hIg, hkg]; simp [hDA, hDB, hDC]
  -- the byte counter
  have hn1 : (insert (New maxBytes onEvicted env) kA vA).nbytes
      = entrySize (⟨kA, vA⟩ : entry V) := by
    have hz : (New maxBytes onEvicted env : Cache V σ).nbytes = 0 := rfl
    rw [nbytes_insert_absent ha0, hz, zero_add]
    exact wrapInt64_of_range (by omega) (by omega)
  have hn2 : (insert (insert (New maxBytes onEvicted env) kA vA) kB vB).nbytes
      = entrySize (⟨kA, vA⟩ : entry V) + entrySize (⟨kB, vB⟩ : entry V) := by
    rw [nbytes_insert_absent ha1, hn1]
    exact wrapInt64_of_range (by omega) (by omega)
  have hn3 : (insert (insert (insert (New maxBytes onEvicted env) kA vA) kB vB) kC vC).nbytes
      = entrySize (⟨kA, vA⟩ : entry V) + entrySize (⟨kB, vB⟩ : entry V)
        + entrySize (⟨kC, vC⟩ : entry V) := by
    rw [nbytes_insert_absent ha2, hn2]
    exact wrapInt64_of_range (by omega) (by omega)
  have hn4 : (insert (Get (insert (insert (insert (New maxBytes onEvicted env) kA vA) kB vB)
      kC vC) kA).2 kD vD).nbytes
      = entrySize (⟨kA, vA⟩ : entry V) + entrySize (⟨kB, vB⟩ : entry V)
        + entrySize (⟨kC, vC⟩ : entry V) + entrySize (⟨kD, vD⟩ : entry V) := by
    rw [nbytes_insert_absent ha3, nbytes_Get, hn3]
    exact wrapInt64_of_range (by omega) (by omega)
  -- the three adds evict nothing
  have hm0 : (New maxBytes onEvicted env : Cache V σ).maxBytes = maxBytes := rfl
  have hadd1 : Add (New maxBytes onEvicted env) kA vA
      = some (insert (New maxBytes onEvicted env) kA vA) :=
    Add_of_not_overBudget (overBudget_false_of_le (by
      rw [hn1, maxBytes_insert, hm0]; omega))
  have hadd2 : Add (insert (New maxBytes onEvicted env) kA vA) kB vB
      = some (insert (insert (New maxBytes onEvicted env) kA vA) kB vB) :=
    Add_of_not_overBudget (overBudget_false_of_le (by
      rw [hn2, maxBytes_insert, maxBytes_insert, hm0]; omega))
  have hadd3 : Add (insert (insert (New maxBytes onEvicted env) kA vA) kB vB) kC vC
      = some (insert (insert (insert (New maxBytes onEvicted env) kA vA) kB vB) kC vC) :=
    Add_of_not_overBudget (overBudget_false_of_le (by
      rw [hn3, maxBytes_insert, maxBytes_insert, maxBytes_insert, hm0]; omega))
  have hrun4 : run (New maxBytes onEvicted env)
      [.add kA vA, .add kB vB, .add kC vC, .get kA]
      = some (Get (insert (insert (insert (New maxBytes onEvicted env) kA vA) kB vB)
          kC vC) kA).2 := by
    simp [run, step, hadd1, hadd2, hadd3]
  -- the add of D is over budget after the insertion and evicts the last element
  have hm4 : (insert (Get (insert (insert (insert (New maxBytes onEvicted env) kA vA) kB vB)
      kC vC) kA).2 kD vD).maxBytes = maxBytes := by
    rw [maxBytes_insert, maxBytes_Get, maxBytes_insert, maxBytes_insert, maxBytes_insert, hm0]
  have hob4 : overBudget (insert (Get (insert (insert (insert (New maxBytes onEvicted env)
      kA vA) kB vB) kC vC) kA).2 kD vD) = true :=
    overBudget_true_of_lt (by rw [hm4]; exact hmax) (by rw [hm4, hn4]; exact hover)
  obtain ⟨ele, hb, helek⟩ := @back_of_keys V _ _ [kD, kA, kC] kB hk4
  have hw4 : Written [Call.add kA vA, .add kB vB, .add kC vC, .get kA, .add kD vD]
      (insert (Get (insert (insert (insert (New maxBytes onEvicted env) kA vA) kB vB)
        kC vC) kA).2 kD vD) := by
    have hw3 := @Written_run V σ _ [Call.add kA vA, .add kB vB, .add kC vC, .get kA] [] _ _ h0
      (fun x hx => by simp [New] at hx) hrun4
    exact Written_insert hIg hw3 kD vD
  have helev : ele.Value.value = vB := by
    have := hw4 ele (mem_of_Back hb)
    rw [helek] at this
    simp [lastWritten, hAB, hBA, hCB, hBC, hDB, hBD] at this
    exact this.symm
  have hsize : entrySize ele.Value = entrySize (⟨kB, vB⟩ : entry V) := by
    have hk' : ele.Value.key = kB := helek
    simp only [entrySize, hk', helev]
  have hn5 : (RemoveOldest (insert (Get (insert (insert (insert
      (New maxBytes onEvicted env) kA vA) kB vB) kC vC) kA).2 kD vD)).nbytes
      = entrySize (⟨kA, vA⟩ : entry V) + entrySize (⟨kC, vC⟩ : entry V)
        + entrySize (⟨kD, vD⟩ : entry V) := by
    rw [nbytes_RemoveOldest hI4 hb, hn4, hsize]
    unfold wrapInt64
    omega
  have hob5 : overBudget (RemoveOldest (insert (Get (insert (insert (insert
      (New maxBytes onEvicted env) kA vA) kB vB) kC vC) kA).2 kD vD)) = false :=
    overBudget_false_of_le (by rw [hn5, maxBytes_RemoveOldest, hm4]; exact hone)
  have hlen4 : (insert (Get (insert (insert (insert (New maxBytes onEvicted env) kA vA) kB vB)
      kC vC) kA).2 kD vD).ll.length = 4 := by
    have := congrArg List.length hk4
    simpa using this
  have hadd4 : Add (Get (insert (insert (insert (New maxBytes onEvicted env) kA vA) kB vB)
      kC vC) kA).2 kD vD
      = some (RemoveOldest (insert (Get (insert (insert (insert
          (New maxBytes onEvicted env) kA vA) kB vB) kC vC) kA).2 kD vD)) := by
    unfold Add
    simp only [hlen4, evictLoop, hob4, if_true]
    exact evictLoop_of_not_overBudget hob5 3
  have hrun5 : run (New maxBytes onEvicted env)
      [.add kA vA, .add kB vB, .add kC vC, .get kA, .add kD vD]
      = some (RemoveOldest (insert (Get (insert (insert (insert
          (New maxBytes onEvicted env) kA vA) kB vB) kC vC) kA).2 kD vD)) := by
    simp [run, step, hadd1, hadd2, hadd3, hadd4]
  have hlen3 : (Get (insert (insert (insert (New maxBytes onEvicted env) kA vA) kB vB)
      kC vC) kA).2.ll.length = 3 := by
    have := congrArg List.length hkg
    simpa using this
  have hlen5 : (RemoveOldest (insert (Get (insert (insert (insert
      (New maxBytes onEvicted env) kA vA) kB vB) kC vC) kA).2 kD vD)).ll.length = 3 := by
    rw [ll_RemoveOldest hI4, List.length_dropLast, hlen4]
  obtain ⟨hkeys, habs, hpres⟩ := recency_scenario maxBytes onEvicted env kA kB kC kD vA vB vC vD
    _ _ hne hrun4 hlen3 hadd4 hlen5
  refine ⟨_, _, hrun4, hkg, hadd4, rfl, hrun5, hkeys, habs, hpres, ?_⟩
  have hOn : (insert (Get (insert (insert (insert (New maxBytes onEvicted env) kA vA) kB vB)
      kC vC) kA).2 kD vD).OnEvicted = onEvicted := by
    rw [OnEvicted_insert, OnEvicted_Get, OnEvicted_insert, OnEvicted_insert, OnEvicted_insert]
    rfl
  have hEnv : (insert (Get (insert (insert (insert (New maxBytes onEvicted env) kA vA) kB vB)
      kC vC) kA).2 kD vD).env = env := by
    rw [env_insert, env_Get, env_insert, env_insert, env_insert]
    rfl
  rw [RemoveOldest_of_back hI4 hb]
  unfold callOnEvicted
  simp only [hOn, hEnv, helev]
  have hk' : ele.key = kB := helek
  rw [hk']

end GeeCache.lru

/-! # The claims -/

namespace GeeCache.lru

variable {V : Type} {σ : Type} [Value V]

/-- C1, as stated, fails when the byte counter wraps around: with budget 10, two
values of non-negative `Len` near `2 ^ 63` are added (the counter wraps to 0 and
nothing is evicted), and after `RemoveOldest` the counter is `2 ^ 63 - 1 > 10`. -/
theorem lru_budget_counterexample :
    NonNegLens [Call.add "aa" (⟨0, 2 ^ 63 - 1⟩ : Sized), .add "b" ⟨1, 2 ^ 63 - 2⟩, .removeOldest] ∧
    (run (New 10 none ()) [Call.add "aa" (⟨0, 2 ^ 63 - 1⟩ : Sized), .add "b" ⟨1, 2 ^ 63 - 2⟩,
        .removeOldest]).map (fun c => (c.maxBytes, c.nbytes)) = some (10, 2 ^ 63 - 1) := by
  decide

/-- C1 (amended): for a store created by `New` with `maxBytes > 0` and a sequence of
`Add`, `Get` and `RemoveOldest` calls, every call returns and after each of them
`nbytes ≤ maxBytes`, provided the sequence has no direct `RemoveOldest` call, or the
values have non-negative `Len` and the added entries have sizes summing to less than
`2 ^ 63`. -/
theorem lru_budget_invariant (maxBytes : Int) (onEvicted : Option (String → V → σ → σ))
    (env : σ) (calls : List (Call V)) (hmax : 0 < maxBytes)
    (hcalls : AddGetOnly calls ∨ (NonNegLens calls ∧ addedBytes calls < 2 ^ 63)) (n : Nat) :
    ∃ c, run (New maxBytes onEvicted env) (calls.take n) = some c ∧ c.nbytes ≤ maxBytes := by
  rcases hcalls with hag | ⟨hlen, hfit⟩
  · obtain ⟨c, hc, hle⟩ := budget_run_addGet calls (New maxBytes onEvicted env)
      (Inv_New maxBytes onEvicted env) hmax (le_of_lt hmax) hag n
    exact ⟨c, hc, by rw [maxBytes_run hc] at hle; exact hle⟩
  · obtain ⟨c, hc, hle⟩ := budget_run calls (New maxBytes onEvicted env) 0
      (Inv_New maxBytes onEvicted env) hmax (le_of_lt hmax)
      ⟨by simp [New], by simp [New, sumSizes]⟩ hlen (by omega) n
    exact ⟨c, hc, by rw [maxBytes_run hc] at hle; exact hle⟩

/-- C1 (amended) at budget 10 with three adds, a lookup and an eviction. -/
theorem lru_budget_invariant_witness :
    ∃ c, run (New 10 none ())
        ([Call.add "a" (⟨1, 3⟩ : Sized), .add "b" ⟨2, 3⟩, .add "c" ⟨3, 3⟩, .get "b",
          .removeOldest].take 5) = some c ∧ c.nbytes ≤ 10 :=
  lru_budget_invariant 10 none () _ (by decide) (Or.inr ⟨by decide, by decide⟩) 5

/-- C6: in a store reached from `New` with `maxBytes > 0`, for a key and a value with
`len(k) + v.Len() ≤ maxBytes`, `Add(k, v)` returns, the key is then in the index and
in the list, and `Get(k)` returns `(v, true)`. -/
theorem lru_add_then_get (maxBytes : Int) (onEvicted : Option (String → V → σ → σ)) (env : σ)
    (calls : List (Call V)) (c : Cache V σ) (k : String) (v : V) (hmax : 0 < maxBytes)
    (hreach : run (New maxBytes onEvicted env) calls = some c)
    (hfit : (k.utf8ByteSize : Int) + Value.Len v ≤ maxBytes) :
    ∃ c', Add c k v = some c' ∧ (∃ p, mapGet c'.cache k = some p) ∧
      k ∈ c'.ll.map Element.key ∧ (Get c' k).1 = some v := by
  have h := Inv_run (Inv_New maxBytes onEvicted env) hreach
  have hm : c.maxBytes = maxBytes := maxBytes_run hreach
  obtain ⟨c', hc'⟩ := Add_terminates h (by omega) k v
  have h' := Inv_Add h hc'
  obtain ⟨p, rest, hll⟩ := insert_front h k v
  obtain ⟨rest', hll'⟩ := evictLoop_keeps_front (Inv_insert h k v) hll
    (by rw [maxBytes_insert, hm]; exact fun _ => wrap_entrySize_le hfit) hc'
  have hmem : (⟨p, ⟨k, v⟩⟩ : Element V) ∈ c'.ll := by rw [hll']; exact List.mem_cons_self _ _
  refine ⟨c', hc', ⟨p, h'.index_of_mem hmem⟩, List.mem_map_of_mem Element.key hmem, ?_⟩
  have := Get_of_mem h' hmem
  simp only [Element.key] at this
  rw [this]

/-- C6 at budget 10: after two adds, adding `c` with a value of 3 bytes evicts `a` and
keeps `c`. -/
theorem lru_add_then_get_witness :
    ∃ c', Add (insert (insert (New 10 none ()) "a" (Sized.mk 1 3)) "b" (Sized.mk 2 3)) "c"
        (Sized.mk 3 3) = some c' ∧ (∃ p, mapGet c'.cache "c" = some p) ∧
      "c" ∈ c'.ll.map Element.key ∧ (Get c' "c").1 = some (Sized.mk 3 3) :=
  lru_add_then_get 10 none () [.add "a" (Sized.mk 1 3), .add "b" (Sized.mk 2 3)] _ "c"
    (Sized.mk 3 3) (by decide) (by rfl) (by decide)

/-- C9, as stated, fails in two ways.  With budget 10 and `a`, `b` held (8 bytes), `Add`
of the new key `c` with 3 bytes of value leaves `nbytes` at 8 (the eviction of `a`
takes 4 bytes back), not 4 higher.  With no budget, `Add` of `aa` with a value of
`Len` `2 ^ 63 - 1` leaves `nbytes` at `-2 ^ 63 + 1`, while the sizes sum to `2 ^ 63 + 1`. -/
theorem lru_nbytes_counterexample :
    ((run (New 10 none ()) [Call.add "a" (Sized.mk 1 3), .add "b" (Sized.mk 2 3)]).bind
        (fun c => (Add c "c" (Sized.mk 3 3)).map
          (fun c' => (mapGet c.cache "c", c.nbytes, c'.nbytes)))) = some (none, 8, 8) ∧
    (run (New 0 none ()) [Call.add "aa" (Sized.mk 0 (2 ^ 63 - 1))]).map
        (fun c => (c.nbytes, sumSizes c.ll)) = some (-2 ^ 63 + 1, 2 ^ 63 + 1) := by
  decide

/-- C9 (amended): in a store reached from `New`, `nbytes` is the `int64` (two's
complement) of the sum of `len(key) + value.Len()` over the entries held, hence the sum
itself when that is in the `int64` range; `Get` leaves it unchanged, `RemoveOldest`
lowers it by the size of the removed entry, the insertion step of `Add` raises it by
the full entry size for a new key and changes it by `newValue.Len() - oldValue.Len()`
for a key already held, all in `int64` arithmetic; the same holds of the store during
an `Add`, after the insertion and any number `j` of rounds of its eviction loop. -/
theorem lru_nbytes_accounting (maxBytes : Int) (onEvicted : Option (String → V → σ → σ))
    (env : σ) (calls : List (Call V)) (c : Cache V σ)
    (hreach : run (New maxBytes onEvicted env) calls = some c) :
    c.nbytes = wrapInt64 (sumSizes c.ll) ∧
    (-2 ^ 63 ≤ sumSizes c.ll ∧ sumSizes c.ll < 2 ^ 63 → c.nbytes = sumSizes c.ll) ∧
    (∀ k, (Get c k).2.nbytes = c.nbytes) ∧
    (∀ ele, Back c.ll = some ele →
      (RemoveOldest c).nbytes = wrapInt64 (c.nbytes - entrySize ele.Value)) ∧
    (∀ k v, k ∉ c.ll.map Element.key →
      (insert c k v).nbytes = wrapInt64 (c.nbytes + entrySize (⟨k, v⟩ : entry V))) ∧
    (∀ e ∈ c.ll, ∀ v,
      (insert c e.key v).nbytes = wrapInt64 (c.nbytes + (Value.Len v - Value.Len e.Value.value))) ∧
    (∀ k v j, (RemoveOldest^[j] (insert c k v)).nbytes
        = wrapInt64 (sumSizes (RemoveOldest^[j] (insert c k v)).ll) ∧
      ∀ ele, Back (RemoveOldest^[j] (insert c k v)).ll = some ele →
        (RemoveOldest^[j + 1] (insert c k v)).nbytes
          = wrapInt64 ((RemoveOldest^[j] (insert c k v)).nbytes - entrySize ele.Value)) := by
  have h := Inv_run (Inv_New maxBytes onEvicted env) hreach
  refine ⟨h.bytes, ?_, nbytes_Get c, fun ele hb => nbytes_RemoveOldest h hb, ?_, ?_, ?_⟩
  · rintro ⟨h1, h2⟩
    rw [h.bytes, wrapInt64_of_range h1 h2]
  · intro k v hk
    have : mapGet c.cache k = none := by
      cases hg : mapGet c.cache k with
      | none => rfl
      | some p =>
        obtain ⟨e, he, _, rfl⟩ := (h.index _ _).1 hg
        exact absurd (List.mem_map_of_mem Element.key he) hk
    rw [insert_of_absent this]
  · intro e he v
    rw [insert_of_mem h he]
    show wrapInt64 _ = wrapInt64 _
    congr 1
    omega
  · intro k v j
    have hj := Inv_iterate (Inv_insert h k v) j
    refine ⟨hj.bytes, fun ele hb => ?_⟩
    rw [Function.iterate_succ_apply']
    exact nbytes_RemoveOldest hj hb

/-- C9 (amended) at the store holding `a` and `b` under budget 10. -/
theorem lru_nbytes_accounting_witness :
    (insert (insert (New 10 none ()) "a" (Sized.mk 1 3)) "b" (Sized.mk 2 3)).nbytes
      = wrapInt64 (sumSizes (insert (insert (New 10 none ()) "a" (Sized.mk 1 3)) "b"
          (Sized.mk 2 3)).ll) :=
  (lru_nbytes_accounting 10 none () [.add "a" (Sized.mk 1 3), .add "b" (Sized.mk 2 3)] _
    (by rfl)).1

/-- C8: in a store reached from `New` with a callback configured, every eviction, by a
`RemoveOldest` call or by a round of the loop of `Add`, applies the callback once, to
the evicted key and the value most recently written for that key by `Add`, and takes
the key out of the index; `Get`, the insertion step of `Add` (also when it replaces
the value of a key held) and `RemoveOldest` on an empty store do not apply it; and
`Add` is the insertion step followed by such rounds. -/
theorem lru_eviction_callback (maxBytes : Int) (f : String → V → σ → σ) (env : σ)
    (calls : List (Call V)) (c : Cache V σ)
    (hreach : run (New maxBytes (some f) env) calls = some c) :
    (∀ ele, Back c.ll = some ele →
      (RemoveOldest c).env = f ele.key ele.Value.value c.env ∧
      lastWritten calls ele.key = some ele.Value.value ∧
      mapGet (RemoveOldest c).cache ele.key = none) ∧
    (c.ll = [] → (RemoveOldest c).env = c.env) ∧
    (∀ k, (Get c k).2.env = c.env) ∧
    (∀ k v, (insert c k v).env = c.env) ∧
    (∀ k v j ele, Back (RemoveOldest^[j] (insert c k v)).ll = some ele →
      (RemoveOldest^[j + 1] (insert c k v)).env
        = f ele.key ele.Value.value (RemoveOldest^[j] (insert c k v)).env ∧
      lastWritten (calls ++ [Call.add k v]) ele.key = some ele.Value.value ∧
      mapGet (RemoveOldest^[j + 1] (insert c k v)).cache ele.key = none) ∧
    (∀ k v c', Add c k v = some c' →
      ∃ j, j ≤ (insert c k v).ll.length ∧ c' = RemoveOldest^[j] (insert c k v)) := by
  have h := Inv_run (Inv_New maxBytes (some f) env) hreach
  have hf : c.OnEvicted = some f := OnEvicted_run hreach
  have hw : Written calls c := by
    have := @Written_run V σ _ calls [] _ _ (Inv_New maxBytes (some f) env)
      (fun e he => by simp [New] at he) hreach
    simpa using this
  refine ⟨fun ele hb => ⟨env_RemoveOldest h hf hb, hw ele (mem_of_Back hb),
      index_RemoveOldest h hb⟩, fun hnil => by rw [RemoveOldest_of_empty hnil],
    env_Get c, env_insert c, ?_, ?_⟩
  · intro k v j ele hb
    have hj := Inv_iterate (Inv_insert h k v) j
    have hfj : (RemoveOldest^[j] (insert c k v)).OnEvicted = some f := by
      rw [OnEvicted_iterate, OnEvicted_insert, hf]
    have hwj := Written_iterate (Inv_insert h k v) (Written_insert h hw k v) j
    rw [Function.iterate_succ_apply']
    exact ⟨env_RemoveOldest hj hfj hb, hwj ele (mem_of_Back hb), index_RemoveOldest hj hb⟩
  · intro k v c' hc'
    obtain ⟨j, hj, hc, _⟩ := Add_eq_iterate hc'
    exact ⟨j, hj, hc⟩

/-- C8 with a callback that logs its arguments: after `a`, `b` and a new value for `a`
are added under budget 10, `RemoveOldest` logs `b` with its value. -/
theorem lru_eviction_callback_witness :
    (RemoveOldest (insert (insert (insert (New 10
        (some (fun k v (w : List (String × Sized)) => w ++ [(k, v)])) [])
        "a" (Sized.mk 1 3)) "b" (Sized.mk 2 3)) "a" (Sized.mk 3 4))).env
      = [("b", Sized.mk 2 3)] :=
  ((lru_eviction_callback 10 (fun k v (w : List (String × Sized)) => w ++ [(k, v)]) []
    [.add "a" (Sized.mk 1 3), .add "b" (Sized.mk 2 3), .add "a" (Sized.mk 3 4)] _
    (by rfl)).1 ⟨1, "b", Sized.mk 2 3⟩ (by rfl)).1

/-- C2: in a store reached from `New` by `Add`, `Get` and `RemoveOldest` calls, with
`touchLog` the keys of the `Add` calls and of the `Get` calls that found their key
(most recent first): `RemoveOldest` removes the last element of the list and its key
from the index, and every other key held has been used more recently than that key;
an `Add(k, v)` that returns is the insertion step followed by `j` rounds of
`RemoveOldest`, each over budget and each removing in the same way the key used least
recently, and ends within budget; `Add` returns when the budget is not negative.  And
when `A`, `B`, `C` are added, `A` is looked up and all three are held, an `Add` of `D`
that evicts exactly one entry leaves `D`, `A`, `C` (in this order of recency) and not
`B`; so it is when the values have non-negative `Len`, `A`, `B`, `C` fit the budget
together, `D` does not fit with them and `A`, `C`, `D` fit together (sizes below
`2 ^ 63` in all): the five calls return, the `Add` of `D` is the insertion and one
`RemoveOldest`, and the callback is applied once, to `B` and its value. -/
theorem lru_evicts_least_recently_used (maxBytes : Int)
    (onEvicted : Option (String → V → σ → σ)) (env : σ) (calls : List (Call V))
    (c : Cache V σ) (hreach : run (New maxBytes onEvicted env) calls = some c) :
    (∀ ele, Back c.ll = some ele →
      (RemoveOldest c).ll = c.ll.dropLast ∧ mapGet (RemoveOldest c).cache ele.key = none ∧
      (∀ e ∈ c.ll, e.key ∈ touchLog (New maxBytes onEvicted env) calls) ∧
      ∀ e ∈ c.ll, e ≠ ele →
        (touchLog (New maxBytes onEvicted env) calls).indexOf e.key
          < (touchLog (New maxBytes onEvicted env) calls).indexOf ele.key) ∧
    (∀ k v c', Add c k v = some c' →
      ∃ j, j ≤ (insert c k v).ll.length ∧ c' = RemoveOldest^[j] (insert c k v) ∧
        overBudget c' = false ∧
        ∀ i, i < j → overBudget (RemoveOldest^[i] (insert c k v)) = true ∧
          ∃ ele, Back (RemoveOldest^[i] (insert c k v)).ll = some ele ∧
            (RemoveOldest^[i + 1] (insert c k v)).ll
              = (RemoveOldest^[i] (insert c k v)).ll.dropLast ∧
            mapGet (RemoveOldest^[i + 1] (insert c k v)).cache ele.key = none ∧
            (∀ e ∈ (RemoveOldest^[i] (insert c k v)).ll,
              e.key ∈ k :: touchLog (New maxBytes onEvicted env) calls) ∧
            ∀ e ∈ (RemoveOldest^[i] (insert c k v)).ll, e ≠ ele →
              (k :: touchLog (New maxBytes onEvicted env) calls).indexOf e.key
                < (k :: touchLog (New maxBytes onEvicted env) calls).indexOf ele.key) ∧
    (0 ≤ maxBytes → ∀ k v, ∃ c', Add c k v = some c') ∧
    (∀ (kA kB kC kD : String) (vA vB vC vD : V) (c3 c4 : Cache V σ),
      [kA, kB, kC, kD].Nodup →
      run (New maxBytes onEvicted env) [.add kA vA, .add kB vB, .add kC vC, .get kA] = some c3 →
      c3.ll.length = 3 → Add c3 kD vD = some c4 → c4.ll.length = 3 →
      c4.ll.map Element.key = [kD, kA, kC] ∧ mapGet c4.cache kB = none ∧
        ∀ k ∈ [kA, kC, kD], ∃ p, mapGet c4.cache k = some p) ∧
    (∀ (kA kB kC kD : String) (vA vB vC vD : V),
      [kA, kB, kC, kD].Nodup → 0 < maxBytes →
      0 ≤ Value.Len vA → 0 ≤ Value.Len vB → 0 ≤ Value.Len vC → 0 ≤ Value.Len vD →
      entrySize (⟨kA, vA⟩ : entry V) + entrySize (⟨kB, vB⟩ : entry V)
        + entrySize (⟨kC, vC⟩ : entry V) ≤ maxBytes →
      maxBytes < entrySize (⟨kA, vA⟩ : entry V) + entrySize (⟨kB, vB⟩ : entry V)
        + entrySize (⟨kC, vC⟩ : entry V) + entrySize (⟨kD, vD⟩ : entry V) →
      entrySize (⟨kA, vA⟩ : entry V) + entrySize (⟨kC, vC⟩ : entry V)
        + entrySize (⟨kD, vD⟩ : entry V) ≤ maxBytes →
      entrySize (⟨kA, vA⟩ : entry V) + entrySize (⟨kB, vB⟩ : entry V)
        + entrySize (⟨kC, vC⟩ : entry V) + entrySize (⟨kD, vD⟩ : entry V) < 2 ^ 63 →
      ∃ c3 c4 : Cache V σ,
        run (New maxBytes onEvicted env) [.add kA vA, .add kB vB, .add kC vC, .get kA]
          = some c3 ∧
        c3.ll.map Element.key = [kA, kC, kB] ∧
        Add c3 kD vD = some c4 ∧ c4 = RemoveOldest (insert c3 kD vD) ∧
        run (New maxBytes onEvicted env)
          [.add kA vA, .add kB vB, .add kC vC, .get kA, .add kD vD] = some c4 ∧
        c4.ll.map Element.key = [kD, kA, kC] ∧ mapGet c4.cache kB = none ∧
        (∀ k ∈ [kA, kC, kD], ∃ p, mapGet c4.cache k = some p) ∧
        c4.env = callOnEvicted onEvicted kB vB env) := by
  have h0 := Inv_New (V := V) maxBytes onEvicted env
  have h := Inv_run h0 hreach
  have hm : c.maxBytes = maxBytes := maxBytes_run hreach
  have hs := recency_run (t := []) h0 (by simp [New, recent]) hreach
  rw [List.append_nil] at hs
  refine ⟨fun ele hb => eviction_removes_oldest h hs hb, ?_, ?_, ?_, ?_⟩
  · intro k v c' hadd
    obtain ⟨j, hj, hc', hover⟩ := Add_eq_iterate hadd
    refine ⟨j, hj, hc', not_overBudget_evictLoop hadd, ?_⟩
    intro i hi
    have hIi := Inv_iterate (Inv_insert h k v) i
    have hsi : ((RemoveOldest^[i] (insert c k v)).ll.map Element.key).Sublist
        (recent (k :: touchLog (New maxBytes onEvicted env) calls)) := by
      rw [ll_iterate (Inv_insert h k v)]
      refine ((iterate_dropLast_sublist _ i).map Element.key).trans ?_
      rw [keys_insert h]
      exact sublist_recent_touch hs k
    have hne : (RemoveOldest^[i] (insert c k v)).ll ≠ [] := by
      intro hnil
      have hlen := length_iterate_dropLast (insert c k v).ll i
      rw [← ll_iterate (Inv_insert h k v), hnil] at hlen
      simp only [List.length_nil] at hlen
      omega
    obtain ⟨ele, hb⟩ : ∃ ele, Back (RemoveOldest^[i] (insert c k v)).ll = some ele := by
      unfold Back
      cases hg : (RemoveOldest^[i] (insert c k v)).ll.getLast? with
      | none => exact absurd (List.getLast?_eq_none_iff.1 hg) hne
      | some ele => exact ⟨ele, rfl⟩
    refine ⟨hover i hi, ele, hb, ?_⟩
    rw [Function.iterate_succ_apply']
    exact eviction_removes_oldest hIi hsi hb
  · intro hmax k v
    exact Add_terminates h (by rw [hm]; exact hmax) k v
  · intro kA kB kC kD vA vB vC vD c3 c4 hne hr hheld hadd hone
    exact recency_scenario maxBytes onEvicted env kA kB kC kD vA vB vC vD c3 c4 hne hr hheld
      hadd hone
  · intro kA kB kC kD vA vB vC vD hne hmax hlA hlB hlC hlD hheld hover hone hwrap
    exact recency_scenario_sizes maxBytes onEvicted env kA kB kC kD vA vB vC vD hne hmax
      hlA hlB hlC hlD hheld hover hone hwrap

/-- C2 at budget 10: after `a` and `b` are added and `a` is looked up, `RemoveOldest`
removes `b`, the last element of the list; and at budget 12 with values of 3 bytes
and a callback that logs its arguments, the calls `Add A`, `Add B`, `Add C`, `Get A`,
`Add D` return, with `D`, `A`, `C` held, `B` gone and `B` logged once. -/
theorem lru_evicts_least_recently_used_witness :
    (RemoveOldest (Get (insert (insert (New 10 none ()) "a" (Sized.mk 1 3)) "b"
        (Sized.mk 2 3)) "a").2).ll
      = (Get (insert (insert (New 10 none ()) "a" (Sized.mk 1 3)) "b"
        (Sized.mk 2 3)) "a").2.ll.dropLast ∧
    ∃ c3 c4 : Cache Sized (List (String × Sized)),
      run (New 12 (some (fun k v w => w ++ [(k, v)])) [])
        [.add "A" (Sized.mk 1 3), .add "B" (Sized.mk 2 3), .add "C" (Sized.mk 3 3), .get "A"]
        = some c3 ∧
      c3.ll.map Element.key = ["A", "C", "B"] ∧
      Add c3 "D" (Sized.mk 4 3) = some c4 ∧ c4 = RemoveOldest (insert c3 "D" (Sized.mk 4 3)) ∧
      run (New 12 (some (fun k v w => w ++ [(k, v)])) [])
        [.add "A" (Sized.mk 1 3), .add "B" (Sized.mk 2 3), .add "C" (Sized.mk 3 3), .get "A",
          .add "D" (Sized.mk 4 3)] = some c4 ∧
      c4.ll.map Element.key = ["D", "A", "C"] ∧ mapGet c4.cache "B" = none ∧
      (∀ k ∈ ["A", "C", "D"], ∃ p, mapGet c4.cache k = some p) ∧
      c4.env = [("B", Sized.mk 2 3)] :=
  ⟨((lru_evicts_least_recently_used 10 none ()
      [.add "a" (Sized.mk 1 3), .add "b" (Sized.mk 2 3), .get "a"] _ (by rfl)).1
      ⟨1, "b", Sized.mk 2 3⟩ (by rfl)).1,
   (lru_evicts_least_recently_used 12 (some (fun k v w => w ++ [(k, v)])) [] []
      (New 12 (some (fun k v w => w ++ [(k, v)])) []) (by rfl)).2.2.2.2
      "A" "B" "C" "D" (Sized.mk 1 3) (Sized.mk 2 3) (Sized.mk 3 3) (Sized.mk 4 3)
      (by decide) (by decide) (by decide) (by decide) (by decide) (by decide) (by decide)
      (by decide) (by decide) (by decide)⟩

end GeeCache.lru

namespace GeeCache.consistenthash

/-- C3: on a ring built by `New` and any sequence of `Add` calls that holds at least one
point, `Get(key)` returns the node mapped to a point `p` of the ring that is the
smallest point at or above `hash(key)`, or, when no point is at or above
`hash(key)`, the smallest point of the whole ring. -/
theorem ring_get_clockwise (replicas : Int) (fn : Option Hash) (calls : List (List String))
    (key : String) (hne : ((New replicas fn).addAll calls).keys ≠ []) :
    ∃ p ∈ ((New replicas fn).addAll calls).keys, ∃ node,
      mapGet ((New replicas fn).addAll calls).hashMap p = some node ∧
      ((New replicas fn).addAll calls).Get key = node ∧
      ((((New replicas fn).addAll calls).hashOf key ≤ p ∧
          ∀ q ∈ ((New replicas fn).addAll calls).keys,
            ((New replicas fn).addAll calls).hashOf key ≤ q → p ≤ q) ∨
        ((∀ q ∈ ((New replicas fn).addAll calls).keys,
            q < ((New replicas fn).addAll calls).hashOf key) ∧
          ∀ q ∈ ((New replicas fn).addAll calls).keys, p ≤ q)) := by
  obtain ⟨hs, hm⟩ := ring_inv calls (New replicas fn) []
    (by simp [New, List.Sorted]) (by intro p hp; simp [New] at hp)
  obtain ⟨p, hp, hget, hmin⟩ := Get_spec hs hne key
  obtain ⟨node, _, hnode⟩ := hm p hp
  exact ⟨p, hp, node, hnode, by rw [hget, hnode]; rfl, hmin⟩

/-- C3 on the ring of the nodes 6, 4, 2 with three replicas each and the decimal hash. -/
theorem ring_get_clockwise_witness :
    ∃ p ∈ ((New 3 (some decimalHash)).addAll [["6", "4", "2"]]).keys, ∃ node,
      mapGet ((New 3 (some decimalHash)).addAll [["6", "4", "2"]]).hashMap p = some node ∧
      ((New 3 (some decimalHash)).addAll [["6", "4", "2"]]).Get "27" = node ∧
      ((((New 3 (some decimalHash)).addAll [["6", "4", "2"]]).hashOf "27" ≤ p ∧
          ∀ q ∈ ((New 3 (some decimalHash)).addAll [["6", "4", "2"]]).keys,
            ((New 3 (some decimalHash)).addAll [["6", "4", "2"]]).hashOf "27" ≤ q → p ≤ q) ∨
        ((∀ q ∈ ((New 3 (some decimalHash)).addAll [["6", "4", "2"]]).keys,
            q < ((New 3 (some decimalHash)).addAll [["6", "4", "2"]]).hashOf "27") ∧
          ∀ q ∈ ((New 3 (some decimalHash)).addAll [["6", "4", "2"]]).keys, p ≤ q)) :=
  ring_get_clockwise 3 (some decimalHash) [["6", "4", "2"]] "27" (by decide)

/-- C5: on a ring built by `New` and any sequence of `Add` calls, `Get(key)` returns the
empty string when the ring holds no point, and one of the node identifiers passed
to one of the `Add` calls when it holds at least one. -/
theorem ring_get_coverage (replicas : Int) (fn : Option Hash) (calls : List (List String))
    (key : String) :
    (((New replicas fn).addAll calls).keys = [] →
      ((New replicas fn).addAll calls).Get key = "") ∧
    (((New replicas fn).addAll calls).keys ≠ [] →
      ∃ nodes ∈ calls, ((New replicas fn).addAll calls).Get key ∈ nodes) := by
  constructor
  · intro h
    simp [Map.Get, h]
  · intro hne
    obtain ⟨hs, hm⟩ := ring_inv calls (New replicas fn) []
      (by simp [New, List.Sorted]) (by intro p hp; simp [New] at hp)
    obtain ⟨p, hp, hget, _⟩ := Get_spec hs hne key
    obtain ⟨node, hmem, hnode⟩ := hm p hp
    simp only [List.nil_append, List.mem_flatten] at hmem
    obtain ⟨nodes, hnodes, hin⟩ := hmem
    exact ⟨nodes, hnodes, by rw [hget, hnode]; exact hin⟩

/-- C5 on the empty ring and on the ring of the nodes 6, 4, 2. -/
theorem ring_get_coverage_witness :
    ((New 3 (some decimalHash)).addAll []).Get "27" = "" ∧
    ∃ nodes ∈ [["6", "4", "2"]],
      ((New 3 (some decimalHash)).addAll [["6", "4", "2"]]).Get "27" ∈ nodes :=
  ⟨(ring_get_coverage 3 (some decimalHash) [] "27").1 (by decide),
   (ring_get_coverage 3 (some decimalHash) [["6", "4", "2"]] "27").2 (by decide)⟩

end GeeCache.consistenthash

namespace GeeCache

/-- C4: for a `Group` without peer picker, with an empty local cache and a backing
source that returns the bytes `b` for the non-empty key `k`, where the entry fits the
budget (`cacheBytes = 0` or `len(k) + len(b) ≤ cacheBytes`): the first `Get(k)` calls
the backing source once (and makes no other outside call) and returns a `ByteView` of
`b`, and the `Get(k)` that follows returns the same `ByteView` with no outside call. -/
theorem group_cache_aside (g : Group) (k : String) (b : List UInt8) (hpeers : g.peers = none)
    (hempty : g.mainCache.Empty) (hk : k ≠ "") (hsrc : g.getter k = .ok b)
    (hfit : g.mainCache.cacheBytes = 0 ∨
      (k.utf8ByteSize : Int) + (b.length : Int) ≤ g.mainCache.cacheBytes) :
    ∃ g1, g.Get k = some (.ok (ByteView.mk b), g1) ∧
      g1.trace = g.trace ++ [Event.getterGet k] ∧
      ∃ g2, g1.Get k = some (.ok (ByteView.mk b), g2) ∧ g2.trace = g1.trace := by
  obtain ⟨l, _, hget, hfirst⟩ := Group.Get_cold g k b hpeers hempty hk hsrc hfit
  refine ⟨_, hfirst, rfl, _, Group.Get_hit _ k (ByteView.mk b) l hk rfl hget, rfl⟩

/-- C4 on the group `scores` and the key `Tom`. -/
theorem group_cache_aside_witness :
    ∃ g1, scores.Get "Tom" = some (.ok (ByteView.mk [54, 51, 48]), g1) ∧
      g1.trace = scores.trace ++ [Event.getterGet "Tom"] ∧
      ∃ g2, g1.Get "Tom" = some (.ok (ByteView.mk [54, 51, 48]), g2) ∧ g2.trace = g1.trace :=
  group_cache_aside scores "Tom" [54, 51, 48] rfl True.intro (by decide) rfl
    (Or.inr (by decide))

/-- C10: for every `Group`, with or without peers and whatever its cache holds,
`Get("")` returns the error `key is required` and leaves the `Group` as it was: no
call to the backing source, the peer picker or a peer is made and the local cache is
unchanged. -/
theorem group_get_empty_key (g : Group) :
    g.Get "" = some (.error "key is required", g) := by
  simp [Group.Get]

end GeeCache

namespace GeeCache.lru

variable {V : Type} {σ : Type} [Value V]

/-- C14: in a store reached from `New` by `Add`, `Get` and `RemoveOldest` calls, every key
of the index points to exactly one element of the list, which carries that key; the
key of every element of the list is in the index and points to that element; no key
occurs twice in the list nor in the index; and `Len()` is the number of keys of the
index. -/
theorem lru_index_list_correspondence (maxBytes : Int)
    (onEvicted : Option (String → V → σ → σ)) (env : σ) (calls : List (Call V))
    (c : Cache V σ) (hreach : run (New maxBytes onEvicted env) calls = some c) :
    (∀ k p, mapGet c.cache k = some p →
      ∃ e ∈ c.ll, e.ptr = p ∧ e.key = k ∧ ∀ e' ∈ c.ll, e'.ptr = p ∨ e'.key = k → e' = e) ∧
    (∀ e ∈ c.ll, mapGet c.cache e.key = some e.ptr) ∧
    (c.ll.map Element.key).Nodup ∧
    (c.cache.map Prod.fst).Nodup ∧
    Len c = ((c.cache.map Prod.fst).length : Int) := by
  have h := Inv_run (Inv_New maxBytes onEvicted env) hreach
  refine ⟨?_, fun e he => h.index_of_mem he, h.keys, h.indexKeys, ?_⟩
  · intro k p hk
    obtain ⟨e, he, hp, hkey⟩ := (h.index k p).1 hk
    refine ⟨e, he, hp, hkey, ?_⟩
    intro e' he' hor
    rcases hor with h1 | h1
    · exact ptr_inj h.ptrs he' he (by rw [h1, hp])
    · exact key_inj h.keys he' he (by rw [h1, hkey])
  · unfold Len
    rw [(index_keys_perm h).length_eq, List.length_map]

/-- C14 at the store holding `a` and `b` under budget 10. -/
theorem lru_index_list_correspondence_witness :
    Len (insert (insert (New 10 none ()) "a" (Sized.mk 1 3)) "b" (Sized.mk 2 3))
      = (((insert (insert (New 10 none ()) "a" (Sized.mk 1 3)) "b" (Sized.mk 2 3)).cache.map
          Prod.fst).length : Int) :=
  (lru_index_list_correspondence 10 none () [.add "a" (Sized.mk 1 3), .add "b" (Sized.mk 2 3)]
    _ (by rfl)).2.2.2.2

/-- C20: in a store reached from `New` with `maxBytes ≥ 0`, every `Add` returns: its loop
makes `j` calls of `RemoveOldest`, with `j` at most the number of entries held after
the insertion, each of them on a store that is over budget and not empty, and ends
within budget. -/
theorem lru_add_terminates (maxBytes : Int) (onEvicted : Option (String → V → σ → σ))
    (env : σ) (calls : List (Call V)) (c : Cache V σ) (k : String) (v : V)
    (hmax : 0 ≤ maxBytes) (hreach : run (New maxBytes onEvicted env) calls = some c) :
    ∃ c' j, Add c k v = some c' ∧ j ≤ (insert c k v).ll.length ∧
      c' = RemoveOldest^[j] (insert c k v) ∧
      (∀ i, i < j → overBudget (RemoveOldest^[i] (insert c k v)) = true ∧
        (RemoveOldest^[i] (insert c k v)).ll ≠ []) ∧
      overBudget c' = false := by
  have h := Inv_run (Inv_New maxBytes onEvicted env) hreach
  have hm : c.maxBytes = maxBytes := maxBytes_run hreach
  obtain ⟨c', hc'⟩ := Add_terminates h (by omega) k v
  obtain ⟨j, hj, hc, hover⟩ := Add_eq_iterate hc'
  refine ⟨c', j, hc', hj, hc, ?_, not_overBudget_evictLoop hc'⟩
  intro i hi
  refine ⟨hover i hi, ?_⟩
  exact nonempty_of_overBudget (Inv_iterate (Inv_insert h k v) i)
    (by rw [maxBytes_iterate, maxBytes_insert, hm]; exact hmax) (hover i hi)

/-- C20 at budget 10 with `a` and `b` held and `c` added. -/
theorem lru_add_terminates_witness :
    ∃ c' j, Add (insert (insert (New 10 none ()) "a" (Sized.mk 1 3)) "b" (Sized.mk 2 3)) "c"
        (Sized.mk 3 3) = some c' ∧
      j ≤ (insert (insert (insert (New 10 none ()) "a" (Sized.mk 1 3)) "b" (Sized.mk 2 3)) "c"
        (Sized.mk 3 3)).ll.length ∧
      c' = RemoveOldest^[j] (insert (insert (insert (New 10 none ()) "a" (Sized.mk 1 3)) "b"
        (Sized.mk 2 3)) "c" (Sized.mk 3 3)) ∧
      (∀ i, i < j →
        overBudget (RemoveOldest^[i] (insert (insert (insert (New 10 none ()) "a"
          (Sized.mk 1 3)) "b" (Sized.mk 2 3)) "c" (Sized.mk 3 3))) = true ∧
        (RemoveOldest^[i] (insert (insert (insert (New 10 none ()) "a" (Sized.mk 1 3)) "b"
          (Sized.mk 2 3)) "c" (Sized.mk 3 3))).ll ≠ []) ∧
      overBudget c' = false :=
  lru_add_terminates 10 none () [.add "a" (Sized.mk 1 3), .add "b" (Sized.mk 2 3)] _ "c"
    (Sized.mk 3 3) (by decide) (by rfl)

end GeeCache.lru

namespace GeeCache.lru

variable {V : Type} {σ : Type} [Value V]

/-- C13: for a store created by `New` with `maxBytes = 0` and a sequence of `Add` and `Get`
calls, every call returns and nothing is evicted: the environment of the callback is
as at creation, `Len()` is the number of distinct keys added, and for every key added
`Get` returns the value most recently added for it (and nothing for any other key). -/
theorem lru_unbounded_keeps_all (onEvicted : Option (String → V → σ → σ)) (env : σ)
    (calls : List (Call V)) (hag : AddGetOnly calls) :
    ∃ c, run (New 0 onEvicted env) calls = some c ∧ c.env = env ∧
      Len c = ((addedKeys calls).dedup.length : Int) ∧
      (∀ k ∈ addedKeys calls, ∃ v, lastWritten calls k = some v ∧ (Get c k).1 = some v) ∧
      (∀ k, k ∉ addedKeys calls → (Get c k).1 = none) := by
  obtain ⟨c, hc, hinv, henv, hw, hm⟩ := unbounded_run calls (New 0 onEvicted env) []
    (Inv_New 0 onEvicted env) rfl (fun e he => by simp [New] at he)
    (fun k => by simp [New, addedKeys]) hag
  rw [List.nil_append] at hw hm
  refine ⟨c, hc, henv, ?_, ?_, ?_⟩
  · unfold Len
    have hperm : (c.ll.map Element.key).Perm (addedKeys calls).dedup := by
      rw [List.perm_ext_iff_of_nodup hinv.keys (List.nodup_dedup _)]
      intro k
      rw [List.mem_dedup]
      exact hm k
    rw [← hperm.length_eq, List.length_map]
  · intro k hk
    obtain ⟨e, he, rfl⟩ := List.mem_map.1 ((hm k).2 hk)
    exact ⟨e.Value.value, hw e he, by rw [Get_of_mem hinv he]⟩
  · intro k hk
    rw [Get_eq_lastWritten hinv hw hm, lastWritten_none_of_not_added calls k hk]

/-- C13 with a callback that logs its arguments: `a`, `b` and a new value for `a` are
added and `a` is looked up. -/
theorem lru_unbounded_keeps_all_witness :
    ∃ c, run (New 0 (some (fun k v (w : List (String × Sized)) => w ++ [(k, v)])) [])
        [.add "a" (Sized.mk 1 3), .add "b" (Sized.mk 2 3), .add "a" (Sized.mk 3 4), .get "a"]
        = some c ∧ c.env = [] ∧
      Len c = ((addedKeys [Call.add "a" (Sized.mk 1 3), .add "b" (Sized.mk 2 3),
        .add "a" (Sized.mk 3 4), .get "a"]).dedup.length : Int) ∧
      (∀ k ∈ addedKeys [Call.add "a" (Sized.mk 1 3), .add "b" (Sized.mk 2 3),
          .add "a" (Sized.mk 3 4), .get "a"],
        ∃ v, lastWritten [Call.add "a" (Sized.mk 1 3), .add "b" (Sized.mk 2 3),
          .add "a" (Sized.mk 3 4), .get "a"] k = some v ∧ (Get c k).1 = some v) ∧
      (∀ k, k ∉ addedKeys [Call.add "a" (Sized.mk 1 3), .add "b" (Sized.mk 2 3),
          .add "a" (Sized.mk 3 4), .get "a"] → (Get c k).1 = none) :=
  lru_unbounded_keeps_all _ [] _ (by decide)

end GeeCache.lru

namespace GeeCache.lru

variable {V : Type} {σ : Type} [Value V]

/-- C19, as stated, fails in two ways.  With budget 10 and `x` held with a value of `Len`
`-100`, `Add` of `k` with 10 bytes of value (size 11) leaves `nbytes` at `-88` and
both entries held.  With budget 10 and an empty store, `Add` of `a` with a value of
`Len` `2 ^ 63 - 1` wraps `nbytes` to `-2 ^ 63` and the entry stays. -/
theorem lru_oversized_add_counterexample :
    (10 : Int) < ("k".utf8ByteSize : Int) + Value.Len (Sized.mk 1 10) ∧
    (run (New 10 none ()) [Call.add "x" (Sized.mk 0 (-100)), .add "k" (Sized.mk 1 10)]).map
        (fun c => (Len c, c.nbytes, (Get c "k").1)) = some (2, -88, some (Sized.mk 1 10)) ∧
    (10 : Int) < ("a".utf8ByteSize : Int) + Value.Len (Sized.mk 2 (2 ^ 63 - 1)) ∧
    (run (New 10 none ()) [Call.add "a" (Sized.mk 2 (2 ^ 63 - 1))]).map
        (fun c => (Len c, c.nbytes)) = some (1, -2 ^ 63) := by
  decide

/-- C19 (amended): in a store reached from `New` with `maxBytes > 0` by calls whose values
have non-negative `Len`, for a key and a value with `len(k) + v.Len() > maxBytes`,
where the sizes of all entries added (this one included) sum to less than `2 ^ 63`:
`Add(k, v)` returns and leaves the store empty, `Len() = 0`, `nbytes = 0`, the index
empty and `Get` finding no key. -/
theorem lru_oversized_add_empties (maxBytes : Int) (onEvicted : Option (String → V → σ → σ))
    (env : σ) (calls : List (Call V)) (c : Cache V σ) (k : String) (v : V)
    (hmax : 0 < maxBytes) (hreach : run (New maxBytes onEvicted env) calls = some c)
    (hlen : NonNegLens calls)
    (hfit : addedBytes calls + ((k.utf8ByteSize : Int) + Value.Len v) < 2 ^ 63)
    (hbig : maxBytes < (k.utf8ByteSize : Int) + Value.Len v) :
    ∃ c', Add c k v = some c' ∧ Len c' = 0 ∧ c'.nbytes = 0 ∧
      (∀ k', mapGet c'.cache k' = none) ∧ ∀ k', (Get c' k').1 = none := by
  have h0 := Inv_New (V := V) maxBytes onEvicted env
  have h := Inv_run h0 hreach
  have hm : c.maxBytes = maxBytes := maxBytes_run hreach
  have hF0 : Fits (New maxBytes onEvicted env : Cache V σ) 0 :=
    ⟨by simp [New], by simp [New, sumSizes]⟩
  have hF := Fits_run hF0 h0 hlen hreach
  rw [zero_add] at hF
  have hFi := Fits_insert_of_size hF h k (v := v) (by simp only [entrySize]; omega)
  obtain ⟨p, rest, hll⟩ := insert_front h k v
  obtain ⟨c', hc', hnil⟩ := @evictLoop_empties V σ _ (insert c k v).ll.length _ _ _ _
    (Inv_insert h k v) hFi (by simpa [entrySize] using hfit)
    (by rw [maxBytes_insert, hm]; exact hmax) hll
    (by rw [maxBytes_insert, hm]; simpa [entrySize] using hbig) (by rw [hll]; simp)
  have hI' := Inv_evictLoop (Inv_insert h k v) hc'
  have hidx : ∀ k', mapGet c'.cache k' = none := by
    intro k'
    rw [index_none_iff hI', hnil]
    simp
  refine ⟨c', hc', by simp [Len, hnil], ?_, hidx, fun k' => by rw [Get_of_absent (hidx k')]⟩
  rw [hI'.bytes, hnil]
  simp [sumSizes, wrapInt64]

/-- C19 (amended) at budget 10 with `a` and `b` held and a value of 20 bytes added. -/
theorem lru_oversized_add_empties_witness :
    ∃ c', Add (insert (insert (New 10 none ()) "a" (Sized.mk 1 3)) "b" (Sized.mk 2 3)) "k"
        (Sized.mk 3 20) = some c' ∧ Len c' = 0 ∧ c'.nbytes = 0 ∧
      (∀ k', mapGet c'.cache k' = none) ∧ ∀ k', (Get c' k').1 = none :=
  lru_oversized_add_empties 10 none () [.add "a" (Sized.mk 1 3), .add "b" (Sized.mk 2 3)] _ "k"
    (Sized.mk 3 20) (by decide) (by rfl) (by decide) (by decide) (by decide)

end GeeCache.lru

namespace GeeCache.consistenthash

/-- C15: on a ring created by `New`, whatever the replica count, the hash function and
the node lists of the `Add` calls, after each `Add` the point sequence `keys` is in
ascending order and every point of `keys` has a node in `hashMap`. -/
theorem ring_sorted_and_mapped (replicas : Int) (fn : Option Hash)
    (calls : List (List String)) :
    ((New replicas fn).addAll calls).keys.Sorted (· ≤ ·) ∧
    ∀ p ∈ ((New replicas fn).addAll calls).keys,
      ∃ node, mapGet ((New replicas fn).addAll calls).hashMap p = some node := by
  obtain ⟨hs, hm⟩ := ring_inv calls (New replicas fn) []
    (by simp [New, List.Sorted]) (by intro p hp; simp [New] at hp)
  refine ⟨hs, fun p hp => ?_⟩
  obtain ⟨node, _, hnode⟩ := hm p hp
  exact ⟨node, hnode⟩

/-- C16, as stated, fails: with one replica and the decimal hash, `Add("6")` gives the
point sequence `[6]` and a second `Add("6")` gives `[6, 6]`. -/
theorem ring_add_twice_counterexample :
    ((New 1 (some decimalHash)).Add ["6"]).keys = [6] ∧
    (((New 1 (some decimalHash)).Add ["6"]).Add ["6"]).keys = [6, 6] := by
  decide

/-- C16 (amended): for every ring, node `n` and key, adding `n` a second time directly
after adding `n` leaves the point-to-node mapping, the set of points and the result
of `Get(key)` unchanged; the point sequence gets a second copy of each of the
`replicas` points of `n`. -/
theorem ring_add_twice (m : Map) (n : String) (key : String) :
    (∀ p, mapGet ((m.Add [n]).Add [n]).hashMap p = mapGet (m.Add [n]).hashMap p) ∧
    (∀ p, p ∈ ((m.Add [n]).Add [n]).keys ↔ p ∈ (m.Add [n]).keys) ∧
    ((m.Add [n]).Add [n]).keys.Perm ((m.Add [n]).keys ++ nodePoints m n) ∧
    ((m.Add [n]).Add [n]).keys.length = (m.Add [n]).keys.length + m.replicas.toNat ∧
    ((m.Add [n]).Add [n]).Get key = (m.Add [n]).Get key := by
  have hh1 : (m.Add [n]).hash = m.hash := by simp [Map.Add, hash_addNode]
  have hr1 : (m.Add [n]).replicas = m.replicas := by simp [Map.Add, replicas_addNode]
  have hk1 : (m.Add [n]).keys = sortInts (m.keys ++ nodePoints m n) := by
    simp [Map.Add, keys_addNode]
  have hm1 : ∀ p, mapGet (m.Add [n]).hashMap p
      = if p ∈ nodePoints m n then some n else mapGet m.hashMap p := by
    intro p; simp [Map.Add, mapGet_addNode]
  have hpts : nodePoints (m.Add [n]) n = nodePoints m n := nodePoints_congr hh1 hr1 n
  have hh2 : ((m.Add [n]).Add [n]).hash = m.hash := by
    simp only [Map.Add, List.foldl_cons, List.foldl_nil, hash_addNode]
  have hk2 : ((m.Add [n]).Add [n]).keys = sortInts ((m.Add [n]).keys ++ nodePoints m n) := by
    rw [← hpts]
    simp [Map.Add, keys_addNode]
  have hm2 : ∀ p, mapGet ((m.Add [n]).Add [n]).hashMap p
      = if p ∈ nodePoints m n then some n else mapGet (m.Add [n]).hashMap p := by
    intro p
    rw [← hpts]
    simp [Map.Add, mapGet_addNode]
  have hmap : ∀ p, mapGet ((m.Add [n]).Add [n]).hashMap p = mapGet (m.Add [n]).hashMap p := by
    intro p
    rw [hm2, hm1]
    by_cases hp : p ∈ nodePoints m n <;> simp [hp]
  have hmem : ∀ p, p ∈ ((m.Add [n]).Add [n]).keys ↔ p ∈ (m.Add [n]).keys := by
    intro p
    rw [hk2, mem_sortInts, List.mem_append]
    constructor
    · rintro (hp | hp)
      · exact hp
      · rw [hk1, mem_sortInts]
        exact List.mem_append_right _ hp
    · intro hp
      exact Or.inl hp
  refine ⟨hmap, hmem, ?_, ?_, ?_⟩
  · rw [hk2]
    exact List.perm_insertionSort _ _
  · rw [hk2, length_sortInts, List.length_append]
    simp [nodePoints]
  · exact Get_congr (sorted_Add m [n]) (sorted_Add (m.Add [n]) [n]) hmem
      (fun p _ => hmap p) (hh2.trans hh1.symm) key

/-- C18: on a ring built by `New` and any sequence of `Add` calls, for every list of nodes
`N` and every key, `Get(key)` after `Add(N...)` is `Get(key)` before it or is one of
the nodes of `N`. -/
theorem ring_add_moves_to_added (replicas : Int) (fn : Option Hash)
    (calls : List (List String)) (N : List String) (key : String) :
    (((New replicas fn).addAll calls).Add N).Get key = ((New replicas fn).addAll calls).Get key ∨
    (((New replicas fn).addAll calls).Add N).Get key ∈ N := by
  obtain ⟨hs, _⟩ := ring_inv calls (New replicas fn) []
    (by simp [New, List.Sorted]) (by intro p hp; simp [New] at hp)
  exact Get_Add_or hs N key

end GeeCache.consistenthash

namespace GeeCache

/-- C11, as stated, fails in two ways, on the group `scores` with a picker that selects a
peer whose fetch fails.  With a budget of 1 byte `Get("Tom")` returns the bytes of the
backing source, but the entry (6 bytes) is evicted at once and the local cache does
not hold it afterwards.  With a budget of -1 the `Add` of the local cache never
ends, so `Get("Tom")` does not return. -/
theorem group_peer_fallback_counterexample :
    ((Group.Get { scores with mainCache := { cacheBytes := 1, lru := none },
                              peers := some (always downPeer) } "Tom").map
        (fun r => (valueOf r.1, (r.2.mainCache.get "Tom").1, r.2.trace)))
      = some (some (ByteView.mk [54, 51, 48]), none,
          [Event.pickPeer "Tom", Event.peerGet { Group := "scores", Key := "Tom" },
            Event.getterGet "Tom"]) ∧
    (Group.Get { scores with mainCache := { cacheBytes := -1, lru := none },
                             peers := some (always downPeer) } "Tom").isNone = true := by
  decide

/-- C11 (amended): for a `Group` with a budget `cacheBytes ≥ 0`, a peer picker attached
and a non-empty key `k` that the local cache does not hold: if the picker selects a
peer for `k` whose fetch returns an error, and the backing source returns the bytes
`b` for `k`, then `Get(k)` returns a `ByteView` of `b` without error, after one call
each of the picker, the peer and the backing source, and `(k, b)` is added to the
local store by `Add`; the local cache holds `b` for `k` afterwards when the entry
fits the budget (`cacheBytes = 0` or `len(k) + len(b) ≤ cacheBytes`). -/
theorem group_peer_fallback (g : Group) (k : String) (b : List UInt8) (picker : PeerPicker)
    (peer : PeerGetter) (err : Error) (hk : k ≠ "") (hmiss : (g.mainCache.get k).1 = none)
    (hreach : g.mainCache.Reachable) (hmax : 0 ≤ g.mainCache.cacheBytes)
    (hpeers : g.peers = some picker) (hpick : picker.PickPeer k = some peer)
    (hfetch : peer.Get { Group := g.name, Key := k } = .error err)
    (hsrc : g.getter k = .ok b) :
    ∃ l, lru.Add g.mainCache.store k (ByteView.mk b) = some l ∧
      g.Get k = some (.ok (ByteView.mk b),
        { g with mainCache := { g.mainCache with lru := some l }
                 trace := g.trace ++ [Event.pickPeer k,
                   Event.peerGet { Group := g.name, Key := k }, Event.getterGet k] }) ∧
      (g.mainCache.cacheBytes = 0 ∨
          (k.utf8ByteSize : Int) + (b.length : Int) ≤ g.mainCache.cacheBytes →
        (lru.Get l k).1 = some (ByteView.mk b)) := by
  obtain ⟨l, hl, hadd, hheld⟩ := cache.add_spec hreach hmax k (ByteView.mk b)
  have hget : g.mainCache.get k = (none, g.mainCache) :=
    Prod.ext hmiss (cache.get_miss hmiss)
  refine ⟨l, hl, ?_, ?_⟩
  · simp [Group.Get, hk, hget, Group.load, singleflight.Do, hpeers, hpick, Group.getFromPeer,
      hfetch, Group.getLocally, hsrc, Group.populateCache, hadd, cloneBytes]
  · intro hfit
    apply hheld
    intro h0
    have := ByteView_Len_le b
    rcases hfit with h | h
    · exact absurd h h0
    · omega

/-- C11 (amended) on the group `scores` with a picker that selects a peer whose fetch
fails. -/
theorem group_peer_fallback_witness :
    ∃ l, lru.Add (cache.store { cacheBytes := 2048, lru := none }) "Tom"
        (ByteView.mk [54, 51, 48]) = some l ∧
      Group.Get { scores with peers := some (always downPeer) } "Tom"
        = some (.ok (ByteView.mk [54, 51, 48]),
          { scores with peers := some (always downPeer)
                        mainCache := { cacheBytes := 2048, lru := some l }
                        trace := [Event.pickPeer "Tom",
                          Event.peerGet { Group := "scores", Key := "Tom" },
                          Event.getterGet "Tom"] }) ∧
      ((2048 : Int) = 0 ∨ ("Tom".utf8ByteSize : Int) + (([54, 51, 48] : List UInt8).length : Int)
          ≤ 2048 → (lru.Get l "Tom").1 = some (ByteView.mk [54, 51, 48])) :=
  group_peer_fallback { scores with peers := some (always downPeer) } "Tom" [54, 51, 48]
    (always downPeer) downPeer "peer down" (by decide) rfl True.intro (by decide) rfl rfl rfl rfl

/-- C12: for a `Group` with a peer picker attached and a non-empty key `k` that the local
cache does not hold: if the picker selects a peer for `k` and the fetch of that peer
returns the bytes `b`, then `Get(k)` returns a `ByteView` of `b` after one call of the
picker and one of the peer, the backing source is not called, and the local cache is
as before, so that `k` is still absent from it. -/
theorem group_peer_hit (g : Group) (k : String) (b : List UInt8) (picker : PeerPicker)
    (peer : PeerGetter) (hk : k ≠ "") (hmiss : (g.mainCache.get k).1 = none)
    (hpeers : g.peers = some picker) (hpick : picker.PickPeer k = some peer)
    (hfetch : peer.Get { Group := g.name, Key := k } = .ok { Value := b }) :
    g.Get k = some (.ok (ByteView.mk b),
      { g with trace := g.trace ++ [Event.pickPeer k,
          Event.peerGet { Group := g.name, Key := k }] }) ∧
    ∀ g', g.Get k = some (.ok (ByteView.mk b), g') →
      g'.mainCache = g.mainCache ∧ (g'.mainCache.get k).1 = none ∧
        Event.getterGet k ∉ g'.trace.drop g.trace.length := by
  have hget : g.mainCache.get k = (none, g.mainCache) :=
    Prod.ext hmiss (cache.get_miss hmiss)
  have h : g.Get k = some (.ok (ByteView.mk b),
      { g with trace := g.trace ++ [Event.pickPeer k,
          Event.peerGet { Group := g.name, Key := k }] }) := by
    simp [Group.Get, hk, hget, Group.load, singleflight.Do, hpeers, hpick, Group.getFromPeer,
      hfetch]
  refine ⟨h, ?_⟩
  intro g' hg'
  rw [h] at hg'
  simp only [Option.some.injEq, Prod.mk.injEq, true_and] at hg'
  subst hg'
  refine ⟨rfl, hmiss, ?_⟩
  simp

/-- C12 on the group `scores` with a picker that selects a peer that answers. -/
theorem group_peer_hit_witness :
    Group.Get { scores with peers := some (always upPeer) } "Tom"
      = some (.ok (ByteView.mk [54, 51, 48]),
        { scores with peers := some (always upPeer)
                      trace := [Event.pickPeer "Tom",
                        Event.peerGet { Group := "scores", Key := "Tom" }] }) :=
  (group_peer_hit { scores with peers := some (always upPeer) } "Tom" [54, 51, 48]
    (always upPeer) upPeer (by decide) rfl rfl rfl rfl).1

end GeeCache

namespace GeeCache

/-- C17, as stated, fails for a `nil` first picker: on the group `scores`,
`RegisterPeers(nil)` returns and leaves the picker `nil`, and the `RegisterPeers` that
follows does not panic and attaches its picker. -/
theorem group_register_twice_counterexample :
    ((scores.RegisterPeers none).1, (scores.RegisterPeers none).2.peers.isSome,
      ((scores.RegisterPeers none).2.RegisterPeers (some (always upPeer))).1,
      ((scores.RegisterPeers none).2.RegisterPeers (some (always upPeer))).2.peers.isSome)
      = (none, false, none, true) := by
  decide

/-- C17 (amended): on a `Group` with no picker attached, `RegisterPeers(p1)` with a picker
`p1` that is not `nil` returns and attaches `p1`, and a `RegisterPeers(p2)` that follows
panics for every `p2` and leaves the `Group` as it was, its picker equal to `p1`; after
`RegisterPeers(nil)` the picker is still `nil`, and a `RegisterPeers(p2)` that follows
does not panic and attaches `p2`. -/
theorem group_register_twice (g : Group) (p1 : PeerPicker) (p2 : Option PeerPicker)
    (hfresh : g.peers = none) :
    g.RegisterPeers (some p1) = (none, { g with peers := some p1 }) ∧
    ((g.RegisterPeers (some p1)).2.RegisterPeers p2).1
      = some "RegisterPeerPicker called more then once" ∧
    ((g.RegisterPeers (some p1)).2.RegisterPeers p2).2.peers = some p1 ∧
    ((g.RegisterPeers (some p1)).2.RegisterPeers p2).2 = (g.RegisterPeers (some p1)).2 ∧
    g.RegisterPeers none = (none, { g with peers := none }) ∧
    (g.RegisterPeers none).2.RegisterPeers p2 = (none, { g with peers := p2 }) := by
  simp [Group.RegisterPeers, hfresh]

/-- C17 (amended) on the group `scores`. -/
theorem group_register_twice_witness :
    scores.RegisterPeers (some (always upPeer))
      = (none, { scores with peers := some (always upPeer) }) ∧
    ((scores.RegisterPeers (some (always upPeer))).2.RegisterPeers
      (some (always downPeer))).1 = some "RegisterPeerPicker called more then once" ∧
    ((scores.RegisterPeers (some (always upPeer))).2.RegisterPeers
      (some (always downPeer))).2.peers = some (always upPeer) ∧
    ((scores.RegisterPeers (some (always upPeer))).2.RegisterPeers
      (some (always downPeer))).2 = (scores.RegisterPeers (some (always upPeer))).2 ∧
    scores.RegisterPeers none = (none, { scores with peers := none }) ∧
    (scores.RegisterPeers none).2.RegisterPeers (some (always downPeer))
      = (none, { scores with peers := some (always downPeer) }) :=
  group_register_twice scores (always upPeer) (some (always downPeer)) rfl

end GeeCache
